import Mathlib

/-!
Verification of the garnet compiler backend (Python source) against its
natural-language specification.  The Python modules are shallowly embedded:
pure functions become Lean functions, the mutable converter / allocator /
analyser state becomes explicit state records threaded through the
operations, unbounded recursion takes an explicit fuel argument (returning
`none` on exhaustion), and raised exceptions become `Except` errors.
Python integers are `Int` (arbitrary precision, floor division `//` is
`Int.fdiv`, bitwise `&` on `Int` is two's-complement `&&&`).
-/

set_option maxRecDepth 4000

namespace Garnet

/-! ## §1 Peephole optimiser (src/opt/__init__.py)

`Optimiser.peep_expr` pattern-matches on `inst.find()` and either performs a
rewrite (emitting helper instructions before `inst` with `emit_before` and
forwarding `inst` to a replacement value with `inst.replace`) or falls
through (`case _: return True`).  All patterns are over two-operand
instructions, so we embed `peep_expr` as a function of the opcode and the
two operand values (already dereferenced through `find`, as the Python
patterns do via `arg_0` / `arg_1`).

An operand, as seen by the patterns, is either a `CONST` instruction with a
known integer, or any other value (a `Param` or a non-constant `Inst`). -/

/-- The abstract SSA opcodes (class `Opcode` of src/ssa/abstract.py).
Note there is no `MULH` and no `UNOPT` member. -/
inductive AOpcode where
  | NOP | CONST | STORE | LOAD | CALL | ODD
  | ADD | SUB | MUL | DIV
  | SLT | SGT | SLE | SGE | SEQ | SNE
  | NEG | SRA | SRL | SLL
deriving DecidableEq, Repr

/-- An operand value as observed through `find()` by the peephole patterns:
either a `CONST` instruction carrying an integer, or an opaque non-constant
value (identified by an arbitrary tag). -/
inductive AVal where
  | cst : Int → AVal
  | opq : Nat → AVal
deriving DecidableEq, Repr

/-- Reference used inside a rewrite result: either one of the original
operand values, or the `i`-th helper instruction created by this rewrite. -/
inductive PRef where
  | old : AVal → PRef
  | new : Nat → PRef
deriving DecidableEq, Repr

/-- An instruction created by a peephole rewrite (`s.Inst.const` /
`s.Inst.binary`). -/
inductive PInst where
  | pconst : Int → PInst
  | pbin : AOpcode → PRef → PRef → PInst
deriving DecidableEq, Repr

/-- Outcome of `Optimiser.peep_expr` on one instruction.
`rewrite emitted repl` means: the instructions `emitted` are inserted
before the current instruction (`block.emit_before`) and the instruction is
forwarded (`inst.replace`) to `repl` — either an existing value or a fresh
instruction that is *not* inserted into the block (it is reachable only
through the forwarding chain).  `crash` marks the branches whose Python
body raises (`s.Inst.add` / `s.Inst.mul` do not exist, and
`s.Inst.const(·, display=hex)` passes an unexpected keyword), and
`nomatch` is the `case _: return True` fall-through. -/
inductive PeepResult where
  | nomatch
  | crash
  | rewrite (emitted : List PInst) (repl : PRef ⊕ PInst)
deriving DecidableEq, Repr

/-- Python `n.bit_length()` (for the non-negative integers reaching it). -/
def bitLength (n : Int) : Int :=
  (Nat.size n.natAbs : Int)

/-- The `s.Div(e1, s.Const(n))` chain of `peep_expr` (patterns in source
order: const/const folding guarded by `c2 != 0`, divisor 2, divisor 3,
divisor with `n & (n-1) == 0`). -/
def peepDiv (a : AVal) (n : Int) : PeepResult :=
  match a with
  | .cst c1 =>
      if n ≠ 0 then .rewrite [] (.inr (.pconst (Int.fdiv c1 n)))
      else peepDivTail a n
  | .opq _ => peepDivTail a n
where
  /-- The divisor-2 / divisor-3 / power-of-two patterns, reached when the
  const/const fold did not fire. -/
  peepDivTail (a : AVal) (n : Int) : PeepResult :=
    if n = 2 then
      .rewrite [.pconst 63, .pbin .SRL (.old a) (.new 0),
                .pbin .ADD (.old a) (.new 1), .pconst 1]
        (.inr (.pbin .SRA (.new 2) (.new 3)))
    else if n = 3 then
      .crash
    else if Int.land n (n - 1) = 0 then
      let k : Int := bitLength n - 1
      .rewrite [.pconst (k - 1), .pbin .SRA (.old a) (.new 0),
                .pconst (64 - k), .pbin .SRL (.new 1) (.new 2),
                .pbin .ADD (.old a) (.new 3), .pconst k]
        (.inr (.pbin .SRA (.new 4) (.new 5)))
    else .nomatch

/-- `Optimiser.peep_expr` of src/opt/__init__.py, for a two-operand
instruction with opcode `op` and operand values `a`, `b`.  The Python
`case` arms are tried in source order; literal sub-patterns such as
`s.Const(0)` become equality tests on the constant. -/
def peep_expr (op : AOpcode) (a b : AVal) : PeepResult :=
  match op with
  | .ADD =>
    match a, b with
    | .cst c1, .cst c2 => .rewrite [] (.inr (.pconst (c1 + c2)))
    | .cst _, .opq _ => .crash
    | .opq j, .cst c =>
        if c = 0 then .rewrite [] (.inl (.old (.opq j))) else .nomatch
    | .opq _, .opq _ => .nomatch
  | .MUL =>
    match a, b with
    | .cst c1, .cst c2 => .rewrite [] (.inr (.pconst (c1 * c2)))
    | .cst _, .opq _ => .crash
    | .opq j, .cst c =>
        if c = 0 then .rewrite [] (.inl (.old (.cst 0)))
        else if c = 1 then .rewrite [] (.inl (.old (.opq j)))
        else if c = 2 then
          .rewrite [.pconst 1] (.inr (.pbin .SLL (.old (.opq j)) (.new 0)))
        else .nomatch
    | .opq _, .opq _ => .nomatch
  | .DIV =>
    match b with
    | .cst n => peepDiv a n
    | .opq _ => .nomatch
  | _ => .nomatch

/-! ## §2 Instruction selector (src/sel/riscv64.py)

`InsSel.do_munch_expr` tiles one abstract instruction, recursing into its
operands through `munch_expr`; `munch_expr` appends the selected
instruction to the per-value output list `self.output` (unless the result
is a `Param`).  We embed the abstract values reaching the selector as
operand trees (the `done`/`result` caching only de-duplicates work on the
shared DAG; it never changes which instruction a value selects to), and
`munch_expr` as a recursive function returning the selected value together
with the instructions appended to `self.output` while selecting it. -/

/-- The RV64 opcode enum.  Modelled from the spec: the Python module
`riscv64` (`from riscv64 import Opcode, Register`) is imported by
src/ssa/riscv64.py but is not part of src/; spec §6 lists its members
(`LI, LA, LD, SD, MV, ADD, ADDI, SUB, MUL, MULH, DIV, SLL, SLLI, SRL,
SRLI, SRA, SRAI, AND, ANDI`, the comparisons and their zero variants, and
the pseudo-opcode `CALL` which src/ssa/riscv64.py keeps in
`PseudoOpcode`). -/
inductive ROpcode where
  | LI | LA | LD | SD | MV
  | ADD | ADDI | SUB | MUL | MULH | DIV
  | SLL | SLLI | SRL | SRLI | SRA | SRAI
  | ANDI
  | SEQ | SNE | SLT | SGT | SLE | SGE
  | SEQZ | SNEZ | SLTZ | SGTZ | SLEZ | SGEZ
  | CALL
deriving DecidableEq, Repr

/-- An abstract SSA value reaching the selector, as an operand tree
(operands dereferenced through `find`). -/
inductive ATree where
  | aparam : Nat → ATree
  | aconst : Int → ATree
  | abin : AOpcode → ATree → ATree → ATree
  | aodd : ATree → ATree
  | aneg : ATree → ATree
  | acall : String → ATree
  | astore : String → ATree → ATree
  | aload : String → ATree
deriving DecidableEq, Repr

/-- A RISC-V 64 SSA value produced by the selector (`sr.Inst`, `sr.Imm`,
`sr.Sym`, `sr.Off`, or a pass-through `Param`). -/
inductive RTree where
  | rparam : Nat → RTree
  | rimm : Int → RTree
  | rsym : String → RTree
  | roff : RTree → Int → RTree
  | run : ROpcode → RTree → RTree
  | rbin : ROpcode → RTree → RTree → RTree
deriving DecidableEq, Repr

/-- The `CMP` table of src/sel/riscv64.py, as a partial map from abstract
comparison opcode to (register form, zero form); `iscmp(op)` is
`op in CMP`, i.e. `(cmpPair op).isSome`. -/
def cmpPair : AOpcode → Option (ROpcode × ROpcode)
  | .SEQ => some (.SEQ, .SEQZ)
  | .SNE => some (.SNE, .SNEZ)
  | .SLT => some (.SLT, .SLTZ)
  | .SGT => some (.SGT, .SGTZ)
  | .SLE => some (.SLE, .SLEZ)
  | .SGE => some (.SGE, .SGEZ)
  | _ => none

/-- `InsSel.munch_expr` / `InsSel.do_munch_expr` of src/sel/riscv64.py on
an operand tree.  Returns the selected value and the list of instructions
appended to `self.output` during its selection (the selected value itself
last, except for `Param`s, which are returned unappended).  Shapes with no
tile (e.g. `NEG`, or a binary tree with a non-binary opcode) raise
`RuntimeError` in the source: here `none`. -/
def munch_expr : ATree → Option (RTree × List RTree)
  | .aparam k => some (.rparam k, [])
  | .aconst n =>
      let v := RTree.run .LI (.rimm n)
      some (v, [v])
  | .abin op l r =>
    match op with
    | .ADD =>
      match r with
      | .aconst c1 => do
          let (v0, o0) ← munch_expr l
          let v := RTree.rbin .ADDI v0 (.rimm c1)
          return (v, o0 ++ [v])
      | _ => do
          let (v0, o0) ← munch_expr l
          let (v1, o1) ← munch_expr r
          let v := RTree.rbin .ADD v0 v1
          return (v, o0 ++ o1 ++ [v])
    | .SUB =>
      match r with
      | .aconst c1 => do
          let (v0, o0) ← munch_expr l
          let v := RTree.rbin .ADDI v0 (.rimm (-c1))
          return (v, o0 ++ [v])
      | _ => do
          let (v0, o0) ← munch_expr l
          let (v1, o1) ← munch_expr r
          let v := RTree.rbin .SUB v0 v1
          return (v, o0 ++ o1 ++ [v])
    | .MUL => do
        let (v0, o0) ← munch_expr l
        let (v1, o1) ← munch_expr r
        let v := RTree.rbin .MUL v0 v1
        return (v, o0 ++ o1 ++ [v])
    | .SRA =>
      match r with
      | .aconst c1 => do
          let (v0, o0) ← munch_expr l
          let v := RTree.rbin .SRAI v0 (.rimm c1)
          return (v, o0 ++ [v])
      | _ => do
          let (v0, o0) ← munch_expr l
          let (v1, o1) ← munch_expr r
          let v := RTree.rbin .SRA v0 v1
          return (v, o0 ++ o1 ++ [v])
    | .SRL =>
      match r with
      | .aconst c1 => do
          let (v0, o0) ← munch_expr l
          let v := RTree.rbin .SRLI v0 (.rimm c1)
          return (v, o0 ++ [v])
      | _ => do
          let (v0, o0) ← munch_expr l
          let (v1, o1) ← munch_expr r
          let v := RTree.rbin .SRL v0 v1
          return (v, o0 ++ o1 ++ [v])
    | .SLL =>
      match r with
      | .aconst c1 => do
          let (v0, o0) ← munch_expr l
          let v := RTree.rbin .SLLI v0 (.rimm c1)
          return (v, o0 ++ [v])
      | _ => do
          let (v0, o0) ← munch_expr l
          let (v1, o1) ← munch_expr r
          let v := RTree.rbin .SLL v0 v1
          return (v, o0 ++ o1 ++ [v])
    | .DIV => do
        let (v0, o0) ← munch_expr l
        let (v1, o1) ← munch_expr r
        let v := RTree.rbin .DIV v0 v1
        return (v, o0 ++ o1 ++ [v])
    | _ =>
      match cmpPair op with
      | some (rop, zop) =>
        if r = .aconst 0 then do
          let (v0, o0) ← munch_expr l
          let v := RTree.run zop v0
          return (v, o0 ++ [v])
        else do
          let (v0, o0) ← munch_expr l
          let (v1, o1) ← munch_expr r
          let v := RTree.rbin rop v0 v1
          return (v, o0 ++ o1 ++ [v])
      | none => none
  | .aodd e => do
      let (v0, o0) ← munch_expr e
      let v1 := RTree.rbin .ANDI v0 (.rimm 1)
      let v := RTree.run .SNEZ v1
      return (v, o0 ++ [v1] ++ [v])
  | .aneg _ => none
  | .acall p =>
      let f := RTree.run .LA (.rsym p)
      let v := RTree.run .CALL f
      some (v, [f, v])
  | .astore x e => do
      let (v0, o0) ← munch_expr e
      let a := RTree.run .LA (.rsym x)
      let v := RTree.rbin .SD v0 (.roff a 0)
      return (v, o0 ++ [a] ++ [v])
  | .aload x =>
      let a := RTree.run .LA (.rsym x)
      let v := RTree.run .LD (.roff a 0)
      some (v, [a, v])

/-! ## §3 Value forwarding (src/ssa/__init__.py, class `Value`)

`Value.find` walks the `forwarded` chain, but its loop condition is
`while isinstance(result, Inst)`: the walk continues only through `Inst`
objects.  We embed the object graph as a heap of nodes (index = object
identity) carrying their class kind and `forwarded` slot. -/

/-- Which `Value` subclass a heap node belongs to, as far as `find`'s
`isinstance(result, Inst)` test can tell: an `Inst`, a `Param`, or one of
the other non-`Inst` value classes (`Reg`, `Imm`, ...). -/
inductive VKind where
  | inst | param | simple
deriving DecidableEq, Repr

/-- A `Value` object: its class kind and its `forwarded` slot. -/
structure VObj where
  kind : VKind
  forwarded : Option Nat
deriving DecidableEq, Repr

/-- `Value.find`: follow the forwarding chain while the current object is
an `Inst`; stop (returning the current object) at the first non-`Inst`
object or at an `Inst` whose `forwarded` slot is empty.  Fuel-limited
(`none` = the chain was longer than the fuel; forwarding never creates
cycles, per the assert in `Value.forward`). -/
def find (h : List VObj) : Nat → Nat → Option Nat
  | 0, _ => none
  | fuel + 1, v =>
    match h.get? v with
    | none => none
    | some o =>
      if o.kind = .inst then
        match o.forwarded with
        | none => some v
        | some w => find h fuel w
      else some v

/-- `Value.forward`: set the `forwarded` slot of `v` to `w`; forwarding a
value twice is a programmer error (`assert self.forwarded is None`),
embedded as `none`. -/
def forward (h : List VObj) (v w : Nat) : Option (List VObj) :=
  match h.get? v with
  | none => none
  | some o =>
    match o.forwarded with
    | none => some (h.set v { o with forwarded := some w })
    | some _ => none

/-! ## §4 Register allocator, per-block colouring (src/regalloc.py)

`RegisterAllocator.allocate` walks the dominator tree; at each block the
inner body of `go` colours the block's values: parameters are preassigned
colours `0, 1, …`, last uses are computed (instruction operands that are
`assignable`, the continuation's `uses` and `args`), and then each
instruction in order frees the colours of operands dying at it and, if the
instruction produces a value, draws the *lowest-numbered colour not
currently assigned* from `itertools.count(0)` — an unbounded supply.

Values are embedded as `Nat` identities; an instruction is identified by
its index in the block (Python compares `last_use[arg] == inst` by object
identity).  The two dictionary lookups that can raise `KeyError`
(`last_use[arg]`, `assignment[arg]`) are embedded as `Option` failures. -/

/-- An instruction as the allocator sees it: the value identity it
defines, its operand values (each tagged with its `assignable` flag:
`Param`s and RV64 `Inst`s are assignable, `Imm`/`Sym`/`Off`/`Zero` are
not), and its `output` flag. -/
structure RAInst where
  vid : Nat
  args : List (Nat × Bool)
  output : Bool
deriving DecidableEq, Repr

/-- A block as the allocator sees it: parameter value identities, the
instructions in order, the continuation's `uses` (the branch value, if
any) and the continuation's edge-argument values. -/
structure RABlock where
  params : List Nat
  insts : List RAInst
  contUses : List Nat
  contArgs : List Nat
deriving DecidableEq, Repr

/-- A use site, for `last_use`: an instruction (by index) or the
continuation. -/
inductive UseSite where
  | instAt : Nat → UseSite
  | cont : UseSite
deriving DecidableEq, Repr

/-- Overwrite one key of a finite map embedded as a function. -/
def updMap {β : Type} (m : Nat → Option β) (k : Nat) (v : β) :
    Nat → Option β :=
  fun x => if x = k then some v else m x

/-- The `last_use` dictionary: assignable instruction operands map to the
last instruction using them, then the continuation's uses and args map to
the continuation (later writes overwrite earlier ones, as in the Python
dict). -/
def lastUse (b : RABlock) : Nat → Option UseSite :=
  let m1 := b.insts.enum.foldl
    (fun m p => p.2.args.foldl
      (fun m a => if a.2 then updMap m a.1 (.instAt p.1) else m) m)
    (fun _ => none)
  let m2 := b.contUses.foldl (fun m u => updMap m u .cont) m1
  b.contArgs.foldl (fun m a => updMap m a .cont) m2

/-- `next(c for c in itertools.count(0) if c not in assigned)`: the lowest
natural number not in `s`, found by scanning from `0`.  A fuel of
`s.length + 1` always suffices (at most `s.length` candidates can be
members of `s`), so the fuel-exhausted branch is unreachable. -/
def firstFreeFrom (s : List Nat) : Nat → Nat → Nat
  | 0, c => c
  | fuel + 1, c => if c ∈ s then firstFreeFrom s fuel (c + 1) else c

/-- The lowest colour not in `s`. -/
def firstFree (s : List Nat) : Nat :=
  firstFreeFrom s (s.length + 1) 0

/-- One iteration of the allocation loop of `go` (src/regalloc.py lines
67-77) on instruction `p.2` at index `p.1`: free the colours of operands
dying here, then, if the instruction produces a value, draw the lowest
free colour for it and mark it live when it has a recorded use.  The state
is `(assignment, assigned)`; `none` embeds the `KeyError`s of
`last_use[arg]` / `assignment[arg]`. -/
def allocStep (lu : Nat → Option UseSite)
    (st : (Nat → Option Nat) × List Nat) (p : Nat × RAInst) :
    Option ((Nat → Option Nat) × List Nat) := do
  let assigned ← p.2.args.foldlM (fun (asg : List Nat) a => do
      if a.2 then
        match lu a.1 with
        | some site =>
            if site = .instAt p.1 then
              match st.1 a.1 with
              | some c => pure (asg.erase c)
              | none => none
            else pure asg
        | none => none
      else pure asg) st.2
  if p.2.output then
    let c := firstFree assigned
    let assignment := updMap st.1 p.2.vid c
    let assigned' := if (lu p.2.vid).isSome then assigned.insert c else assigned
    pure (assignment, assigned')
  else
    pure (st.1, assigned)

/-- The per-block body of `RegisterAllocator.allocate`'s `go`: preassign
the block's parameters the colours `0, 1, …`, then run the allocation loop
over the instructions.  Returns the block's `assignment` map and the final
live-colour set, or `none` where the Python raises `KeyError`.  Note there
is no failure case for running out of colours: the supply
`itertools.count(0)` is unbounded. -/
def allocate_block (b : RABlock) :
    Option ((Nat → Option Nat) × List Nat) :=
  let m0 := b.params.enum.foldl (fun m p => updMap m p.2 p.1)
    (fun _ => none)
  b.insts.enum.foldlM (allocStep (lastUse b)) (m0, List.range b.params.length)

/-- `v` is a value available to instruction `i` of block `b` from inside
the block: a block parameter, or the output of an earlier instruction. -/
def availBefore (b : RABlock) (i : Nat) (v : Nat) : Prop :=
  v ∈ b.params ∨
    ∃ j inst, j < i ∧ b.insts.get? j = some inst ∧ inst.output ∧
      inst.vid = v

/-- A block with 40 simultaneously-live values and no physical-register
bound in sight: 40 output instructions whose values are all still live at
the continuation. -/
def highPressureBlock : RABlock :=
  { params := []
    insts := (List.range 40).map (fun j => ⟨100 + j, [], true⟩)
    contUses := []
    contArgs := (List.range 40).map (fun j => 100 + j) }

/-! ## §5 Critical-edge splitting (src/dom.py, `LengauerTarjan.splitcrit`)

The analyser mirrors the block graph with `Node` objects; `splitcrit`
iterates over `self.nodes` (which grows as split nodes are appended), and
for every node `v` with more than one child splits each edge to a child
`u` with more than one predecessor, keeping `Node.children/preds`,
`Block.succs/preds`, the continuation edges and the edge-argument maps in
lock-step.  We embed one record per node carrying the (shared) successor
and predecessor lists, the block's parameters, the continuation edges
(aligned with `children`, as `_graph` builds them from `cont.targets`),
and the label.  Params and values are `Nat` identities; nodes are indices
into the node list. -/

/-- A continuation edge: target node and the argument map
`{param_of_target ↦ value}` (an insertion-ordered association list, like
the Python dict). -/
structure SEdge where
  target : Nat
  args : List (Nat × Nat)
deriving DecidableEq, Repr

/-- A block label.  `Block()` draws `f'b{i}'` from the class-level counter
`anon_labels`; `splitcrit` then appends `'_split'`.  Only these two shapes
ever arise, and only the construction and the `_split` suffix are
observed, so the label strings are embedded as this two-constructor type:
`anon i` stands for `"b{i}"` and `split i` for `"b{i}" + "_split"`. -/
inductive SLabel where
  | anon : Nat → SLabel
  | split : Nat → SLabel
deriving DecidableEq, Repr

/-- Does the label string end in `'_split'`? -/
def SLabel.hasSplitSuffix : SLabel → Bool
  | .anon _ => false
  | .split _ => true

/-- A node of the analyser's graph together with its block's data. -/
structure SNode where
  children : List Nat
  preds : List Nat
  params : List Nat
  edges : List SEdge
  label : SLabel
deriving DecidableEq, Repr

/-- The analyser state: the node list, plus the fresh-parameter counter
(`Block.anon_params`) and fresh-label counter (`Block.anon_labels`). -/
structure SGraph where
  nodes : List SNode
  paramCounter : Nat
  labelCounter : Nat
deriving DecidableEq, Repr

/-- Dict lookup in an association list (first binding wins, as every key
is bound at most once by Python dict insertion). -/
def alookup (k : Nat) : List (Nat × Nat) → Option Nat
  | [] => none
  | p :: t => if p.1 = k then some p.2 else alookup k t

/-- `u.preds[u.preds.index(v)] = w`: replace the first occurrence of `a`
by `b` (`none` embeds the `ValueError` of `list.index` when `a` is
absent). -/
def replaceFirst (l : List Nat) (a b : Nat) : Option (List Nat) :=
  match l with
  | [] => none
  | x :: t =>
      if x = a then some (b :: t)
      else (replaceFirst t a b).map (x :: ·)

/-- The `av` map of the split: for the `j`-th parameter `pu` of `u`
(paired with the fresh parameter `pw` of the split block),
`av[pw] = v.block.cont.edges[i].args[pu]`; a missing argument raises
`KeyError` (`none`). -/
def buildAv : List (Nat × Nat) → List (Nat × Nat) → Option (List (Nat × Nat))
  | [], _ => some []
  | (pu, pw) :: rest, oldArgs => do
      let v ← alookup pu oldArgs
      let tail ← buildAv rest oldArgs
      return (pw, v) :: tail

/-- The fresh split node built for slot `i` of `vIdx` targeting `uIdx`
(`b = Block(); b.label += '_split'; b.cont = Cont.jump(u.block)`, its
parameters mirroring `u`'s and its jump edge forwarding them via `aw`). -/
def mkSplitNode (g : SGraph) (vIdx uIdx : Nat) (uParams : List Nat) : SNode :=
  { children := [uIdx], preds := [vIdx],
    params := (List.range uParams.length).map (g.paramCounter + ·),
    edges := [{ target := uIdx,
                args := uParams.zip
                  ((List.range uParams.length).map (g.paramCounter + ·)) }],
    label := SLabel.split g.labelCounter }

/-- `v` after its `i`-th child and edge are redirected to the split
node. -/
def redirectNode (g : SGraph) (v : SNode) (i : Nat)
    (av : List (Nat × Nat)) : SNode :=
  { v with children := v.children.set i g.nodes.length,
           edges := v.edges.set i { target := g.nodes.length, args := av } }

/-- The body of `splitcrit`'s inner loop for child slot `i` of node
`vIdx`: if the current child has more than one predecessor, insert the
fresh `_split` node between them, rewriting `v`'s `i`-th edge to target it
with the `av` arguments, giving the new node a single jump edge to `u`
carrying the `aw` (param-forwarding) arguments, and updating the CFG
lists.  The guard `len(v.children) > 1` is checked by the caller. -/
def splitOne (g : SGraph) (vIdx i : Nat) : Option SGraph := do
  let v ← g.nodes.get? vIdx
  let uIdx ← v.children.get? i
  let u ← g.nodes.get? uIdx
  if 1 < u.preds.length then
    let oldEdge ← v.edges.get? i
    let av ← buildAv (u.params.zip
        ((List.range u.params.length).map (g.paramCounter + ·)))
      oldEdge.args
    let nodes₁ := g.nodes.set vIdx (redirectNode g v i av)
    let u₁ ← nodes₁.get? uIdx
    let uPreds' ← replaceFirst u₁.preds vIdx g.nodes.length
    let nodes₂ := nodes₁.set uIdx { u₁ with preds := uPreds' }
    return { nodes := nodes₂ ++ [mkSplitNode g vIdx uIdx u.params],
             paramCounter := g.paramCounter + u.params.length,
             labelCounter := g.labelCounter + 1 }
  else
    return g

/-- The inner loop `for i, u in enumerate(v.children)` (the list's length
never changes; element `i` is re-read from the current state at each
step). -/
def splitChildrenAux (vIdx : Nat) : Nat → Nat → SGraph → Option SGraph
  | _, 0, g => some g
  | i, r + 1, g => do splitChildrenAux vIdx (i + 1) r (← splitOne g vIdx i)

/-- The outer loop `for v in self.nodes` of `splitcrit` (the node list
grows while it is being iterated; Python's list iterator then visits the
appended nodes too).  Fuel-limited; `none` = fuel exhausted. -/
def splitcritAux : Nat → Nat → SGraph → Option SGraph
  | 0, _, _ => none
  | fuel + 1, idx, g =>
    match g.nodes.get? idx with
    | none => some g
    | some v =>
      if 1 < v.children.length then do
        splitcritAux fuel (idx + 1) (← splitChildrenAux idx 0 v.children.length g)
      else splitcritAux fuel (idx + 1) g

/-- `LengauerTarjan.splitcrit`. -/
def splitcrit (g : SGraph) (fuel : Nat) : Option SGraph :=
  splitcritAux fuel 0 g

/-- Invariant I6 at node `k`: no edge out of `k` joins a multi-successor
node to a multi-predecessor node. -/
def NoCritFor (g : SGraph) (k : Nat) : Prop :=
  ∀ v, g.nodes.get? k = some v → ∀ i uIdx, v.children.get? i = some uIdx →
    ∀ u, g.nodes.get? uIdx = some u →
      ¬(1 < v.children.length ∧ 1 < u.preds.length)

/-- Slot `j` of node `vIdx` is safe: its target has at most one
predecessor. -/
def SafeSlot (g : SGraph) (vIdx j : Nat) : Prop :=
  ∀ v, g.nodes.get? vIdx = some v → ∀ uIdx, v.children.get? j = some uIdx →
    ∀ u, g.nodes.get? uIdx = some u → u.preds.length ≤ 1

/-- How one `splitcrit` step (splitting edges out of `vIdx`) changes the
graph: every pre-existing node survives with unchanged `children`/`preds`
lengths, `params` and `label` (and, away from `vIdx`, unchanged `children`
and `edges`); every node of the result is either pre-existing or a fresh
single-predecessor single-successor split node. -/
def Ext (vIdx : Nat) (g g' : SGraph) : Prop :=
  g.nodes.length ≤ g'.nodes.length ∧
  (∀ k n, g.nodes.get? k = some n → ∃ n', g'.nodes.get? k = some n' ∧
    n'.children.length = n.children.length ∧
    n'.preds.length = n.preds.length ∧
    n'.params = n.params ∧ n'.label = n.label ∧
    (k ≠ vIdx → n'.children = n.children ∧ n'.edges = n.edges)) ∧
  (∀ k n', g'.nodes.get? k = some n' →
    k < g.nodes.length ∨ (n'.preds.length = 1 ∧ n'.children.length = 1))

/-- What remains, in a graph `g'`, of the splitting of the critical edge
at slot `i` of node `vIdx` (original target `uIdx` with parameters
`uParams`, original argument map `e₀args`): slot `i` now reaches a fresh
`_split`-labelled node `n` whose single jump edge leads to `uIdx`, and the
two new argument maps compose to the original one. -/
def SplitPieces (lenLB : Nat) (g' : SGraph) (vIdx i uIdx : Nat)
    (uParams : List Nat) (e₀args : List (Nat × Nat)) : Prop :=
  ∃ n v' w e', g'.nodes.get? vIdx = some v' ∧
    v'.children.get? i = some n ∧
    lenLB ≤ n ∧ vIdx < n ∧
    g'.nodes.get? n = some w ∧
    w.label.hasSplitSuffix = true ∧
    w.children = [uIdx] ∧ w.preds = [vIdx] ∧
    v'.edges.get? i = some e' ∧ e'.target = n ∧
    ∃ ew, w.edges = [ew] ∧ ew.target = uIdx ∧
      ∀ pu ∈ uParams, ∃ pw, alookup pu ew.args = some pw ∧
        alookup pw e'.args = alookup pu e₀args

/-- A diamond CFG with one critical edge: the entry branches to `bthen`
and `bexit`, `bthen` jumps to `bexit`, and `bexit` (two predecessors) has
one parameter `50`; the entry's direct edge `0 → 2` is critical and
carries the argument `50 ↦ 7`. -/
def diamondGraph : SGraph :=
  { nodes := [
      ⟨[1, 2], [], [], [⟨1, []⟩, ⟨2, [(50, 7)]⟩], SLabel.anon 1⟩,
      ⟨[2], [0], [], [⟨2, [(50, 8)]⟩], SLabel.anon 2⟩,
      ⟨[], [0, 1], [50], [], SLabel.anon 3⟩],
    paramCounter := 60, labelCounter := 9 }

/-- The graph `splitcrit` produces from `diamondGraph`. -/
def diamondSplit : SGraph := (splitcrit diamondGraph 10).getD diamondGraph

/-! ### The parallel-move sequencer (`regalloc.parallelmoves`, claim C3) -/

/-- `ParMove`, the per-move state used by `parallelmoves`
(regalloc.py lines 9-12). -/
inductive PM where
  | notmoved
  | moving
  | moved
deriving DecidableEq, Repr

/-- The mutable state of `parallelmoves`: the (rewritable) `moves` list,
the `state` list and the accumulated `results`.  A move is a
`(source, destination)` register pair. -/
structure PMSt where
  moves : List (Nat × Nat)
  state : List PM
  results : List (Nat × Nat)
deriving DecidableEq, Repr

/-- The inner loop `for j in range(len(moves))` of `pmov1`, parameterised
by the recursive call `f = pmov1` (the `NOTMOVED` case recurses; the
`MOVING` case appends `(moves[j][0], tmp)` to the results and rewrites
`moves[j] = (tmp, moves[j][1])`; `MOVED` does nothing).  `moves[j]` and
`moves[i]` are re-read from the current state at every iteration, as in
Python; an out-of-range index is `none`. -/
def pmInner (f : Nat → PMSt → Option PMSt) (tmp i : Nat) :
    Nat → Nat → PMSt → Option PMSt
  | _, 0, st => some st
  | j, r + 1, st => do
      let mj ← st.moves.get? j
      let mi ← st.moves.get? i
      if mj.1 = mi.2 then
        match st.state.get? j with
        | some PM.notmoved => do
            pmInner f tmp i (j + 1) r (← f j st)
        | some PM.moving =>
            pmInner f tmp i (j + 1) r
              { st with moves := st.moves.set j (tmp, mj.2),
                        results := st.results ++ [(mj.1, tmp)] }
        | some PM.moved => pmInner f tmp i (j + 1) r st
        | none => none
      else pmInner f tmp i (j + 1) r st

/-- `pmov1(i)` (regalloc.py lines 17-31): skip self-moves, mark `i`
`MOVING`, run the inner loop, then emit `i`'s (possibly rewritten) move
and mark it `MOVED`.  Fuel-limited: `none` = fuel exhausted. -/
def pmov1 (tmp : Nat) : Nat → Nat → PMSt → Option PMSt
  | 0, _, _ => none
  | fuel + 1, i, st => do
      let mi ← st.moves.get? i
      if mi.1 = mi.2 then return st
      else
        let st₂ ← pmInner (pmov1 tmp fuel) tmp i 0 st.moves.length
          { st with state := st.state.set i PM.moving }
        let mi₂ ← st₂.moves.get? i
        return { st₂ with results := st₂.results ++ [(mi₂.1, mi₂.2)],
                          state := st₂.state.set i PM.moved }

/-- The outer loop `for i in range(len(moves))` of `parallelmoves`
(regalloc.py lines 32-34). -/
def pmOuter (tmp fuel : Nat) : Nat → Nat → PMSt → Option PMSt
  | _, 0, st => some st
  | i, r + 1, st =>
      match st.state.get? i with
      | some PM.notmoved => do
          pmOuter tmp fuel (i + 1) r (← pmov1 tmp fuel i st)
      | some _ => pmOuter tmp fuel (i + 1) r st
      | none => none

/-- `parallelmoves(moves, tmp)` (regalloc.py lines 14-35). -/
def parallelmoves (moves : List (Nat × Nat)) (tmp fuel : Nat) :
    Option (List (Nat × Nat)) :=
  (pmOuter tmp fuel 0 moves.length
    ⟨moves, List.replicate moves.length PM.notmoved, []⟩).map PMSt.results

/-- Execute a move list sequentially over a register file: `(src, dst)`
sets register `dst` to the current value of register `src`. -/
def applyMoves : List (Nat × Nat) → (Nat → Nat) → Nat → Nat
  | [], r => r
  | (s, d) :: rest, r =>
      applyMoves rest (fun y => if y = d then r s else r y)

/-- The side conditions of claim C3: pairwise-distinct destinations and a
temporary register occurring nowhere in the move list. -/
def PMOk (moves0 : List (Nat × Nat)) (tmp : Nat) : Prop :=
  (moves0.map Prod.snd).Nodup ∧ ∀ m ∈ moves0, m.1 ≠ tmp ∧ m.2 ≠ tmp

/-- Move `k` is safe w.r.t. an upcoming write to register `d`: it has
already been emitted, or its current source is not `d`. -/
def HandledAt (st : PMSt) (k d : Nat) : Prop :=
  st.state.get? k = some PM.moved ∨
    ∀ m, st.moves.get? k = some m → m.1 ≠ d

/-- How any piece of `parallelmoves` evolves the state: lengths are
fixed, `MOVED` entries stay `MOVED`, and a move's source is only ever
rewritten to `tmp`. -/
def PMStep (tmp : Nat) (st st' : PMSt) : Prop :=
  st'.moves.length = st.moves.length ∧
  st'.state.length = st.state.length ∧
  (∀ k, st.state.get? k = some PM.moved →
    st'.state.get? k = some PM.moved) ∧
  (∀ k m m', st.moves.get? k = some m → st'.moves.get? k = some m' →
    m'.1 = m.1 ∨ m'.1 = tmp)

/-- The main invariant of `parallelmoves`, relative to the original move
list `moves0`, the temporary `tmp`, an arbitrary initial register file
`r0` and the current recursion stack `L` (innermost call first, outermost
— the cycle root — last): destinations are never rewritten; the `MOVING`
moves are exactly the stack; consecutive stack entries are chained
(source of the later call = original destination of the earlier); a
source differs from its original one only by being rewritten to `tmp`,
and only at the root; an emitted move's destination already holds its
original source's initial value; and a pending move's current source
still holds its original source's initial value. -/
structure PMInv (moves0 : List (Nat × Nat)) (tmp : Nat) (r0 : Nat → Nat)
    (st : PMSt) (L : List Nat) : Prop where
  lenM : st.moves.length = moves0.length
  lenS : st.state.length = moves0.length
  dstEq : ∀ j m0 m, moves0.get? j = some m0 → st.moves.get? j = some m →
    m.2 = m0.2
  movingIff : ∀ j, st.state.get? j = some PM.moving ↔ j ∈ L
  nodupL : L.Nodup
  chainL : ∀ k a b, L.get? k = some a → L.get? (k + 1) = some b →
    ∀ ma mb, moves0.get? a = some ma → moves0.get? b = some mb →
      ma.1 = mb.2
  srcEq : ∀ j m0 m, moves0.get? j = some m0 → st.moves.get? j = some m →
    st.state.get? j ≠ some PM.moved →
    m.1 = m0.1 ∨ (m.1 = tmp ∧ L.get? (L.length - 1) = some j)
  movedVal : ∀ j m0, moves0.get? j = some m0 →
    st.state.get? j = some PM.moved →
    applyMoves st.results r0 m0.2 = r0 m0.1
  liveVal : ∀ j m0 m, moves0.get? j = some m0 → st.moves.get? j = some m →
    st.state.get? j ≠ some PM.moved →
    applyMoves st.results r0 m.1 = r0 m0.1

/-- A move the outer loop has passed: emitted, or an original
self-move. -/
def DoneAt (moves0 : List (Nat × Nat)) (st : PMSt) (k : Nat) : Prop :=
  st.state.get? k = some PM.moved ∨
    ∃ m0, moves0.get? k = some m0 ∧ m0.1 = m0.2

/-- The number of `NOTMOVED` entries (the fuel measure of `pmov1`). -/
def pmCount : List PM → Nat
  | [] => 0
  | PM.notmoved :: t => pmCount t + 1
  | _ :: t => pmCount t

/-- Shape preservation: list lengths are fixed and entries never return
to `NOTMOVED` (used for the fuel bound). -/
def PMSh (st st' : PMSt) : Prop :=
  st'.moves.length = st.moves.length ∧
  st'.state.length = st.state.length ∧
  ∀ k, st'.state.get? k = some PM.notmoved →
    st.state.get? k = some PM.notmoved

/-! ### The SSA converter core (`convertssa.SsaConverter`, claims C1, C8)

Variables are embedded as `Nat` identifiers (Python uses strings; only
equality is observed), values as `Nat` identifiers, and the Python dicts
as insertion-ordered association lists. -/

/-- Generic dict lookup in an association list (first binding wins). -/
def alookupK {κ α : Type _} [DecidableEq κ] (k : κ) :
    List (κ × α) → Option α
  | [] => none
  | p :: t => if p.1 = k then some p.2 else alookupK k t

/-- Python dict assignment `d[k] = a`: replace in place, else append
(insertion order preserved). -/
def aupsert {κ α : Type _} [DecidableEq κ] (k : κ) (a : α) :
    List (κ × α) → List (κ × α)
  | [] => [(k, a)]
  | p :: t => if p.1 = k then (k, a) :: t else p :: aupsert k a t

/-- An `ssa.Param`: its identity and the block it belongs to
(`Param(self.block)` from `Block.param()`). -/
structure CParam where
  id : Nat
  blk : Nat
deriving DecidableEq, Repr

/-- A `ssa.ContEdge`: target block and argument map `{param ↦ value}`. -/
structure CEdge where
  target : Nat
  args : List (Nat × Nat)
deriving DecidableEq, Repr

/-- The mutable state of `SsaConverter` relevant to `read_variable` and
`seal_block`: `current_def` (keyed by `(variable, block)`),
`incomplete_params` (block ↦ insertion-ordered `{variable ↦ param}`),
`sealed_blocks`, each block's `preds` list, each block's continuation
edges (`conts` has no entry for a block whose `cont` is still `None`),
and the fresh-`Param` counter. -/
structure CState where
  defs : List ((Nat × Nat) × Nat)
  incomplete : List (Nat × List (Nat × CParam))
  sealed : List Nat
  preds : List (Nat × List Nat)
  conts : List (Nat × List CEdge)
  counter : Nat
deriving DecidableEq, Repr

/-- The `sem` declaration classes a variable can resolve to via
`self.symbols[self.current_proc].used[variable]`. -/
inductive DeclKind where
  | localVar
  | returnVar
  | paramVar
  | globalVar
  | constVar
deriving DecidableEq, Repr

/-- The Python exceptions the converter core can raise:
`RuntimeError: Syntax error: unbound local variable v` (convertssa.py
line 42), the `NotImplementedError` of `set_variable` (line 110), and
the `AttributeError` of `block.add_arg` when `block.cont` is `None`. -/
inductive CErr where
  | unboundLocal : Nat → Nat → CErr
  | cannotSet : Nat → CErr
  | noCont : Nat → CErr
deriving DecidableEq, Repr

instance {ε α : Type _} [DecidableEq ε] [DecidableEq α] :
    DecidableEq (Except ε α) := fun a b =>
  match a, b with
  | Except.error e₁, Except.error e₂ =>
      if h : e₁ = e₂ then isTrue (by rw [h])
      else isFalse (by intro hc; cases hc; exact h rfl)
  | Except.error _, Except.ok _ => isFalse (fun hc => Except.noConfusion hc)
  | Except.ok _, Except.error _ => isFalse (fun hc => Except.noConfusion hc)
  | Except.ok a₁, Except.ok a₂ =>
      if h : a₁ = a₂ then isTrue (by rw [h])
      else isFalse (by intro hc; cases hc; exact h rfl)

/-- `set_variable` (convertssa.py lines 100-110): `ReturnVar` and
`LocalVar` record a definition; `GlobalVar` emits a store instruction
(not modelled — crucially, it records no definition); everything else
(`ParamVar`, `ConstVar`) raises `NotImplementedError`. -/
def set_variable (decl : Nat → DeclKind) (v b val : Nat) (s : CState) :
    Except CErr CState :=
  match decl v with
  | DeclKind.returnVar =>
      Except.ok { s with defs := ((v, b), val) :: s.defs }
  | DeclKind.localVar =>
      Except.ok { s with defs := ((v, b), val) :: s.defs }
  | DeclKind.globalVar => Except.ok s
  | _ => Except.error (CErr.cannotSet v)

/-- `pred.add_arg(param, value)` (ssa/__init__.py lines 179-180, 54-57,
20-23): for every `ContEdge` of `pred`'s continuation whose target is
`param`'s block, set `edge.args[param] = value`; a block without a
continuation raises `AttributeError`. -/
def addArg (q : Nat) (p : CParam) (val : Nat) (s : CState) :
    Except CErr CState :=
  match alookupK q s.conts with
  | none => Except.error (CErr.noCont q)
  | some edges =>
      Except.ok { s with conts := aupsert q (edges.map (fun e => if p.blk = e.target then { e with args := aupsert p.id val e.args } else e)) s.conts }

/-- The loop of `add_block_args` (convertssa.py lines 57-59) over a
predecessor list, parameterised by the recursive `read_variable`. -/
def addArgsGo (f : Nat → Nat → CState → Option (Except CErr (Nat × CState)))
    (v : Nat) (p : CParam) : List Nat → CState → Option (Except CErr CState)
  | [], s => some (Except.ok s)
  | q :: t, s => do
      match ← f v q s with
      | Except.error e => some (Except.error e)
      | Except.ok (val, s₁) =>
          match addArg q p val s₁ with
          | Except.error e => some (Except.error e)
          | Except.ok s₂ => addArgsGo f v p t s₂

/-- `add_block_args(variable, param)`: iterate `param.block.preds`. -/
def add_block_args
    (f : Nat → Nat → CState → Option (Except CErr (Nat × CState)))
    (v : Nat) (p : CParam) (s : CState) : Option (Except CErr CState) :=
  addArgsGo f v p ((alookupK p.blk s.preds).getD []) s

/-- `read_variable`/`read_variable_recursive` (convertssa.py lines
32-55), fuel-limited (`none` = fuel exhausted, which in Python is the
infinite recursion possible on a cycle of single-predecessor blocks):
return the cached definition if present; otherwise defer a fresh
parameter at an unsealed block, raise on a sealed block without
predecessors, recurse through the single predecessor (reading it, then
`add_block_args`, then `set_variable`, without the final
`write_variable`), or, with several predecessors, `set_variable` first
and `add_block_args` after, then `write_variable`. -/
def read_variable (decl : Nat → DeclKind) :
    Nat → Nat → Nat → CState → Option (Except CErr (Nat × CState))
  | 0, _, _, _ => none
  | fuel + 1, v, b, s =>
    match alookupK (v, b) s.defs with
    | some x => some (Except.ok (x, s))
    | none =>
      if b ∈ s.sealed then
        match (alookupK b s.preds).getD [] with
        | [] => some (Except.error (CErr.unboundLocal v b))
        | [q] => do
            match ← read_variable decl fuel v q
                { s with counter := s.counter + 1 } with
            | Except.error e => some (Except.error e)
            | Except.ok (_, s₂) =>
                match ← add_block_args (read_variable decl fuel) v
                    ⟨s.counter, b⟩ s₂ with
                | Except.error e => some (Except.error e)
                | Except.ok s₃ =>
                    match set_variable decl v b s.counter s₃ with
                    | Except.error e => some (Except.error e)
                    | Except.ok s₄ => some (Except.ok (s.counter, s₄))
        | _ :: _ :: _ => do
            match set_variable decl v b s.counter
                { s with counter := s.counter + 1 } with
            | Except.error e => some (Except.error e)
            | Except.ok s₂ =>
                match ← add_block_args (read_variable decl fuel) v
                    ⟨s.counter, b⟩ s₂ with
                | Except.error e => some (Except.error e)
                | Except.ok s₃ =>
                    some (Except.ok (s.counter,
                      { s₃ with defs := ((v, b), s.counter) :: s₃.defs }))
      else
        some (Except.ok (s.counter,
          { s with
            counter := s.counter + 1,
            incomplete := aupsert b (aupsert v (⟨s.counter, b⟩ : CParam)
              ((alookupK b s.incomplete).getD [])) s.incomplete,
            defs := ((v, b), s.counter) :: s.defs }))

/-- The loop of `seal_block` over the deferred `(variable, param)`
items. -/
def sealGo (f : Nat → Nat → CState → Option (Except CErr (Nat × CState))) :
    List (Nat × CParam) → CState → Option (Except CErr CState)
  | [], s => some (Except.ok s)
  | (v, p) :: t, s => do
      match ← add_block_args f v p s with
      | Except.error e => some (Except.error e)
      | Except.ok s₁ => sealGo f t s₁

/-- `seal_block(block)` (convertssa.py lines 61-64): fill in arguments
for every deferred parameter of `block` (iterated on the entry snapshot,
which under the well-formedness used below coincides with Python's live
iteration), then mark the block sealed. -/
def seal_block (decl : Nat → DeclKind) (fuel b : Nat) (s : CState) :
    Option (Except CErr CState) := do
  match ← sealGo (read_variable decl fuel)
      ((alookupK b s.incomplete).getD []) s with
  | Except.error e => some (Except.error e)
  | Except.ok s₁ => some (Except.ok { s₁ with sealed := b :: s₁.sealed })

/-- How a completed `read_variable` call evolves the state: `sealed` and
`preds` untouched, the counter grows, present definitions keep their
values, and every present continuation keeps its edge list (lengths,
targets) with the argument bindings of all pre-existing parameters
(`pid < counter`) intact. -/
def CExt (s s' : CState) : Prop :=
  s'.sealed = s.sealed ∧
  s'.preds = s.preds ∧
  s.counter ≤ s'.counter ∧
  (∀ k x, alookupK k s.defs = some x → alookupK k s'.defs = some x) ∧
  (∀ b, alookupK b s.conts = none → alookupK b s'.conts = none) ∧
  (∀ b edges, alookupK b s.conts = some edges →
    ∃ edges', alookupK b s'.conts = some edges' ∧
      edges'.length = edges.length ∧
      ∀ i e, edges.get? i = some e → ∃ e', edges'.get? i = some e' ∧
        e'.target = e.target ∧
        ∀ pid, pid < s.counter →
          alookupK pid e'.args = alookupK pid e.args)

/-- Like `CExt`, but through an `add_block_args` call for parameter `p`:
existing argument bindings are kept except possibly `p`'s own. -/
def CExtA (p : CParam) (s s' : CState) : Prop :=
  s'.sealed = s.sealed ∧
  s'.preds = s.preds ∧
  s.counter ≤ s'.counter ∧
  (∀ k x, alookupK k s.defs = some x → alookupK k s'.defs = some x) ∧
  (∀ b, alookupK b s.conts = none → alookupK b s'.conts = none) ∧
  (∀ b edges, alookupK b s.conts = some edges →
    ∃ edges', alookupK b s'.conts = some edges' ∧
      edges'.length = edges.length ∧
      ∀ i e, edges.get? i = some e → ∃ e', edges'.get? i = some e' ∧
        e'.target = e.target ∧
        ∀ pid, pid < s.counter → pid ≠ p.id →
          alookupK pid e'.args = alookupK pid e.args)

/-- Invariant I3 at predecessor `q` for the deferred pair
`(variable v, param p)`: `v`'s reaching definition `val` in `q` is
recorded, and every continuation edge of `q` into `p`'s block carries
the argument `p ↦ val`. -/
def HasEst (v : Nat) (p : CParam) (q : Nat) (s : CState) : Prop :=
  ∃ val, alookupK (v, q) s.defs = some val ∧
    ∀ edges, alookupK q s.conts = some edges →
      ∀ e ∈ edges, e.target = p.blk → alookupK p.id e.args = some val

/-- Every block listed as a predecessor has its continuation set
(`block.cont is not None`), so that `pred.add_arg` cannot raise
`AttributeError`. -/
def ContsOk (s : CState) : Prop :=
  ∀ bp l, alookupK bp s.preds = some l →
    ∀ q ∈ l, (alookupK q s.conts).isSome = true

/-- The raise-site conditions of the unbound-local error: the error
names the read variable and a block that is sealed, has no
predecessors, and holds no definition of the variable. -/
def SiteConds (v : Nat) (e : CErr) (s : CState) : Prop :=
  ∃ b', e = CErr.unboundLocal v b' ∧ b' ∈ s.sealed ∧
    (alookupK b' s.preds).getD [] = [] ∧
    alookupK (v, b') s.defs = none

/-! ### Theorems about the peephole optimiser (claims C4, C5, C6) -/

theorem land_two_pow_sub_one (k : ℕ) :
    Int.land ((2 : ℤ) ^ k) ((2 : ℤ) ^ k - 1) = 0 := by
  have h2 : ((2 : ℤ) ^ k - 1) = ((2 ^ k - 1 : ℕ) : ℤ) := by
    have := Nat.one_le_two_pow (n := k)
    push_cast [this]; ring
  have h1 : ((2 : ℤ) ^ k) = ((2 ^ k : ℕ) : ℤ) := by push_cast; ring
  rw [h2, h1]
  show ((_ &&& _ : ℕ) : ℤ) = 0
  rw [Nat.two_pow_and]
  simp [Nat.testBit_two_pow_sub_one]

theorem int_land_zero_neg_one : Int.land 0 (-1 : ℤ) = 0 := by
  have h1 : (-1 : ℤ) = Int.negSucc 0 := rfl
  rw [h1]
  show ((Nat.ldiff 0 0 : ℕ) : ℤ) = 0
  simp [Nat.ldiff, Nat.bitwise_zero_left]

theorem bitLength_two_pow (k : ℕ) : bitLength ((2 : ℤ) ^ k) = (k : ℤ) + 1 := by
  unfold bitLength
  have : ((2 : ℤ) ^ k).natAbs = 2 ^ k := by
    rw [Int.natAbs_pow]; rfl
  rw [this, Nat.size_pow]
  push_cast; ring

/-- C4 counterexample: a `SUB` of two constants is *not* folded — it falls
through to `case _` of `peep_expr` (only `ADD`, `MUL` and `DIV` have
constant patterns). -/
theorem sub_const_const_not_folded :
    peep_expr .SUB (.cst 5) (.cst 3) ≠ .rewrite [] (.inr (.pconst 2)) ∧
    peep_expr .SUB (.cst 5) (.cst 3) = .nomatch := by
  exact ⟨by decide, by decide⟩

/-- C4 (amended): of the binary arithmetic/comparison opcodes, only `ADD`
and `MUL` constant-fold unconditionally, and `DIV` folds when the divisor
is non-zero (Python floor division `//`); `SUB` and the six comparisons
`SLT SGT SLE SGE SEQ SNE` are left untouched by `peep_expr`. -/
theorem const_folding_add_mul_div_only (c1 c2 : Int) :
    peep_expr .ADD (.cst c1) (.cst c2) = .rewrite [] (.inr (.pconst (c1 + c2))) ∧
    peep_expr .MUL (.cst c1) (.cst c2) = .rewrite [] (.inr (.pconst (c1 * c2))) ∧
    (c2 ≠ 0 →
      peep_expr .DIV (.cst c1) (.cst c2) =
        .rewrite [] (.inr (.pconst (Int.fdiv c1 c2)))) ∧
    peep_expr .SUB (.cst c1) (.cst c2) = .nomatch ∧
    peep_expr .SLT (.cst c1) (.cst c2) = .nomatch ∧
    peep_expr .SGT (.cst c1) (.cst c2) = .nomatch ∧
    peep_expr .SLE (.cst c1) (.cst c2) = .nomatch ∧
    peep_expr .SGE (.cst c1) (.cst c2) = .nomatch ∧
    peep_expr .SEQ (.cst c1) (.cst c2) = .nomatch ∧
    peep_expr .SNE (.cst c1) (.cst c2) = .nomatch := by
  refine ⟨rfl, rfl, fun h => ?_, rfl, rfl, rfl, rfl, rfl, rfl, rfl⟩
  simp [peep_expr, peepDiv, h]

theorem const_folding_add_mul_div_only_witness :
    peep_expr .DIV (.cst 7) (.cst 2) = .rewrite [] (.inr (.pconst (Int.fdiv 7 2))) ∧
    peep_expr .ADD (.cst 7) (.cst 2) = .rewrite [] (.inr (.pconst (7 + 2))) :=
  ⟨(const_folding_add_mul_div_only 7 2).2.2.1 (by decide),
   (const_folding_add_mul_div_only 7 2).1⟩

/-- C5 counterexample: `DIV(x, CONST 0)` is *not* rewritten to `CONST 0`;
the `x/0` instruction matches the power-of-two pattern
(`0 & -1 == 0`), with `k = (0).bit_length() - 1 = -1`. -/
theorem div_by_zero_not_const_zero :
    peep_expr .DIV (.opq 0) (.cst 0) ≠ .rewrite [] (.inr (.pconst 0)) ∧
    peep_expr .DIV (.opq 0) (.cst 0) =
      .rewrite [.pconst (-2), .pbin .SRA (.old (.opq 0)) (.new 0),
                .pconst 65, .pbin .SRL (.new 1) (.new 2),
                .pbin .ADD (.old (.opq 0)) (.new 3), .pconst (-1)]
        (.inr (.pbin .SRA (.new 4) (.new 5))) := by
  have h : peep_expr .DIV (.opq 0) (.cst 0) =
      .rewrite [.pconst (-2), .pbin .SRA (.old (.opq 0)) (.new 0),
                .pconst 65, .pbin .SRL (.new 1) (.new 2),
                .pbin .ADD (.old (.opq 0)) (.new 3), .pconst (-1)]
        (.inr (.pbin .SRA (.new 4) (.new 5))) := by
    simp [peep_expr, peepDiv, peepDiv.peepDivTail, bitLength,
      int_land_zero_neg_one]
  exact ⟨by rw [h]; decide, h⟩

/-- C5 (amended): for every value `x`, `peep_expr` rewrites
`DIV(x, CONST 0)` through the power-of-two branch with `k = -1`
(shift amounts `-2`, `65`, `-1`), not to `CONST 0`. -/
theorem div_by_zero_rewrite (x : AVal) :
    peep_expr .DIV x (.cst 0) =
      .rewrite [.pconst (-2), .pbin .SRA (.old x) (.new 0),
                .pconst 65, .pbin .SRL (.new 1) (.new 2),
                .pbin .ADD (.old x) (.new 3), .pconst (-1)]
        (.inr (.pbin .SRA (.new 4) (.new 5))) := by
  cases x <;>
    simp [peep_expr, peepDiv, peepDiv.peepDivTail, bitLength,
      int_land_zero_neg_one]

/-- C6 counterexample: for `x` itself a `CONST`, `DIV(x, CONST 4)` does
not become the shift sequence: the const/const fold fires first. -/
theorem div_const_by_four_folds :
    peep_expr .DIV (.cst 5) (.cst 4) = .rewrite [] (.inr (.pconst 1)) := by
  decide

/-- C6 (amended): for every *non-constant* value `x` and every constant
`n = 2^k` with `k ≥ 2`, `peep_expr` rewrites `DIV(x, CONST n)` into
`t0 = SRA x,(k-1); t1 = SRL t0,(64-k); t2 = ADD x,t1; result = SRA t2,k`,
the helpers being emitted before the instruction (the result instruction
replaces it through forwarding). -/
theorem div_by_two_pow_rewrite (j : Nat) (k : ℕ) (hk : 2 ≤ k) :
    peep_expr .DIV (.opq j) (.cst ((2 : ℤ) ^ k)) =
      .rewrite [.pconst ((k : ℤ) - 1), .pbin .SRA (.old (.opq j)) (.new 0),
                .pconst (64 - (k : ℤ)), .pbin .SRL (.new 1) (.new 2),
                .pbin .ADD (.old (.opq j)) (.new 3), .pconst (k : ℤ)]
        (.inr (.pbin .SRA (.new 4) (.new 5))) := by
  have h4 : (4 : ℤ) ≤ 2 ^ k := by
    calc (4 : ℤ) = 2 ^ 2 := by norm_num
    _ ≤ 2 ^ k := by exact pow_le_pow_right₀ (by norm_num) hk
  have h2 : ((2 : ℤ) ^ k) ≠ 2 := by omega
  have h3 : ((2 : ℤ) ^ k) ≠ 3 := by omega
  simp only [peep_expr, peepDiv, peepDiv.peepDivTail, h2, h3,
    land_two_pow_sub_one, bitLength_two_pow, if_false, if_true, ite_true,
    ite_false, if_neg h2, if_neg h3, if_pos rfl]
  norm_num

theorem div_by_two_pow_rewrite_witness :
    peep_expr .DIV (.opq 0) (.cst ((2 : ℤ) ^ 2)) =
      .rewrite [.pconst ((2 : ℤ) - 1), .pbin .SRA (.old (.opq 0)) (.new 0),
                .pconst (64 - (2 : ℤ)), .pbin .SRL (.new 1) (.new 2),
                .pbin .ADD (.old (.opq 0)) (.new 3), .pconst (2 : ℤ)]
        (.inr (.pbin .SRA (.new 4) (.new 5))) :=
  div_by_two_pow_rewrite 0 2 (by decide)

/-! ### Theorems about the instruction selector (claim C7) -/

/-- C7: for a comparison opcode `cmp` (one of `SEQ SNE SLT SGT SLE SGE`,
i.e. a key of the `CMP` table), the selector emits the unary zero variant
`SxxZ` applied to the selection of `e0` when the second operand is
`CONST 0`, and the binary register form `Sxx` applied to the selections of
`e0` and `e1` otherwise; in both cases the selected comparison is appended
to the output after its operands' instructions. -/
theorem cmp_selection (op : AOpcode) (rop zop : ROpcode)
    (h : cmpPair op = some (rop, zop)) (e0 e1 : ATree)
    (h1 : e1 ≠ .aconst 0) :
    munch_expr (.abin op e0 (.aconst 0)) =
      (munch_expr e0).bind (fun p =>
        some (RTree.run zop p.1, p.2 ++ [RTree.run zop p.1])) ∧
    munch_expr (.abin op e0 e1) =
      (munch_expr e0).bind (fun p0 => (munch_expr e1).bind (fun p1 =>
        some (RTree.rbin rop p0.1 p1.1,
              p0.2 ++ p1.2 ++ [RTree.rbin rop p0.1 p1.1]))) := by
  cases op <;> simp only [cmpPair, Option.some.injEq, Prod.mk.injEq,
    reduceCtorEq] at h <;>
    obtain ⟨rfl, rfl⟩ := h <;>
    exact ⟨by simp [munch_expr, cmpPair], by simp [munch_expr, cmpPair, h1]⟩

theorem cmp_selection_witness :
    munch_expr (.abin .SLT (.aparam 0) (.aconst 0)) =
      some (.run .SLTZ (.rparam 0), [.run .SLTZ (.rparam 0)]) ∧
    munch_expr (.abin .SLT (.aparam 0) (.aparam 1)) =
      some (.rbin .SLT (.rparam 0) (.rparam 1),
            [.rbin .SLT (.rparam 0) (.rparam 1)]) := by
  have h := cmp_selection .SLT .SLT .SLTZ rfl (.aparam 0) (.aparam 1)
    (by decide)
  exact ⟨by rw [h.1]; rfl, by rw [h.2]; rfl⟩

/-! ### Theorems about value forwarding (claim C10) -/

/-- C10: a `Param` is a fixed point of the `find` indirection: `find`
follows forwarding chains only through `Inst` objects, so `p.find() = p`
for every block parameter `p`, and this remains true after `forward(p, w)`
installs a replacement in `p`'s `forwarded` slot. -/
theorem param_find_fixed (h : List VObj) (p : Nat) (o : VObj)
    (hv : h.get? p = some o) (hk : o.kind = .param) (fuel : Nat) :
    find h (fuel + 1) p = some p ∧
    (∀ w h', forward h p w = some h' → find h' (fuel + 1) p = some p) := by
  obtain ⟨k, fw⟩ := o
  have hk' : k = VKind.param := hk
  subst hk'
  constructor
  · unfold find
    rw [hv]
    simp
  · intro w h' hf
    unfold forward at hf
    rw [hv] at hf
    cases fw with
    | none =>
        simp only [Option.some.injEq] at hf
        subst hf
        unfold find
        rw [List.get?_set_eq]
        rw [hv]
        simp
    | some _ =>
        exact Option.noConfusion hf

theorem param_find_fixed_witness :
    find [⟨.param, none⟩] 1 0 = some 0 ∧
    find [⟨.param, some 5⟩] 1 0 = some 0 := by
  have h := param_find_fixed [⟨.param, none⟩] 0 ⟨.param, none⟩ rfl rfl 0
  exact ⟨h.1, h.2 5 [⟨.param, some 5⟩] rfl⟩

/-! ### Theorems about the register allocator (claim C9) -/

theorem foldl_isSome_mono {α β : Type} (f : (Nat → Option β) → α → (Nat → Option β))
    (hf : ∀ m x v, (m v).isSome → (f m x v).isSome) (l : List α) :
    ∀ (m : Nat → Option β) (v : Nat), (m v).isSome → (l.foldl f m v).isSome := by
  induction l with
  | nil => intro m v h; exact h
  | cons x t ih => intro m v h; exact ih (f m x) v (hf m x v h)

theorem foldl_isSome_of_mem {α β : Type} (f : (Nat → Option β) → α → (Nat → Option β))
    (hf : ∀ m x v, (m v).isSome → (f m x v).isSome) (l : List α)
    (x0 : α) (v : Nat) (hset : ∀ m, (f m x0 v).isSome) :
    ∀ (m : Nat → Option β), x0 ∈ l → (l.foldl f m v).isSome := by
  induction l with
  | nil => intro m h; cases h
  | cons x t ih =>
      intro m h
      rcases List.mem_cons.1 h with h | h
      · subst h
        exact foldl_isSome_mono f hf t (f m x0) v (hset m)
      · exact ih (f m x) h

theorem pairwise_fst_lt_enumFrom {α : Type} (l : List α) :
    ∀ n, List.Pairwise (fun p q : Nat × α => p.1 < q.1) (l.enumFrom n) := by
  induction l with
  | nil => intro n; exact List.Pairwise.nil
  | cons x t ih =>
      intro n
      refine List.Pairwise.cons ?_ (ih (n + 1))
      intro q hq
      have := List.mem_enumFrom hq
      omega

theorem mem_enum_of_get? {α : Type} (l : List α) (i : Nat) (x : α)
    (h : l.get? i = some x) : (i, x) ∈ l.enum := by
  rw [List.mem_enum_iff_get?]
  exact h

theorem lastUse_isSome_of_arg (b : RABlock) (i : Nat) (inst : RAInst)
    (a : Nat) (hi : b.insts.get? i = some inst)
    (ha : (a, true) ∈ inst.args) : (lastUse b a).isSome := by
  unfold lastUse
  have hupd : ∀ (m : Nat → Option UseSite) (u : Nat) (s : UseSite) (v : Nat),
      (m v).isSome → (updMap m u s v).isSome := by
    intro m u s v h
    unfold updMap
    by_cases hv : v = u <;> simp [hv, h]
  refine foldl_isSome_mono _ (fun m x v h => hupd m x .cont v h) _ _ _ ?_
  refine foldl_isSome_mono _ (fun m x v h => hupd m x .cont v h) _ _ _ ?_
  refine foldl_isSome_of_mem
    (fun m p => p.2.args.foldl
      (fun m a => if a.2 then updMap m a.1 (UseSite.instAt p.1) else m) m)
    ?_ _ (i, inst) a ?_ _ (mem_enum_of_get? _ _ _ hi)
  · intro m x v h
    refine foldl_isSome_mono _ ?_ _ _ _ h
    intro m' y v' h'
    by_cases hy : y.2 <;> simp [hy, h', hupd]
  · intro m
    refine foldl_isSome_of_mem _ ?_ _ (a, true) a ?_ m ha
    · intro m' y v' h'
      by_cases hy : y.2 <;> simp [hy, h', hupd]
    · intro m'
      simp [updMap]

theorem argsFold_total (lu : Nat → Option UseSite) (m : Nat → Option Nat)
    (i : Nat) (args : List (Nat × Bool)) :
    ∀ (asg : List Nat),
    (∀ a ∈ args, a.2 = true → (lu a.1).isSome ∧ (m a.1).isSome) →
    ∃ asg', (args.foldlM (fun (asg : List Nat) a => do
      if a.2 then
        match lu a.1 with
        | some site =>
            if site = .instAt i then
              match m a.1 with
              | some c => pure (asg.erase c)
              | none => none
            else pure asg
        | none => none
      else pure asg) asg) = some asg' := by
  induction args with
  | nil => intro asg _; exact ⟨asg, rfl⟩
  | cons a t ih =>
      intro asg h
      rw [List.foldlM_cons]
      by_cases ha : a.2
      · obtain ⟨hlu, hm⟩ := h a (List.mem_cons_self a t) ha
        obtain ⟨site, hsite⟩ := Option.isSome_iff_exists.1 hlu
        obtain ⟨c, hc⟩ := Option.isSome_iff_exists.1 hm
        by_cases hs : site = .instAt i
        · obtain ⟨asg', hasg'⟩ :=
            ih (asg.erase c) (fun x hx => h x (List.mem_cons_of_mem a hx))
          refine ⟨asg', ?_⟩
          simp only [ha, hsite, hs, hc, if_true, ite_true]
          exact hasg'
        · obtain ⟨asg', hasg'⟩ :=
            ih asg (fun x hx => h x (List.mem_cons_of_mem a hx))
          refine ⟨asg', ?_⟩
          simp only [ha, hsite, hs, if_true, ite_true, if_false, ite_false,
            if_neg hs]
          exact hasg'
      · obtain ⟨asg', hasg'⟩ :=
          ih asg (fun x hx => h x (List.mem_cons_of_mem a hx))
        refine ⟨asg', ?_⟩
        simp only [ha, if_false, ite_false, Bool.false_eq_true]
        exact hasg'

theorem allocStep_total (lu : Nat → Option UseSite) (m : Nat → Option Nat)
    (asg : List Nat) (i : Nat) (inst : RAInst)
    (h : ∀ a ∈ inst.args, a.2 = true → (lu a.1).isSome ∧ (m a.1).isSome) :
    ∃ m' asg', allocStep lu (m, asg) (i, inst) = some (m', asg') ∧
      (∀ v, (m v).isSome → (m' v).isSome) ∧
      (inst.output → (m' inst.vid).isSome) := by
  obtain ⟨asg₂, hasg₂⟩ := argsFold_total lu m i inst.args asg h
  by_cases ho : inst.output
  · refine ⟨updMap m inst.vid (firstFree asg₂),
      if (lu inst.vid).isSome then asg₂.insert (firstFree asg₂) else asg₂,
      ?_, ?_, ?_⟩
    · simp only [allocStep, Option.bind_eq_bind]
      rw [hasg₂]
      simp [ho]
    · intro v hv
      unfold updMap
      by_cases hveq : v = inst.vid <;> simp [hveq, hv]
    · intro _
      simp [updMap]
  · refine ⟨m, asg₂, ?_, fun v hv => hv, fun hc => absurd hc ho⟩
    simp only [allocStep, Option.bind_eq_bind]
    rw [hasg₂]
    simp [ho]

theorem allocFold_total (lu : Nat → Option UseSite) :
    ∀ (l : List (Nat × RAInst)) (m : Nat → Option Nat) (asg : List Nat),
    List.Pairwise (fun p q : Nat × RAInst => p.1 < q.1) l →
    (∀ p ∈ l, ∀ a ∈ p.2.args, a.2 = true →
      (lu a.1).isSome ∧
      ((m a.1).isSome ∨ ∃ q ∈ l, q.1 < p.1 ∧ q.2.output ∧ q.2.vid = a.1)) →
    ∃ m' asg', l.foldlM (allocStep lu) (m, asg) = some (m', asg') ∧
      (∀ v, (m v).isSome → (m' v).isSome) ∧
      (∀ p ∈ l, p.2.output → (m' p.2.vid).isSome) := by
  intro l
  induction l with
  | nil =>
      intro m asg _ _
      exact ⟨m, asg, rfl, fun v hv => hv, fun p hp => absurd hp (by simp)⟩
  | cons p t ih =>
      intro m asg hsort hargs
      have hhead : ∀ a ∈ p.2.args, a.2 = true →
          (lu a.1).isSome ∧ (m a.1).isSome := by
        intro a ha hab
        obtain ⟨hlu, hdisj⟩ := hargs p (List.mem_cons_self p t) a ha hab
        refine ⟨hlu, ?_⟩
        rcases hdisj with hm | ⟨q, hq, hlt, _, _⟩
        · exact hm
        · rcases List.mem_cons.1 hq with rfl | hq
          · omega
          · have := (List.pairwise_cons.1 hsort).1 q hq
            omega
      obtain ⟨m₁, asg₁, hstep, hmono₁, hout₁⟩ :=
        allocStep_total lu m asg p.1 p.2 hhead
      have htargs : ∀ r ∈ t, ∀ a ∈ r.2.args, a.2 = true →
          (lu a.1).isSome ∧
          ((m₁ a.1).isSome ∨ ∃ q ∈ t, q.1 < r.1 ∧ q.2.output ∧ q.2.vid = a.1) := by
        intro r hr a ha hab
        obtain ⟨hlu, hdisj⟩ :=
          hargs r (List.mem_cons_of_mem p hr) a ha hab
        refine ⟨hlu, ?_⟩
        rcases hdisj with hm | ⟨q, hq, hlt, hqo, hqv⟩
        · exact Or.inl (hmono₁ _ hm)
        · rcases List.mem_cons.1 hq with rfl | hq
          · exact Or.inl (hqv ▸ hout₁ hqo)
          · exact Or.inr ⟨q, hq, hlt, hqo, hqv⟩
      obtain ⟨m', asg', hfold, hmono₂, hout₂⟩ :=
        ih m₁ asg₁ (List.pairwise_cons.1 hsort).2 htargs
      refine ⟨m', asg', ?_, fun v hv => hmono₂ v (hmono₁ v hv), ?_⟩
      · rw [List.foldlM_cons]
        cases hp : p with
        | mk pi pinst =>
            rw [hp] at hstep
            rw [hstep]
            exact hfold
      · intro r hr hro
        rcases List.mem_cons.1 hr with rfl | hr
        · exact hmono₂ _ (hout₁ hro)
        · exact hout₂ r hr hro

/-- C9 (amended): the register allocator cannot run out of colours: the
colour supply `itertools.count(0)` is unbounded and `allocate`'s per-block
loop raises no allocation-failure error (there is, in fact, no
`RegisterAllocationFailure` anywhere in the source).  For every block
whose assignable operands are defined inside the block (a parameter or an
earlier instruction's output — otherwise the two dictionary lookups can
raise `KeyError`, a different error), the per-block colouring returns a
total assignment covering every output instruction, no matter how many
values are simultaneously live. -/
theorem allocate_never_out_of_colours (b : RABlock)
    (hwf : ∀ i inst, b.insts.get? i = some inst →
      ∀ a ∈ inst.args, a.2 = true → availBefore b i a.1) :
    ∃ m asg, allocate_block b = some (m, asg) ∧
      ∀ i inst, b.insts.get? i = some inst → inst.output →
        (m inst.vid).isSome := by
  have hm0 : ∀ v ∈ b.params,
      ((b.params.enum.foldl (fun m p => updMap m p.2 p.1)
        (fun _ => none)) v).isSome := by
    intro v hv
    obtain ⟨i, hi⟩ := List.get?_of_mem hv
    refine foldl_isSome_of_mem _ ?_ _ (i, v) v ?_ _
      (mem_enum_of_get? _ _ _ hi)
    · intro m x v' h'
      unfold updMap
      by_cases hx : v' = x.2 <;> simp [hx, h']
    · intro m
      simp [updMap]
  obtain ⟨m', asg', hfold, _, hout⟩ :=
    allocFold_total (lastUse b) b.insts.enum
      (b.params.enum.foldl (fun m p => updMap m p.2 p.1) (fun _ => none))
      (List.range b.params.length)
      (pairwise_fst_lt_enumFrom b.insts 0)
      (by
        intro p hp a ha hab
        have hget : b.insts.get? p.1 = some p.2 :=
          List.mem_enum_iff_get?.1 hp
        have havail := hwf p.1 p.2 hget a ha hab
        have haa : (a.1, true) ∈ p.2.args := by
          have : a = (a.1, true) := by
            cases a with
            | mk a1 a2 => simp at hab; simp [hab]
          exact this ▸ ha
        refine ⟨lastUse_isSome_of_arg b p.1 p.2 a.1 hget haa, ?_⟩
        rcases havail with hparam | ⟨j, inst, hj, hgetj, hjo, hjv⟩
        · exact Or.inl (hm0 a.1 hparam)
        · exact Or.inr ⟨(j, inst), mem_enum_of_get? _ _ _ hgetj, hj, hjo, hjv⟩)
  refine ⟨m', asg', hfold, ?_⟩
  intro i inst hget hio
  exact hout (i, inst) (mem_enum_of_get? _ _ _ hget) hio

theorem allocate_never_out_of_colours_witness :
    (allocate_block highPressureBlock).isSome = true := by
  obtain ⟨m, asg, heq, -⟩ :=
    allocate_never_out_of_colours highPressureBlock
      (by
        intro i inst hi a ha _
        have hmem := List.get?_mem hi
        simp only [highPressureBlock, List.mem_map] at hmem
        obtain ⟨j, -, rfl⟩ := hmem
        simp at ha)
  rw [heq]
  rfl

/-! ### Theorems about critical-edge splitting (claim C2) -/

theorem replaceFirst_length (l : List Nat) (a b : Nat) :
    ∀ l', replaceFirst l a b = some l' → l'.length = l.length := by
  induction l with
  | nil => intro l' h; exact Option.noConfusion h
  | cons x t ih =>
      intro l' h
      unfold replaceFirst at h
      by_cases hx : x = a
      · simp only [hx, if_true, ite_true, Option.some.injEq] at h
        subst h; rfl
      · simp only [hx, if_false, ite_false, Option.map_eq_some'] at h
        obtain ⟨t', ht', rfl⟩ := h
        simp [ih t' ht']

theorem splitOne_inv (g : SGraph) (vIdx i : Nat) (g' : SGraph)
    (h : splitOne g vIdx i = some g') :
    ∃ v uIdx u, g.nodes.get? vIdx = some v ∧ v.children.get? i = some uIdx ∧
      g.nodes.get? uIdx = some u ∧
      ((u.preds.length ≤ 1 ∧ g' = g) ∨
       (1 < u.preds.length ∧ ∃ oldEdge av u₁ uPreds',
         v.edges.get? i = some oldEdge ∧
         buildAv (u.params.zip
             ((List.range u.params.length).map (g.paramCounter + ·)))
           oldEdge.args = some av ∧
         (g.nodes.set vIdx (redirectNode g v i av)).get? uIdx = some u₁ ∧
         replaceFirst u₁.preds vIdx g.nodes.length = some uPreds' ∧
         g' = { nodes := ((g.nodes.set vIdx (redirectNode g v i av)).set uIdx
                  { u₁ with preds := uPreds' }) ++
                  [mkSplitNode g vIdx uIdx u.params],
                paramCounter := g.paramCounter + u.params.length,
                labelCounter := g.labelCounter + 1 })) := by
  unfold splitOne at h
  cases hv : g.nodes.get? vIdx with
  | none => rw [hv] at h; exact Option.noConfusion h
  | some v =>
  rw [hv] at h; simp only [Option.bind_eq_bind, Option.some_bind] at h
  cases hc : v.children.get? i with
  | none => rw [hc] at h; exact Option.noConfusion h
  | some uIdx =>
  rw [hc] at h; simp only [Option.bind_eq_bind, Option.some_bind] at h
  cases hu : g.nodes.get? uIdx with
  | none => rw [hu] at h; exact Option.noConfusion h
  | some u =>
  rw [hu] at h; simp only [Option.bind_eq_bind, Option.some_bind] at h
  refine ⟨v, uIdx, u, rfl, hc, hu, ?_⟩
  by_cases hcrit : 1 < u.preds.length
  · rw [if_pos hcrit] at h
    cases he : v.edges.get? i with
    | none => rw [he] at h; exact Option.noConfusion h
    | some oldEdge =>
    rw [he] at h; simp only [Option.bind_eq_bind, Option.some_bind] at h
    cases hav : buildAv (u.params.zip
        ((List.range u.params.length).map (g.paramCounter + ·)))
        oldEdge.args with
    | none => rw [hav] at h; exact Option.noConfusion h
    | some av =>
    rw [hav] at h; simp only [Option.bind_eq_bind, Option.some_bind] at h
    cases hu₁ : (g.nodes.set vIdx (redirectNode g v i av)).get? uIdx with
    | none => rw [hu₁] at h; exact Option.noConfusion h
    | some u₁ =>
    rw [hu₁] at h; simp only [Option.bind_eq_bind, Option.some_bind] at h
    cases hrf : replaceFirst u₁.preds vIdx g.nodes.length with
    | none => rw [hrf] at h; exact Option.noConfusion h
    | some uPreds' =>
    rw [hrf] at h; simp only [Option.bind_eq_bind, Option.some_bind] at h
    simp only [Option.pure_def, Option.some.injEq] at h
    exact Or.inr ⟨hcrit, oldEdge, av, u₁, uPreds', rfl, hav, hu₁, hrf, h.symm⟩
  · rw [if_neg hcrit] at h
    simp only [Option.pure_def, Option.some.injEq] at h
    exact Or.inl ⟨by omega, h.symm⟩

theorem Ext_refl (vIdx : Nat) (g : SGraph) : Ext vIdx g g := by
  refine ⟨le_refl _, ?_, ?_⟩
  · intro k n h
    exact ⟨n, h, rfl, rfl, rfl, rfl, fun _ => ⟨rfl, rfl⟩⟩
  · intro k n' h
    exact Or.inl (List.get?_eq_some.1 h).1

theorem Ext_trans (vIdx : Nat) (g₁ g₂ g₃ : SGraph)
    (h12 : Ext vIdx g₁ g₂) (h23 : Ext vIdx g₂ g₃) : Ext vIdx g₁ g₃ := by
  obtain ⟨hl12, hf12, hb12⟩ := h12
  obtain ⟨hl23, hf23, hb23⟩ := h23
  refine ⟨le_trans hl12 hl23, ?_, ?_⟩
  · intro k n h
    obtain ⟨n', h', hc', hp', hpar', hlab', hne'⟩ := hf12 k n h
    obtain ⟨n'', h'', hc'', hp'', hpar'', hlab'', hne''⟩ := hf23 k n' h'
    refine ⟨n'', h'', hc''.trans hc', hp''.trans hp', hpar''.trans hpar',
      hlab''.trans hlab', ?_⟩
    intro hk
    obtain ⟨hcn', hen'⟩ := hne' hk
    obtain ⟨hcn'', hen''⟩ := hne'' hk
    exact ⟨hcn''.trans hcn', hen''.trans hen'⟩
  · intro k n'' h''
    rcases hb23 k n'' h'' with hk | hprop
    · by_cases hk1 : k < g₁.nodes.length
      · exact Or.inl hk1
      · have h2some : (g₂.nodes.get? k).isSome := by
          rw [Option.isSome_iff_ne_none]
          intro hnone
          rw [List.get?_eq_none] at hnone
          omega
        obtain ⟨n', h'⟩ := Option.isSome_iff_exists.1 h2some
        rcases hb12 k n' h' with hk1' | hprop'
        · omega
        · obtain ⟨n3, h3, hc3, hp3, _, _, _⟩ := hf23 k n' h'
          rw [h''] at h3
          cases h3
          exact Or.inr ⟨hp3.trans hprop'.1, hc3.trans hprop'.2⟩
    · exact Or.inr hprop

theorem splitOne_ext (g : SGraph) (vIdx i : Nat) (g' : SGraph)
    (h : splitOne g vIdx i = some g') : Ext vIdx g g' := by
  obtain ⟨v, uIdx, u, hv, hc, hu, hcase⟩ := splitOne_inv g vIdx i g' h
  rcases hcase with ⟨-, rfl⟩ | ⟨hcrit, oldEdge, av, u₁, uPreds', he, hav, hu₁,
    hrf, rfl⟩
  · exact Ext_refl vIdx _
  · have hvlt : vIdx < g.nodes.length := (List.get?_eq_some.1 hv).1
    have hult : uIdx < g.nodes.length := (List.get?_eq_some.1 hu).1
    have hlen₂ :
        ((g.nodes.set vIdx (redirectNode g v i av)).set uIdx
          { u₁ with preds := uPreds' }).length = g.nodes.length := by
      rw [List.length_set, List.length_set]
    have hrfl : uPreds'.length = u₁.preds.length :=
      replaceFirst_length u₁.preds vIdx g.nodes.length uPreds' hrf
    have hu₁preds : u₁.preds.length = u.preds.length := by
      by_cases heq : uIdx = vIdx
      · subst heq
        rw [List.get?_set_eq, hv] at hu₁
        simp only [Option.map_eq_map, Option.map_some', Option.some.injEq] at hu₁
        subst hu₁
        have huv : u = v := by rw [hv] at hu; exact (Option.some.inj hu).symm
        subst huv
        rfl
      · rw [List.get?_set_ne _ _ (fun hx => heq hx.symm), hu] at hu₁
        cases hu₁
        rfl
    constructor
    · simp only [List.length_append, hlen₂]
      omega
    constructor
    · intro k n hk
      have hklt : k < g.nodes.length := (List.get?_eq_some.1 hk).1
      rw [List.get?_append (by omega : k < ((g.nodes.set vIdx
        (redirectNode g v i av)).set uIdx { u₁ with preds := uPreds' }).length)]
      by_cases hku : k = uIdx
      · subst hku
        rw [List.get?_set_eq, hu₁]
        by_cases hkv : k = vIdx
        · subst hkv
          rw [List.get?_set_eq, hv] at hu₁
          simp only [Option.map_eq_map, Option.map_some', Option.some.injEq] at hu₁
          subst hu₁
          rw [hv] at hk
          cases hk
          refine ⟨_, rfl, ?_, ?_, rfl, rfl, fun hne => absurd rfl hne⟩
          · simp [redirectNode]
          · show uPreds'.length = _
            rw [hrfl, hu₁preds]
            rw [hv] at hu
            cases hu
            rfl
        · rw [List.get?_set_ne _ _ (fun hx => hkv hx.symm), hu] at hu₁
          cases hu₁
          rw [hu] at hk
          cases hk
          exact ⟨_, rfl, rfl, by simp [hrfl, hu₁preds], rfl, rfl,
            fun _ => ⟨rfl, rfl⟩⟩
      · rw [List.get?_set_ne _ _ (fun hx => hku hx.symm)]
        by_cases hkv : k = vIdx
        · subst hkv
          rw [List.get?_set_eq, hv]
          rw [hv] at hk
          cases hk
          refine ⟨_, rfl, ?_, rfl, rfl, rfl, fun hne => absurd rfl hne⟩
          simp [redirectNode]
        · rw [List.get?_set_ne _ _ (fun hx => hkv hx.symm), hk]
          exact ⟨n, rfl, rfl, rfl, rfl, rfl, fun _ => ⟨rfl, rfl⟩⟩
    · intro k n' hk
      by_cases hklt : k < g.nodes.length
      · exact Or.inl hklt
      · right
        rw [List.get?_append_right (by omega : ((g.nodes.set vIdx
            (redirectNode g v i av)).set uIdx
            { u₁ with preds := uPreds' }).length ≤ k)] at hk
        rw [hlen₂] at hk
        have hkk : k - g.nodes.length = 0 := by
          have := (List.get?_eq_some.1 hk).1
          simp at this
          omega
        rw [hkk] at hk
        simp only [List.get?] at hk
        cases hk
        simp [mkSplitNode]

theorem splitOne_frozen (g : SGraph) (vIdx i : Nat) (g' : SGraph)
    (h : splitOne g vIdx i = some g') (k : Nat) (hkv : k ≠ vIdx) (n : SNode)
    (hk : g.nodes.get? k = some n) (hp : n.preds.length ≤ 1) :
    g'.nodes.get? k = some n := by
  obtain ⟨v, uIdx, u, hv, hc, hu, hcase⟩ := splitOne_inv g vIdx i g' h
  rcases hcase with ⟨-, rfl⟩ | ⟨hcrit, oldEdge, av, u₁, uPreds', he, hav, hu₁,
    hrf, rfl⟩
  · exact hk
  · have hklt : k < g.nodes.length := (List.get?_eq_some.1 hk).1
    have hku : k ≠ uIdx := by
      intro hx
      subst hx
      rw [hk] at hu
      cases hu
      omega
    rw [List.get?_append (by
      rw [List.length_set, List.length_set]; omega)]
    rw [List.get?_set_ne _ _ (fun hx => hku hx.symm),
      List.get?_set_ne _ _ (fun hx => hkv hx.symm)]
    exact hk

theorem splitOne_slotdata (g : SGraph) (vIdx j : Nat) (g' : SGraph)
    (h : splitOne g vIdx j = some g') (i : Nat) (hij : i ≠ j) (v : SNode)
    (hv : g.nodes.get? vIdx = some v) :
    ∃ v', g'.nodes.get? vIdx = some v' ∧
      v'.children.get? i = v.children.get? i ∧
      v'.edges.get? i = v.edges.get? i := by
  obtain ⟨v0, uIdx, u, hv0, hc0, hu0, hcase⟩ := splitOne_inv g vIdx j g' h
  rw [hv] at hv0
  cases hv0
  rcases hcase with ⟨-, rfl⟩ | ⟨hcrit, oldEdge, av, u₁, uPreds', he, hav, hu₁,
    hrf, rfl⟩
  · exact ⟨v, hv, rfl, rfl⟩
  · have hvlt : vIdx < g.nodes.length := (List.get?_eq_some.1 hv).1
    by_cases huv : uIdx = vIdx
    · subst huv
      rw [List.get?_set_eq, hv] at hu₁
      simp only [Option.map_eq_map, Option.map_some', Option.some.injEq] at hu₁
      subst hu₁
      refine ⟨{ redirectNode g v j av with preds := uPreds' }, ?_, ?_, ?_⟩
      · rw [List.get?_append (by
          rw [List.length_set, List.length_set]; omega)]
        rw [List.get?_set_eq, List.get?_set_eq, hv]
        rfl
      · show ((redirectNode g v j av).children).get? i = _
        exact List.get?_set_ne _ _ (fun hx => hij hx.symm)
      · show ((redirectNode g v j av).edges).get? i = _
        exact List.get?_set_ne _ _ (fun hx => hij hx.symm)
    · refine ⟨redirectNode g v j av, ?_, ?_, ?_⟩
      · rw [List.get?_append (by
          rw [List.length_set, List.length_set]; omega)]
        rw [List.get?_set_ne _ _ (fun hx => huv hx), List.get?_set_eq, hv]
        rfl
      · exact List.get?_set_ne _ _ (fun hx => hij hx.symm)
      · exact List.get?_set_ne _ _ (fun hx => hij hx.symm)

theorem get?_setset_append_new {α : Type} (l : List α) (a b c : α)
    (vi ui : Nat) :
    (((l.set vi a).set ui b) ++ [c]).get? l.length = some c := by
  rw [List.get?_append_right (by simp)]
  simp

theorem get?_setset_append_old {α : Type} (l : List α) (a b c : α)
    (vi ui k : Nat) (hk : k < l.length) :
    (((l.set vi a).set ui b) ++ [c]).get? k = ((l.set vi a).set ui b).get? k :=
  List.get?_append (by simp [hk])

theorem splitOne_slot_safe (g : SGraph) (vIdx i : Nat) (g' : SGraph)
    (h : splitOne g vIdx i = some g') : SafeSlot g' vIdx i := by
  obtain ⟨v, uIdx, u, hv, hc, hu, hcase⟩ := splitOne_inv g vIdx i g' h
  have hvlt : vIdx < g.nodes.length := (List.get?_eq_some.1 hv).1
  rcases hcase with ⟨hsafe, rfl⟩ | ⟨hcrit, oldEdge, av, u₁, uPreds', he, hav,
    hu₁, hrf, rfl⟩
  · intro v' hv' uIdx' hc' u' hu'
    rw [hv] at hv'
    cases hv'
    rw [hc] at hc'
    cases hc'
    rw [hu] at hu'
    cases hu'
    exact hsafe
  · intro v' hv' uIdx' hc' u' hu'
    have hchild : v'.children = v.children.set i g.nodes.length := by
      rw [get?_setset_append_old _ _ _ _ _ _ _ hvlt] at hv'
      by_cases huv : uIdx = vIdx
      · subst huv
        rw [List.get?_set_eq, hv] at hu₁
        simp only [Option.map_eq_map, Option.map_some', Option.some.injEq]
          at hu₁
        subst hu₁
        rw [List.get?_set_eq, List.get?_set_eq, hv] at hv'
        simp only [Option.map_eq_map, Option.map_some', Option.some.injEq]
          at hv'
        subst hv'
        rfl
      · rw [List.get?_set_ne _ _ (fun hx => huv hx), List.get?_set_eq, hv]
          at hv'
        simp only [Option.map_eq_map, Option.map_some', Option.some.injEq]
          at hv'
        subst hv'
        rfl
    rw [hchild, List.get?_set_eq, hc] at hc'
    simp only [Option.map_eq_map, Option.map_some', Option.some.injEq] at hc'
    subst hc'
    rw [get?_setset_append_new] at hu'
    cases hu'
    simp [mkSplitNode]

theorem splitOne_safe_keep (g : SGraph) (vIdx j : Nat) (g' : SGraph)
    (h : splitOne g vIdx j = some g') (i : Nat) (hij : i ≠ j)
    (hs : SafeSlot g vIdx i) : SafeSlot g' vIdx i := by
  obtain ⟨v, uIdx, u, hv, hc, hu, hcase⟩ := splitOne_inv g vIdx j g' h
  have hext := splitOne_ext g vIdx j g' h
  intro v' hv' uIdx' hc' u' hu'
  obtain ⟨v₂, hv₂, hceq, heeq⟩ := splitOne_slotdata g vIdx j g' h i hij v hv
  rw [hv'] at hv₂
  cases hv₂
  rw [hceq] at hc'
  rcases hext.2.2 uIdx' u' hu' with hlt | hprop
  · have hg : g.nodes.get? uIdx' = some (g.nodes.get ⟨uIdx', hlt⟩) :=
      List.get?_eq_get hlt
    obtain ⟨u'', hu'', _, hpl, _, _, _⟩ := hext.2.1 uIdx' _ hg
    rw [hu'] at hu''
    cases hu''
    rw [hpl]
    exact hs v hv uIdx' hc' _ hg
  · omega

theorem splitChildrenAux_inv (vIdx : Nat) (i r : Nat) (g g' : SGraph)
    (h : splitChildrenAux vIdx i (r + 1) g = some g') :
    ∃ g₂, splitOne g vIdx i = some g₂ ∧
      splitChildrenAux vIdx (i + 1) r g₂ = some g' := by
  unfold splitChildrenAux at h
  cases hs : splitOne g vIdx i with
  | none => rw [hs] at h; exact Option.noConfusion h
  | some g₂ =>
      rw [hs] at h
      simp only [Option.bind_eq_bind, Option.some_bind] at h
      exact ⟨g₂, rfl, h⟩

theorem splitChildrenAux_ext (vIdx : Nat) :
    ∀ (r i : Nat) (g g' : SGraph), splitChildrenAux vIdx i r g = some g' →
      Ext vIdx g g' := by
  intro r
  induction r with
  | zero =>
      intro i g g' h
      cases h
      exact Ext_refl vIdx _
  | succ r ih =>
      intro i g g' h
      obtain ⟨g₂, hs, hrest⟩ := splitChildrenAux_inv vIdx i r g g' h
      exact Ext_trans vIdx g g₂ g' (splitOne_ext g vIdx i g₂ hs)
        (ih (i + 1) g₂ g' hrest)

theorem splitChildrenAux_frozen (vIdx : Nat) :
    ∀ (r i : Nat) (g g' : SGraph), splitChildrenAux vIdx i r g = some g' →
      ∀ k, k ≠ vIdx → ∀ n, g.nodes.get? k = some n → n.preds.length ≤ 1 →
        g'.nodes.get? k = some n := by
  intro r
  induction r with
  | zero =>
      intro i g g' h k _ n hk _
      cases h
      exact hk
  | succ r ih =>
      intro i g g' h k hkv n hk hp
      obtain ⟨g₂, hs, hrest⟩ := splitChildrenAux_inv vIdx i r g g' h
      exact ih (i + 1) g₂ g' hrest k hkv n
        (splitOne_frozen g vIdx i g₂ hs k hkv n hk hp) hp

theorem splitChildrenAux_safe (vIdx : Nat) :
    ∀ (r i : Nat) (g g' : SGraph), splitChildrenAux vIdx i r g = some g' →
      (∀ j, j < i → SafeSlot g vIdx j) →
      ∀ j, j < i + r → SafeSlot g' vIdx j := by
  intro r
  induction r with
  | zero =>
      intro i g g' h h0 j hj
      cases h
      exact h0 j (by omega)
  | succ r ih =>
      intro i g g' h h0 j hj
      obtain ⟨g₂, hs, hrest⟩ := splitChildrenAux_inv vIdx i r g g' h
      refine ih (i + 1) g₂ g' hrest ?_ j (by omega)
      intro j' hj'
      by_cases hji : j' = i
      · subst hji
        exact splitOne_slot_safe g vIdx j' g₂ hs
      · exact splitOne_safe_keep g vIdx i g₂ hs j' hji (h0 j' (by omega))

theorem NoCritFor_of_Ext (vIdx k : Nat) (hne : k ≠ vIdx) (g g' : SGraph)
    (hext : Ext vIdx g g') (hnc : NoCritFor g k) : NoCritFor g' k := by
  intro v' hk' i uIdx hci u' hu'
  rcases hext.2.2 k v' hk' with hklt | hprop
  · have hg : g.nodes.get? k = some (g.nodes.get ⟨k, hklt⟩) :=
      List.get?_eq_get hklt
    obtain ⟨v'', hv'', hcl, hpl, _, _, hne'⟩ := hext.2.1 k _ hg
    rw [hk'] at hv''
    cases hv''
    obtain ⟨hceq, -⟩ := hne' hne
    rcases hext.2.2 uIdx u' hu' with hult | huprop
    · have hgu : g.nodes.get? uIdx = some (g.nodes.get ⟨uIdx, hult⟩) :=
        List.get?_eq_get hult
      obtain ⟨u'', hu'', _, hupl, _, _, _⟩ := hext.2.1 uIdx _ hgu
      rw [hu'] at hu''
      cases hu''
      intro ⟨h1, h2⟩
      rw [hceq] at hci h1
      rw [hupl] at h2
      exact hnc _ hg i uIdx hci _ hgu ⟨h1, h2⟩
    · intro ⟨_, h2⟩
      omega
  · intro ⟨h1, _⟩
    omega

theorem splitcritAux_inv (fuel idx : Nat) (g g' : SGraph)
    (h : splitcritAux (fuel + 1) idx g = some g') :
    (g.nodes.get? idx = none ∧ g' = g) ∨
    (∃ v, g.nodes.get? idx = some v ∧
      ((¬ 1 < v.children.length ∧ splitcritAux fuel (idx + 1) g = some g') ∨
       (1 < v.children.length ∧ ∃ g₁,
         splitChildrenAux idx 0 v.children.length g = some g₁ ∧
         splitcritAux fuel (idx + 1) g₁ = some g'))) := by
  unfold splitcritAux at h
  cases hidx : g.nodes.get? idx with
  | none =>
      rw [hidx] at h
      cases h
      exact Or.inl ⟨rfl, rfl⟩
  | some v =>
      rw [hidx] at h
      dsimp only at h
      by_cases hguard : 1 < v.children.length
      · rw [if_pos hguard] at h
        cases hsc : splitChildrenAux idx 0 v.children.length g with
        | none => rw [hsc] at h; exact Option.noConfusion h
        | some g₁ =>
            rw [hsc] at h
            simp only [Option.bind_eq_bind, Option.some_bind] at h
            exact Or.inr ⟨v, rfl, Or.inr ⟨hguard, g₁, hsc, h⟩⟩
      · rw [if_neg hguard] at h
        exact Or.inr ⟨v, rfl, Or.inl ⟨hguard, h⟩⟩

theorem splitcritAux_nocrit :
    ∀ (fuel idx : Nat) (g g' : SGraph), splitcritAux fuel idx g = some g' →
      (∀ k, k < idx → NoCritFor g k) → ∀ k, NoCritFor g' k := by
  intro fuel
  induction fuel with
  | zero => intro idx g g' h; exact Option.noConfusion h
  | succ fuel ih =>
      intro idx g g' h hbelow k
      rcases splitcritAux_inv fuel idx g g' h with ⟨hnone, rfl⟩ | ⟨v, hv, hcase⟩
      · by_cases hk : k < idx
        · exact hbelow k hk
        · intro v' hk' i uIdx hci u' hu'
          have hlt := (List.get?_eq_some.1 hk').1
          rw [List.get?_eq_none] at hnone
          omega
      · rcases hcase with ⟨hguard, hrest⟩ | ⟨hguard, g₁, hsc, hrest⟩
        · refine ih (idx + 1) g g' hrest ?_ k
          intro k' hk'
          by_cases hk'' : k' = idx
          · subst hk''
            intro v' hv' i uIdx hci u' hu'
            rw [hv] at hv'
            cases hv'
            intro ⟨h1, _⟩
            exact hguard h1
          · exact hbelow k' (by omega)
        · have hext := splitChildrenAux_ext idx _ _ _ _ hsc
          refine ih (idx + 1) g₁ g' hrest ?_ k
          intro k' hk'
          by_cases hk'' : k' = idx
          · subst hk''
            intro v' hv' i uIdx hci u' hu'
            obtain ⟨v₀, hv₀eq, hcl, _, _, _, _⟩ := hext.2.1 k' v hv
            rw [hv'] at hv₀eq
            cases hv₀eq
            intro ⟨h1, h2⟩
            have hchl : v'.children.length = v.children.length := hcl
            have hsafe := splitChildrenAux_safe k' _ _ _ _ hsc
              (fun j hj => absurd hj (by omega))
            have hilt : i < v.children.length := by
              have := (List.get?_eq_some.1 hci).1
              omega
            exact absurd (hsafe i (by omega) v' hv' uIdx hci u' hu')
              (by omega)
          · exact NoCritFor_of_Ext idx k' hk'' g g₁ hext
              (hbelow k' (by omega))

theorem splitcritAux_frozen :
    ∀ (fuel idx : Nat) (g g' : SGraph), splitcritAux fuel idx g = some g' →
      ∀ k n, g.nodes.get? k = some n → n.preds.length ≤ 1 →
        n.children.length ≤ 1 → g'.nodes.get? k = some n := by
  intro fuel
  induction fuel with
  | zero => intro idx g g' h; exact Option.noConfusion h
  | succ fuel ih =>
      intro idx g g' h k n hk hp hc
      rcases splitcritAux_inv fuel idx g g' h with ⟨hnone, rfl⟩ | ⟨v, hv, hcase⟩
      · exact hk
      · rcases hcase with ⟨hguard, hrest⟩ | ⟨hguard, g₁, hsc, hrest⟩
        · exact ih (idx + 1) g g' hrest k n hk hp hc
        · have hkidx : k ≠ idx := by
            intro hx
            subst hx
            rw [hk] at hv
            cases hv
            omega
          exact ih (idx + 1) g₁ g' hrest k n
            (splitChildrenAux_frozen idx _ _ _ _ hsc k hkidx n hk hp) hp hc

theorem splitcritAux_keepCE :
    ∀ (fuel idx : Nat) (g g' : SGraph), splitcritAux fuel idx g = some g' →
      ∀ k, k < idx → ∀ n, g.nodes.get? k = some n →
        ∃ n', g'.nodes.get? k = some n' ∧ n'.children = n.children ∧
          n'.edges = n.edges := by
  intro fuel
  induction fuel with
  | zero => intro idx g g' h; exact Option.noConfusion h
  | succ fuel ih =>
      intro idx g g' h k hkidx n hk
      rcases splitcritAux_inv fuel idx g g' h with ⟨hnone, rfl⟩ | ⟨v, hv, hcase⟩
      · exact ⟨n, hk, rfl, rfl⟩
      · rcases hcase with ⟨hguard, hrest⟩ | ⟨hguard, g₁, hsc, hrest⟩
        · exact ih (idx + 1) g g' hrest k (by omega) n hk
        · have hext := splitChildrenAux_ext idx _ _ _ _ hsc
          obtain ⟨n₁, hn₁, _, _, _, _, hne⟩ := hext.2.1 k n hk
          obtain ⟨hceq, heeq⟩ := hne (by omega)
          obtain ⟨n', hn', hceq', heeq'⟩ :=
            ih (idx + 1) g₁ g' hrest k (by omega) n₁ hn₁
          exact ⟨n', hn', hceq'.trans hceq, heeq'.trans heeq⟩

theorem alookup_mem_snd (k : Nat) :
    ∀ (l : List (Nat × Nat)) (v : Nat), alookup k l = some v →
      v ∈ l.map Prod.snd := by
  intro l
  induction l with
  | nil => intro v h; exact Option.noConfusion h
  | cons p t ih =>
      intro v h
      unfold alookup at h
      by_cases hp : p.1 = k
      · rw [if_pos hp] at h
        cases h
        exact List.mem_cons_self _ _
      · rw [if_neg hp] at h
        exact List.mem_cons_of_mem _ (ih v h)

theorem alookup_zip_isSome (pu : Nat) :
    ∀ (params pws : List Nat), params.length = pws.length →
      pu ∈ params → (alookup pu (params.zip pws)).isSome := by
  intro params
  induction params with
  | nil => intro pws _ hmem; cases hmem
  | cons p ps ih =>
      intro pws hlen hmem
      cases pws with
      | nil => simp at hlen
      | cons w ws =>
          simp only [List.zip_cons_cons]
          unfold alookup
          by_cases hp : p = pu
          · simp [hp]
          · rw [if_neg hp]
            rcases List.mem_cons.1 hmem with rfl | hmem'
            · exact absurd rfl hp
            · exact ih ws (by simpa using hlen) hmem'

theorem buildAv_lookup :
    ∀ (l : List (Nat × Nat)) (oldArgs av : List (Nat × Nat)),
      buildAv l oldArgs = some av → (l.map Prod.snd).Nodup →
      ∀ pu pw, alookup pu l = some pw →
        alookup pw av = alookup pu oldArgs := by
  intro l
  induction l with
  | nil => intro oldArgs av _ _ pu pw h; exact Option.noConfusion h
  | cons p t ih =>
      intro oldArgs av hav hnodup pu pw hpu
      obtain ⟨p0, w0⟩ := p
      unfold buildAv at hav
      cases hv0 : alookup p0 oldArgs with
      | none => rw [hv0] at hav; exact Option.noConfusion hav
      | some v0 =>
      rw [hv0] at hav
      simp only [Option.bind_eq_bind, Option.some_bind] at hav
      cases htail : buildAv t oldArgs with
      | none => rw [htail] at hav; exact Option.noConfusion hav
      | some tail =>
      rw [htail] at hav
      simp only [Option.bind_eq_bind, Option.some_bind, Option.pure_def,
        Option.some.injEq] at hav
      subst hav
      have hcons : ∀ (a b k : Nat) (t' : List (Nat × Nat)),
          alookup k ((a, b) :: t') = if a = k then some b else alookup k t' :=
        fun _ _ _ _ => rfl
      rw [hcons] at hpu
      simp only [List.map_cons, List.nodup_cons] at hnodup
      by_cases hp : p0 = pu
      · rw [if_pos hp] at hpu
        cases hpu
        rw [hcons, if_pos rfl, ← hp, hv0]
      · rw [if_neg hp] at hpu
        have hpwmem := alookup_mem_snd pu t pw hpu
        have hpwne : pw ≠ w0 := by
          intro hx
          subst hx
          exact hnodup.1 hpwmem
        rw [hcons, if_neg (fun hx => hpwne hx.symm)]
        exact ih oldArgs tail htail hnodup.2 pu pw hpu

theorem SplitPieces_mono (L L' : Nat) (hL : L' ≤ L) (g' : SGraph)
    (vIdx i uIdx : Nat) (uParams : List Nat) (e₀args : List (Nat × Nat))
    (h : SplitPieces L g' vIdx i uIdx uParams e₀args) :
    SplitPieces L' g' vIdx i uIdx uParams e₀args := by
  obtain ⟨n, v', w, e', h1, h2, h3, h4, h5, h6, h7, h8, h9, h10, h11⟩ := h
  exact ⟨n, v', w, e', h1, h2, by omega, h4, h5, h6, h7, h8, h9, h10, h11⟩

theorem crit_vnode (g : SGraph) (vIdx i : Nat) (v : SNode) (uIdx : Nat)
    (u₁ : SNode) (av : List (Nat × Nat)) (uPreds' : List Nat) (wnode : SNode)
    (hv : g.nodes.get? vIdx = some v)
    (hu₁ : (g.nodes.set vIdx (redirectNode g v i av)).get? uIdx = some u₁) :
    ∃ v', (((g.nodes.set vIdx (redirectNode g v i av)).set uIdx
        { u₁ with preds := uPreds' }) ++ [wnode]).get? vIdx = some v' ∧
      v'.children = v.children.set i g.nodes.length ∧
      v'.edges = v.edges.set i { target := g.nodes.length, args := av } := by
  have hvlt : vIdx < g.nodes.length := (List.get?_eq_some.1 hv).1
  by_cases huv : uIdx = vIdx
  · subst huv
    rw [List.get?_set_eq, hv] at hu₁
    simp only [Option.map_eq_map, Option.map_some', Option.some.injEq] at hu₁
    subst hu₁
    refine ⟨{ redirectNode g v i av with preds := uPreds' }, ?_, rfl, rfl⟩
    rw [get?_setset_append_old _ _ _ _ _ _ _ hvlt, List.get?_set_eq,
      List.get?_set_eq, hv]
    rfl
  · refine ⟨redirectNode g v i av, ?_, rfl, rfl⟩
    rw [get?_setset_append_old _ _ _ _ _ _ _ hvlt,
      List.get?_set_ne _ _ (fun hx => huv hx), List.get?_set_eq, hv]
    rfl

theorem splitOne_pieces (g : SGraph) (vIdx i : Nat) (g' : SGraph)
    (h : splitOne g vIdx i = some g') (v : SNode) (uIdx : Nat) (u : SNode)
    (hv : g.nodes.get? vIdx = some v) (hc : v.children.get? i = some uIdx)
    (hu : g.nodes.get? uIdx = some u) (hcrit : 1 < u.preds.length)
    (e₀ : SEdge) (he : v.edges.get? i = some e₀) :
    SplitPieces g.nodes.length g' vIdx i uIdx u.params e₀.args := by
  obtain ⟨v0, uIdx0, u0, hv0, hc0, hu0, hcase⟩ := splitOne_inv g vIdx i g' h
  rw [hv] at hv0
  cases hv0
  rw [hc] at hc0
  cases hc0
  rw [hu] at hu0
  cases hu0
  rcases hcase with ⟨hle, -⟩ | ⟨-, oldEdge, av, u₁, uPreds', he0, hav, hu₁,
    hrf, rfl⟩
  · omega
  · rw [he] at he0
    cases he0
    have hvlt : vIdx < g.nodes.length := (List.get?_eq_some.1 hv).1
    have hilt : i < v.children.length := (List.get?_eq_some.1 hc).1
    have hielt : i < v.edges.length := (List.get?_eq_some.1 he).1
    obtain ⟨v', hv', hvc, hve⟩ := crit_vnode g vIdx i v uIdx u₁ av uPreds'
      (mkSplitNode g vIdx uIdx u.params) hv hu₁
    refine ⟨g.nodes.length, v', mkSplitNode g vIdx uIdx u.params,
      { target := g.nodes.length, args := av }, hv', ?_, le_refl _, hvlt, ?_,
      rfl, rfl, rfl, ?_, rfl, ?_⟩
    · rw [hvc, List.get?_set_eq, hc]
      rfl
    · exact get?_setset_append_new _ _ _ _ _ _
    · rw [hve, List.get?_set_eq, he]
      rfl
    · refine ⟨(⟨uIdx, u.params.zip
          ((List.range u.params.length).map (g.paramCounter + ·))⟩ : SEdge),
        rfl, rfl, ?_⟩
      intro pu hpu
      have hlen : u.params.length =
          ((List.range u.params.length).map (g.paramCounter + ·)).length := by
        simp
      obtain ⟨pw, hpw⟩ := Option.isSome_iff_exists.1
        (alookup_zip_isSome pu u.params _ hlen hpu)
      refine ⟨pw, hpw, ?_⟩
      refine buildAv_lookup _ e₀.args av hav ?_ pu pw hpw
      have hsub : ((u.params.zip
          ((List.range u.params.length).map (g.paramCounter + ·))).map
            Prod.snd).Nodup := by
        have hnd : ((List.range u.params.length).map
            (g.paramCounter + ·)).Nodup :=
          List.Nodup.map (fun a b hab => by omega) (List.nodup_range _)
        have := List.map_snd_zip u.params
          ((List.range u.params.length).map (g.paramCounter + ·))
          (by simp)
        rw [this]
        exact hnd
      exact hsub

theorem splitOne_pieces_keep (g : SGraph) (vIdx j : Nat) (g' : SGraph)
    (h : splitOne g vIdx j = some g') (i : Nat) (hij : i ≠ j) (L : Nat)
    (uIdx : Nat) (uParams : List Nat) (e₀args : List (Nat × Nat))
    (hp : SplitPieces L g vIdx i uIdx uParams e₀args) :
    SplitPieces L g' vIdx i uIdx uParams e₀args := by
  obtain ⟨n, v', w, e', h1, h2, h3, h4, h5, h6, h7, h8, h9, h10, ew, h11,
    h12, h13⟩ := hp
  obtain ⟨v'', hv'', hceq, heeq⟩ := splitOne_slotdata g vIdx j g' h i hij v' h1
  have hw : g'.nodes.get? n = some w := by
    refine splitOne_frozen g vIdx j g' h n (by omega) w h5 ?_
    rw [h8]
    rfl
  exact ⟨n, v'', w, e', hv'', hceq.trans h2, h3, h4, hw, h6, h7, h8,
    heeq.trans h9, h10, ew, h11, h12, h13⟩

theorem splitChildrenAux_pieces_keep (vIdx : Nat) :
    ∀ (r i₁ : Nat) (g g' : SGraph), splitChildrenAux vIdx i₁ r g = some g' →
      ∀ i, i < i₁ → ∀ (L uIdx : Nat) (uParams : List Nat)
        (e₀args : List (Nat × Nat)),
        SplitPieces L g vIdx i uIdx uParams e₀args →
        SplitPieces L g' vIdx i uIdx uParams e₀args := by
  intro r
  induction r with
  | zero =>
      intro i₁ g g' h i _ L uIdx uParams e₀args hp
      cases h
      exact hp
  | succ r ih =>
      intro i₁ g g' h i hi L uIdx uParams e₀args hp
      obtain ⟨g₂, hs, hrest⟩ := splitChildrenAux_inv vIdx i₁ r g g' h
      exact ih (i₁ + 1) g₂ g' hrest i (by omega) L uIdx uParams e₀args
        (splitOne_pieces_keep g vIdx i₁ g₂ hs i (by omega) L uIdx uParams
          e₀args hp)

theorem splitChildrenAux_pieces (vIdx : Nat) :
    ∀ (r i₁ : Nat) (g g₁ : SGraph), splitChildrenAux vIdx i₁ r g = some g₁ →
      ∀ i, i₁ ≤ i → i < i₁ + r →
      ∀ (v : SNode) (uIdx : Nat) (u : SNode) (e₀ : SEdge),
        g.nodes.get? vIdx = some v → v.children.get? i = some uIdx →
        g.nodes.get? uIdx = some u → 1 < u.preds.length →
        v.edges.get? i = some e₀ →
        SplitPieces g.nodes.length g₁ vIdx i uIdx u.params e₀.args := by
  intro r
  induction r with
  | zero =>
      intro i₁ g g₁ h i hi1 hi2
      omega
  | succ r ih =>
      intro i₁ g g₁ h i hi1 hi2 v uIdx u e₀ hv hc hu hcrit he
      obtain ⟨g₂, hs, hrest⟩ := splitChildrenAux_inv vIdx i₁ r g g₁ h
      by_cases hii : i = i₁
      · subst hii
        exact splitChildrenAux_pieces_keep vIdx r (i + 1) g₂ g₁ hrest i
          (by omega) _ uIdx u.params e₀.args
          (splitOne_pieces g vIdx i g₂ hs v uIdx u hv hc hu hcrit e₀ he)
      · have hext := splitOne_ext g vIdx i₁ g₂ hs
        obtain ⟨v₂, hv₂, _, _, _, _, _⟩ := hext.2.1 vIdx v hv
        obtain ⟨v₂', hv₂', hceq, heeq⟩ :=
          splitOne_slotdata g vIdx i₁ g₂ hs i (fun hx => hii hx) v hv
        rw [hv₂] at hv₂'
        cases hv₂'
        obtain ⟨u₂, hu₂, _, hupl, hupar, _, _⟩ := hext.2.1 uIdx u hu
        have hres := ih (i₁ + 1) g₂ g₁ hrest i (by omega) (by omega) v₂ uIdx
          u₂ e₀ hv₂ (hceq.trans hc) hu₂ (by omega) (heeq.trans he)
        rw [hupar] at hres
        exact SplitPieces_mono g₂.nodes.length g.nodes.length hext.1 g₁ vIdx
          i uIdx u.params e₀.args hres

theorem splitcritAux_pieces_keep :
    ∀ (fuel idx : Nat) (g g' : SGraph), splitcritAux fuel idx g = some g' →
      ∀ vIdx, vIdx < idx → ∀ (i L uIdx : Nat) (uParams : List Nat)
        (e₀args : List (Nat × Nat)),
        SplitPieces L g vIdx i uIdx uParams e₀args →
        SplitPieces L g' vIdx i uIdx uParams e₀args := by
  intro fuel idx g g' h vIdx hvidx i L uIdx uParams e₀args hp
  obtain ⟨n, v', w, e', h1, h2, h3, h4, h5, h6, h7, h8, h9, h10, ew, h11,
    h12, h13⟩ := hp
  obtain ⟨v'', hv'', hceq, heeq⟩ :=
    splitcritAux_keepCE fuel idx g g' h vIdx hvidx v' h1
  have hw : g'.nodes.get? n = some w := by
    refine splitcritAux_frozen fuel idx g g' h n w h5 ?_ ?_
    · rw [h8]; rfl
    · rw [h7]; rfl
  exact ⟨n, v'', w, e', hv'', hceq ▸ h2, h3, h4, hw, h6, h7, h8,
    heeq ▸ h9, h10, ew, h11, h12, h13⟩

theorem splitcritAux_pieces :
    ∀ (fuel idx : Nat) (g g' : SGraph), splitcritAux fuel idx g = some g' →
      ∀ vIdx, idx ≤ vIdx →
      ∀ (i : Nat) (v : SNode) (uIdx : Nat) (u : SNode) (e₀ : SEdge),
        g.nodes.get? vIdx = some v → 1 < v.children.length →
        v.children.get? i = some uIdx → g.nodes.get? uIdx = some u →
        1 < u.preds.length → v.edges.get? i = some e₀ →
        SplitPieces g.nodes.length g' vIdx i uIdx u.params e₀.args := by
  intro fuel
  induction fuel with
  | zero => intro idx g g' h; exact Option.noConfusion h
  | succ fuel ih =>
      intro idx g g' h vIdx hvidx i v uIdx u e₀ hv hguard hc hu hcrit he
      rcases splitcritAux_inv fuel idx g g' h with ⟨hnone, rfl⟩ |
        ⟨v0, hv0, hcase⟩
      · have hlt := (List.get?_eq_some.1 hv).1
        rw [List.get?_eq_none] at hnone
        omega
      · rcases hcase with ⟨hguard0, hrest⟩ | ⟨hguard0, g₁, hsc, hrest⟩
        · by_cases hiv : idx = vIdx
          · subst hiv
            rw [hv0] at hv
            cases hv
            exact absurd hguard hguard0
          · exact ih (idx + 1) g g' hrest vIdx (by omega) i v uIdx u e₀ hv
              hguard hc hu hcrit he
        · by_cases hiv : idx = vIdx
          · subst hiv
            rw [hv0] at hv
            cases hv
            have hilt : i < v.children.length := (List.get?_eq_some.1 hc).1
            have hp₁ := splitChildrenAux_pieces idx v.children.length 0 g g₁
              hsc i (by omega) (by omega) v uIdx u e₀ hv0 hc hu hcrit he
            exact splitcritAux_pieces_keep fuel (idx + 1) g₁ g' hrest idx
              (by omega) i g.nodes.length uIdx u.params e₀.args hp₁
          · have hext := splitChildrenAux_ext idx _ _ _ _ hsc
            obtain ⟨v₁, hv₁, _, _, _, _, hne⟩ := hext.2.1 vIdx v hv
            obtain ⟨hceq, heeq⟩ := hne (fun hx => hiv hx.symm)
            obtain ⟨u₁, hu₁, _, hupl, hupar, _, _⟩ := hext.2.1 uIdx u hu
            have hres := ih (idx + 1) g₁ g' hrest vIdx (by omega) i v₁ uIdx
              u₁ e₀ hv₁ (by rw [hceq]; exact hguard) (by rw [hceq]; exact hc)
              hu₁ (by omega) (by rw [heeq]; exact he)
            rw [hupar] at hres
            exact SplitPieces_mono g₁.nodes.length g.nodes.length hext.1 g'
              vIdx i uIdx u.params e₀.args hres

/-- C2: after `splitcrit` runs to completion, no edge of the resulting
graph joins a multi-successor node to a multi-predecessor node; and every
critical edge of the input graph (slot `i` of a node `vIdx` with more
than one child, targeting a node `uIdx` with more than one predecessor)
has been replaced by two edges through a fresh block — labelled with
suffix `'_split'`, with exactly one predecessor (`vIdx`) and one successor
(`uIdx`) — that only forwards the original edge's parameter arguments:
for every parameter `pu` of the target, following the rewritten edge's
argument map through the split block's forwarding map gives exactly the
original argument of `pu`, which is the sense in which semantics are
unchanged. -/
theorem splitcrit_correct (g : SGraph) (fuel : Nat) (g' : SGraph)
    (h : splitcrit g fuel = some g') :
    (∀ k, NoCritFor g' k) ∧
    (∀ (vIdx i : Nat) (v : SNode) (uIdx : Nat) (u : SNode) (e₀ : SEdge),
      g.nodes.get? vIdx = some v → 1 < v.children.length →
      v.children.get? i = some uIdx → g.nodes.get? uIdx = some u →
      1 < u.preds.length → v.edges.get? i = some e₀ →
      SplitPieces g.nodes.length g' vIdx i uIdx u.params e₀.args) := by
  constructor
  · exact splitcritAux_nocrit fuel 0 g g' h (fun k hk => absurd hk (by omega))
  · intro vIdx i v uIdx u e₀ hv hguard hc hu hcrit he
    exact splitcritAux_pieces fuel 0 g g' h vIdx (Nat.zero_le _) i v uIdx u
      e₀ hv hguard hc hu hcrit he

theorem splitcrit_correct_witness :
    splitcrit diamondGraph 10 = some diamondSplit ∧
    (∀ k, NoCritFor diamondSplit k) ∧
    SplitPieces diamondGraph.nodes.length diamondSplit 0 1 2 [50]
      [(50, 7)] := by
  refine ⟨by decide,
    (splitcrit_correct diamondGraph 10 diamondSplit (by decide)).1, ?_⟩
  exact (splitcrit_correct diamondGraph 10 diamondSplit (by decide)).2 0 1
    ⟨[1, 2], [], [], [⟨1, []⟩, ⟨2, [(50, 7)]⟩], SLabel.anon 1⟩ 2
    ⟨[], [0, 1], [50], [], SLabel.anon 3⟩ ⟨2, [(50, 7)]⟩
    (by decide) (by decide) (by decide) (by decide) (by decide) (by decide)

/-- C9 counterexample: a block with 40 simultaneously-live values — more
than the 32 integer registers of RV64, or any physical pool — is coloured
without any error: the value of its fortieth instruction receives colour
39.  The claimed `RegisterAllocationFailure` does not exist in the code;
allocation pressure yields ever larger colour numbers instead of a
compile-time error. -/
theorem allocator_colours_beyond_pool :
    (allocate_block highPressureBlock).isSome = true ∧
    (allocate_block highPressureBlock).bind (fun st => st.1 139) = some 39 ∧
    32 < 40 := by
  refine ⟨by decide, by decide, by decide⟩

/-! ### Lemmas for the parallel-move sequencer (claim C3) -/

theorem applyMoves_snoc (l : List (Nat × Nat)) (s d : Nat)
    (r : Nat → Nat) (x : Nat) :
    applyMoves (l ++ [(s, d)]) r x =
      if x = d then applyMoves l r s else applyMoves l r x := by
  induction l generalizing r with
  | nil => rfl
  | cons p t ih =>
      cases p with
      | mk a b =>
          show applyMoves (t ++ [(s, d)])
              (fun y => if y = b then r a else r y) x = _
          rw [ih]
          rfl

theorem pmok_dst_inj (moves0 : List (Nat × Nat)) (tmp : Nat)
    (hok : PMOk moves0 tmp) (j k : Nat) (ma mb : Nat × Nat)
    (hj : moves0.get? j = some ma) (hk : moves0.get? k = some mb)
    (he : ma.2 = mb.2) : j = k := by
  have h1 : (moves0.map Prod.snd).get? j = some ma.2 := by
    rw [List.get?_map, hj]; rfl
  have h2 : (moves0.map Prod.snd).get? k = some mb.2 := by
    rw [List.get?_map, hk]; rfl
  have hlt : j < (moves0.map Prod.snd).length := (List.get?_eq_some.1 h1).1
  refine List.get?_inj hlt hok.1 ?_
  rw [h1, h2, he]

theorem replicate_get? (a : PM) : ∀ n k, (List.replicate n a).get? k =
    if k < n then some a else none := by
  intro n
  induction n with
  | zero => intro k; simp
  | succ n ih =>
      intro k
      cases k with
      | zero => rw [if_pos (Nat.succ_pos n)]; rfl
      | succ k =>
          show (List.replicate n a).get? k = _
          rw [ih k]
          by_cases h : k < n
          · rw [if_pos h, if_pos (by omega)]
          · rw [if_neg h, if_neg (by omega)]

theorem pmCount_replicate : ∀ n, pmCount (List.replicate n PM.notmoved) = n
  | 0 => rfl
  | n + 1 => by
      show pmCount (List.replicate n PM.notmoved) + 1 = n + 1
      rw [pmCount_replicate n]

theorem pmCount_set_notmoved : ∀ (l : List PM) (i : Nat) (a : PM),
    l.get? i = some PM.notmoved → a ≠ PM.notmoved →
    pmCount (l.set i a) + 1 = pmCount l := by
  intro l
  induction l with
  | nil => intro i a h _; cases h
  | cons x t ih =>
      intro i a h ha
      cases i with
      | zero =>
          have hx : x = PM.notmoved := by injection h
          subst hx
          cases a with
          | notmoved => exact absurd rfl ha
          | moving => rfl
          | moved => rfl
      | succ i =>
          have hr := ih i a h ha
          cases x with
          | notmoved =>
              show pmCount (PM.notmoved :: t.set i a) + 1 = _
              simp only [pmCount]
              omega
          | moving =>
              show pmCount (PM.moving :: t.set i a) + 1 = _
              simp only [pmCount]
              omega
          | moved =>
              show pmCount (PM.moved :: t.set i a) + 1 = _
              simp only [pmCount]
              omega

theorem pmCount_le_of_pointwise : ∀ (l l' : List PM),
    l'.length = l.length →
    (∀ k, l'.get? k = some PM.notmoved → l.get? k = some PM.notmoved) →
    pmCount l' ≤ pmCount l := by
  intro l
  induction l with
  | nil =>
      intro l' hl _
      rw [List.length_nil, List.length_eq_zero] at hl
      rw [hl]
  | cons x t ih =>
      intro l' hl hp
      cases l' with
      | nil => exact Nat.zero_le _
      | cons y t' =>
          have ht : t'.length = t.length := by
            simpa using hl
          have htp : ∀ k, t'.get? k = some PM.notmoved →
              t.get? k = some PM.notmoved := fun k hk => hp (k + 1) hk
          have hr := ih t' ht htp
          cases y with
          | notmoved =>
              have hx : x = PM.notmoved := by
                have h0 := hp 0 rfl
                injection h0
              subst hx
              simp only [pmCount]
              omega
          | moving =>
              cases x <;> simp only [pmCount] <;> omega
          | moved =>
              cases x <;> simp only [pmCount] <;> omega

theorem PMStep_refl (tmp : Nat) (st : PMSt) : PMStep tmp st st :=
  ⟨rfl, rfl, fun _ h => h, fun _ m m' h h' => by
    rw [h] at h'; cases h'; exact Or.inl rfl⟩

theorem PMStep_trans (tmp : Nat) (s1 s2 s3 : PMSt) (h12 : PMStep tmp s1 s2)
    (h23 : PMStep tmp s2 s3) : PMStep tmp s1 s3 := by
  obtain ⟨l1, l2, hm, hs⟩ := h12
  obtain ⟨l1', l2', hm', hs'⟩ := h23
  refine ⟨l1'.trans l1, l2'.trans l2, fun k h => hm' k (hm k h), ?_⟩
  intro k m m'' h h''
  have hk : k < s2.moves.length := by
    have := (List.get?_eq_some.1 h).1
    omega
  have hm2 := List.get?_eq_get hk
  rcases hs' k _ m'' hm2 h'' with ha | ha
  · rcases hs k m _ h hm2 with hb | hb
    · exact Or.inl (ha.trans hb)
    · exact Or.inr (ha.trans hb)
  · exact Or.inr ha

theorem HandledAt_mono (tmp : Nat) (st st' : PMSt) (k d : Nat)
    (h : HandledAt st k d) (hstep : PMStep tmp st st') (hd : d ≠ tmp) :
    HandledAt st' k d := by
  rcases h with h | h
  · exact Or.inl (hstep.2.2.1 k h)
  · refine Or.inr fun m' hm' => ?_
    have hk : k < st.moves.length := by
      have := (List.get?_eq_some.1 hm').1
      rw [hstep.1] at this
      exact this
    have hm := List.get?_eq_get hk
    rcases hstep.2.2.2 k _ m' hm hm' with h1 | h1
    · rw [h1]; exact h _ hm
    · intro he
      exact hd (he.symm.trans h1)

theorem pmov1_inv (tmp fuel i : Nat) (st st' : PMSt)
    (h : pmov1 tmp (fuel + 1) i st = some st') :
    ∃ mi, st.moves.get? i = some mi ∧
      ((mi.1 = mi.2 ∧ st' = st) ∨
       (mi.1 ≠ mi.2 ∧ ∃ st₂ mi₂,
         pmInner (pmov1 tmp fuel) tmp i 0 st.moves.length
           { st with state := st.state.set i PM.moving } = some st₂ ∧
         st₂.moves.get? i = some mi₂ ∧
         st' = { st₂ with
                   results := st₂.results ++ [(mi₂.1, mi₂.2)],
                   state := st₂.state.set i PM.moved })) := by
  unfold pmov1 at h
  cases hmi : st.moves.get? i with
  | none => rw [hmi] at h; cases h
  | some mi =>
      rw [hmi] at h
      simp only [Option.bind_eq_bind, Option.some_bind] at h
      by_cases hc : mi.1 = mi.2
      · rw [if_pos hc] at h
        refine ⟨mi, rfl, Or.inl ⟨hc, ?_⟩⟩
        cases h
        rfl
      · rw [if_neg hc] at h
        cases hs2 : pmInner (pmov1 tmp fuel) tmp i 0 st.moves.length
            { st with state := st.state.set i PM.moving } with
        | none =>
            rw [hs2] at h
            simp only [Option.none_bind] at h
            cases h
        | some st₂ =>
            rw [hs2] at h
            simp only [Option.some_bind] at h
            cases hmi₂ : st₂.moves.get? i with
            | none =>
                rw [hmi₂] at h
                simp only [Option.none_bind] at h
                cases h
            | some mi₂ =>
                rw [hmi₂] at h
                simp only [Option.some_bind, Option.pure_def,
                  Option.some.injEq] at h
                exact ⟨mi, rfl, Or.inr ⟨hc, st₂, mi₂, rfl, hmi₂, h.symm⟩⟩

theorem pmInner_inv (f : Nat → PMSt → Option PMSt) (tmp i j r : Nat)
    (st st' : PMSt) (h : pmInner f tmp i j (r + 1) st = some st') :
    ∃ mj mi, st.moves.get? j = some mj ∧ st.moves.get? i = some mi ∧
      ((mj.1 = mi.2 ∧ st.state.get? j = some PM.notmoved ∧
         ∃ st₂, f j st = some st₂ ∧
           pmInner f tmp i (j + 1) r st₂ = some st') ∨
       (mj.1 = mi.2 ∧ st.state.get? j = some PM.moving ∧
         pmInner f tmp i (j + 1) r
           { st with moves := st.moves.set j (tmp, mj.2),
                     results := st.results ++ [(mj.1, tmp)] } = some st') ∨
       (mj.1 = mi.2 ∧ st.state.get? j = some PM.moved ∧
         pmInner f tmp i (j + 1) r st = some st') ∨
       (mj.1 ≠ mi.2 ∧ pmInner f tmp i (j + 1) r st = some st')) := by
  unfold pmInner at h
  cases hmj : st.moves.get? j with
  | none => rw [hmj] at h; cases h
  | some mj =>
      rw [hmj] at h
      simp only [Option.bind_eq_bind, Option.some_bind] at h
      cases hmi : st.moves.get? i with
      | none => rw [hmi] at h; cases h
      | some mi =>
          rw [hmi] at h
          simp only [Option.some_bind] at h
          by_cases hc : mj.1 = mi.2
          · rw [if_pos hc] at h
            cases hsj : st.state.get? j with
            | none =>
                rw [hsj] at h
                dsimp only at h
                cases h
            | some sj =>
                rw [hsj] at h
                cases sj with
                | notmoved =>
                    dsimp only at h
                    cases hf : f j st with
                    | none =>
                        rw [hf] at h
                        simp only [Option.none_bind] at h
                        cases h
                    | some st₂ =>
                        rw [hf] at h
                        simp only [Option.some_bind] at h
                        exact ⟨mj, mi, rfl, rfl,
                          Or.inl ⟨hc, rfl, st₂, rfl, h⟩⟩
                | moving =>
                    dsimp only at h
                    exact ⟨mj, mi, rfl, rfl,
                      Or.inr (Or.inl ⟨hc, rfl, h⟩)⟩
                | moved =>
                    dsimp only at h
                    exact ⟨mj, mi, rfl, rfl,
                      Or.inr (Or.inr (Or.inl ⟨hc, rfl, h⟩))⟩
          · rw [if_neg hc] at h
            exact ⟨mj, mi, rfl, rfl, Or.inr (Or.inr (Or.inr ⟨hc, h⟩))⟩

theorem pmOuter_inv (tmp fuel i r : Nat) (st st' : PMSt)
    (h : pmOuter tmp fuel i (r + 1) st = some st') :
    ∃ si, st.state.get? i = some si ∧
      ((si = PM.notmoved ∧ ∃ st₂, pmov1 tmp fuel i st = some st₂ ∧
         pmOuter tmp fuel (i + 1) r st₂ = some st') ∨
       (si ≠ PM.notmoved ∧ pmOuter tmp fuel (i + 1) r st = some st')) := by
  unfold pmOuter at h
  cases hsi : st.state.get? i with
  | none => rw [hsi] at h; cases h
  | some si =>
      rw [hsi] at h
      cases si with
      | notmoved =>
          dsimp only at h
          cases hf : pmov1 tmp fuel i st with
          | none =>
              rw [hf] at h
              simp only [Option.bind_eq_bind, Option.none_bind] at h
              cases h
          | some st₂ =>
              rw [hf] at h
              simp only [Option.bind_eq_bind, Option.some_bind] at h
              exact ⟨PM.notmoved, rfl, Or.inl ⟨rfl, st₂, rfl, h⟩⟩
      | moving =>
          dsimp only at h
          exact ⟨PM.moving, rfl, Or.inr ⟨fun hx => PM.noConfusion hx, h⟩⟩
      | moved =>
          dsimp only at h
          exact ⟨PM.moved, rfl, Or.inr ⟨fun hx => PM.noConfusion hx, h⟩⟩

theorem pmInner_step_rec (f : Nat → PMSt → Option PMSt)
    (tmp i j r : Nat) (st : PMSt) (mj mi : Nat × Nat) (st₂ : PMSt)
    (hmj : st.moves.get? j = some mj) (hmi : st.moves.get? i = some mi)
    (hc : mj.1 = mi.2) (hsj : st.state.get? j = some PM.notmoved)
    (hf : f j st = some st₂) :
    pmInner f tmp i j (r + 1) st = pmInner f tmp i (j + 1) r st₂ := by
  conv_lhs => unfold pmInner
  rw [hmj]
  simp only [Option.bind_eq_bind, Option.some_bind]
  rw [hmi]
  simp only [Option.some_bind]
  rw [if_pos hc, hsj]
  dsimp only
  rw [hf]
  simp only [Option.bind_eq_bind, Option.some_bind]

theorem pmInner_step_save (f : Nat → PMSt → Option PMSt)
    (tmp i j r : Nat) (st : PMSt) (mj mi : Nat × Nat)
    (hmj : st.moves.get? j = some mj) (hmi : st.moves.get? i = some mi)
    (hc : mj.1 = mi.2) (hsj : st.state.get? j = some PM.moving) :
    pmInner f tmp i j (r + 1) st = pmInner f tmp i (j + 1) r
      { st with moves := st.moves.set j (tmp, mj.2),
                results := st.results ++ [(mj.1, tmp)] } := by
  conv_lhs => unfold pmInner
  rw [hmj]
  simp only [Option.bind_eq_bind, Option.some_bind]
  rw [hmi]
  simp only [Option.some_bind]
  rw [if_pos hc, hsj]

theorem pmInner_step_moved (f : Nat → PMSt → Option PMSt)
    (tmp i j r : Nat) (st : PMSt) (mj mi : Nat × Nat)
    (hmj : st.moves.get? j = some mj) (hmi : st.moves.get? i = some mi)
    (hc : mj.1 = mi.2) (hsj : st.state.get? j = some PM.moved) :
    pmInner f tmp i j (r + 1) st = pmInner f tmp i (j + 1) r st := by
  conv_lhs => unfold pmInner
  rw [hmj]
  simp only [Option.bind_eq_bind, Option.some_bind]
  rw [hmi]
  simp only [Option.some_bind]
  rw [if_pos hc, hsj]

theorem pmInner_step_skip (f : Nat → PMSt → Option PMSt)
    (tmp i j r : Nat) (st : PMSt) (mj mi : Nat × Nat)
    (hmj : st.moves.get? j = some mj) (hmi : st.moves.get? i = some mi)
    (hc : mj.1 ≠ mi.2) :
    pmInner f tmp i j (r + 1) st = pmInner f tmp i (j + 1) r st := by
  conv_lhs => unfold pmInner
  rw [hmj]
  simp only [Option.bind_eq_bind, Option.some_bind]
  rw [hmi]
  simp only [Option.some_bind]
  rw [if_neg hc]

theorem pmov1_eq_self (tmp fuel i : Nat) (st : PMSt) (mi : Nat × Nat)
    (hmi : st.moves.get? i = some mi) (hc : mi.1 = mi.2) :
    pmov1 tmp (fuel + 1) i st = some st := by
  unfold pmov1
  rw [hmi]
  simp only [Option.bind_eq_bind, Option.some_bind]
  rw [if_pos hc]
  rfl

theorem pmov1_eq_go (tmp fuel i : Nat) (st st₂ : PMSt)
    (mi mi₂ : Nat × Nat) (hmi : st.moves.get? i = some mi)
    (hc : mi.1 ≠ mi.2)
    (hs2 : pmInner (pmov1 tmp fuel) tmp i 0 st.moves.length
      { st with state := st.state.set i PM.moving } = some st₂)
    (hmi₂ : st₂.moves.get? i = some mi₂) :
    pmov1 tmp (fuel + 1) i st =
      some { st₂ with results := st₂.results ++ [(mi₂.1, mi₂.2)],
                      state := st₂.state.set i PM.moved } := by
  unfold pmov1
  rw [hmi]
  simp only [Option.bind_eq_bind, Option.some_bind]
  rw [if_neg hc, hs2]
  simp only [Option.some_bind]
  rw [hmi₂]
  simp only [Option.some_bind]
  rfl

theorem pmOuter_step_notmoved (tmp fuel i r : Nat) (st st₂ : PMSt)
    (hsi : st.state.get? i = some PM.notmoved)
    (hp : pmov1 tmp fuel i st = some st₂) :
    pmOuter tmp fuel i (r + 1) st = pmOuter tmp fuel (i + 1) r st₂ := by
  conv_lhs => unfold pmOuter
  rw [hsi]
  dsimp only
  rw [hp]
  simp only [Option.bind_eq_bind, Option.some_bind]

theorem pmOuter_step_other (tmp fuel i r : Nat) (st : PMSt) (si : PM)
    (hsi : st.state.get? i = some si) (hns : si ≠ PM.notmoved) :
    pmOuter tmp fuel i (r + 1) st = pmOuter tmp fuel (i + 1) r st := by
  conv_lhs => unfold pmOuter
  rw [hsi]
  cases si with
  | notmoved => exact absurd rfl hns
  | moving => rfl
  | moved => rfl

theorem pmCount_pos : ∀ (l : List PM) (j : Nat),
    l.get? j = some PM.notmoved → 0 < pmCount l := by
  intro l
  induction l with
  | nil => intro j h; cases h
  | cons x t ih =>
      intro j h
      cases j with
      | zero =>
          have hx : x = PM.notmoved := by injection h
          subst hx
          simp only [pmCount]
          omega
      | succ j =>
          have := ih j h
          cases x <;> simp only [pmCount] <;> omega

theorem get?_set_self_ne (l : List PM) (i : Nat) (a b : PM) (hab : a ≠ b) :
    (l.set i a).get? i ≠ some b := by
  intro hcon
  rw [List.get?_set_eq] at hcon
  cases h : l.get? i with
  | none => rw [h] at hcon; cases hcon
  | some s =>
      rw [h] at hcon
      have h2 : some a = some b := hcon
      have h3 : a = b := by injection h2
      exact hab h3

theorem PMSh_refl (st : PMSt) : PMSh st st := ⟨rfl, rfl, fun _ h => h⟩

theorem PMSh_trans (s1 s2 s3 : PMSt) (h12 : PMSh s1 s2)
    (h23 : PMSh s2 s3) : PMSh s1 s3 :=
  ⟨h23.1.trans h12.1, h23.2.1.trans h12.2.1,
    fun k hk => h12.2.2 k (h23.2.2 k hk)⟩

theorem pmInner_total (f : Nat → PMSt → Option PMSt) (tmp i B : Nat)
    (hf : ∀ j st, st.state.get? j = some PM.notmoved →
      st.moves.length = st.state.length → pmCount st.state ≤ B →
      ∃ st', f j st = some st' ∧ PMSh st st') :
    ∀ (r j : Nat) (st : PMSt), st.moves.length = st.state.length →
      j + r ≤ st.moves.length → i < st.moves.length →
      pmCount st.state ≤ B →
      ∃ st', pmInner f tmp i j r st = some st' ∧ PMSh st st' := by
  intro r
  induction r with
  | zero =>
      intro j st _ _ _ _
      exact ⟨st, rfl, PMSh_refl st⟩
  | succ r ih =>
      intro j st hlen hjr hi hcnt
      have hj : j < st.moves.length := by omega
      have hmj := List.get?_eq_get hj
      have hmi := List.get?_eq_get hi
      by_cases hc : (st.moves.get ⟨j, hj⟩).1 = (st.moves.get ⟨i, hi⟩).2
      · cases hsj : st.state.get? j with
        | none =>
            have hjS : j < st.state.length := by omega
            rw [List.get?_eq_get hjS] at hsj
            cases hsj
        | some sj =>
            cases sj with
            | notmoved =>
                obtain ⟨st₂, hf2, hsh2⟩ := hf j st hsj hlen hcnt
                obtain ⟨st', hrec, hsh⟩ := ih (j + 1) st₂
                  (by rw [hsh2.1, hsh2.2.1]; exact hlen)
                  (by rw [hsh2.1]; omega) (by rw [hsh2.1]; omega)
                  (le_trans (pmCount_le_of_pointwise st.state st₂.state
                    hsh2.2.1 hsh2.2.2) hcnt)
                refine ⟨st', ?_, PMSh_trans st st₂ st' hsh2 hsh⟩
                rw [pmInner_step_rec f tmp i j r st _ _ st₂ hmj hmi hc
                  hsj hf2]
                exact hrec
            | moving =>
                obtain ⟨st', hrec, hsh⟩ := ih (j + 1)
                  { st with moves := st.moves.set j (tmp, (st.moves.get ⟨j, hj⟩).2), results := st.results ++ [((st.moves.get ⟨j, hj⟩).1, tmp)] }
                  (by show (st.moves.set j _).length = st.state.length
                      rw [List.length_set]; exact hlen)
                  (by show j + 1 + r ≤ (st.moves.set j _).length
                      rw [List.length_set]; omega)
                  (by show i < (st.moves.set j _).length
                      rw [List.length_set]; omega)
                  hcnt
                refine ⟨st', ?_, ?_⟩
                · rw [pmInner_step_save f tmp i j r st _ _ hmj hmi hc hsj]
                  exact hrec
                · refine ⟨?_, hsh.2.1, hsh.2.2⟩
                  rw [hsh.1]
                  show (st.moves.set j _).length = st.moves.length
                  exact List.length_set st.moves j _
            | moved =>
                obtain ⟨st', hrec, hsh⟩ := ih (j + 1) st hlen (by omega)
                  hi hcnt
                refine ⟨st', ?_, hsh⟩
                rw [pmInner_step_moved f tmp i j r st _ _ hmj hmi hc hsj]
                exact hrec
      · obtain ⟨st', hrec, hsh⟩ := ih (j + 1) st hlen (by omega) hi hcnt
        refine ⟨st', ?_, hsh⟩
        rw [pmInner_step_skip f tmp i j r st _ _ hmj hmi hc]
        exact hrec

theorem pmov1_total_aux (tmp fuelp B : Nat)
    (hf : ∀ j st, st.state.get? j = some PM.notmoved →
      st.moves.length = st.state.length → pmCount st.state ≤ B →
      ∃ st', pmov1 tmp fuelp j st = some st' ∧ PMSh st st') :
    ∀ (i : Nat) (st : PMSt), st.state.get? i = some PM.notmoved →
      st.moves.length = st.state.length →
      pmCount st.state ≤ B + 1 →
      ∃ st', pmov1 tmp (fuelp + 1) i st = some st' ∧ PMSh st st' := by
  intro i st hsi hlen hcnt
  have hiS : i < st.state.length := (List.get?_eq_some.1 hsi).1
  have hiM : i < st.moves.length := by omega
  have hmi := List.get?_eq_get hiM
  by_cases hc : (st.moves.get ⟨i, hiM⟩).1 = (st.moves.get ⟨i, hiM⟩).2
  · exact ⟨st, pmov1_eq_self tmp fuelp i st _ hmi hc, PMSh_refl st⟩
  · have hcnt₁ : pmCount (st.state.set i PM.moving) + 1 =
        pmCount st.state :=
      pmCount_set_notmoved st.state i PM.moving hsi
        (fun h => PM.noConfusion h)
    obtain ⟨st₂, heq, hsh₂⟩ := pmInner_total (pmov1 tmp fuelp) tmp i B hf
      st.moves.length 0 { st with state := st.state.set i PM.moving }
      (by show st.moves.length = (st.state.set i PM.moving).length
          rw [List.length_set]; exact hlen)
      (by show 0 + st.moves.length ≤ st.moves.length
          omega)
      hiM
      (by show pmCount (st.state.set i PM.moving) ≤ B
          omega)
    have hiM₂ : i < st₂.moves.length := by
      rw [hsh₂.1]; exact hiM
    have hmi₂ := List.get?_eq_get hiM₂
    refine ⟨_, pmov1_eq_go tmp fuelp i st st₂ _ _ hmi hc heq hmi₂,
      ?_, ?_, ?_⟩
    · exact hsh₂.1
    · show (st₂.state.set i PM.moved).length = st.state.length
      rw [List.length_set, hsh₂.2.1]
      exact List.length_set st.state i PM.moving
    · intro k hk
      have hki : k ≠ i := by
        intro he
        subst he
        exact get?_set_self_ne st₂.state k PM.moved PM.notmoved
          (fun h => PM.noConfusion h) hk
      rw [show ({ st₂ with
            results := st₂.results ++
              [((st₂.moves.get ⟨i, hiM₂⟩).1, (st₂.moves.get ⟨i, hiM₂⟩).2)],
            state := st₂.state.set i PM.moved } : PMSt).state =
          st₂.state.set i PM.moved from rfl,
        List.get?_set_ne _ _ (fun hx => hki hx.symm)] at hk
      have hk₁ := hsh₂.2.2 k hk
      rw [show ({ st with state := st.state.set i PM.moving } : PMSt).state
          = st.state.set i PM.moving from rfl,
        List.get?_set_ne _ _ (fun hx => hki hx.symm)] at hk₁
      exact hk₁

theorem pmov1_total (tmp : Nat) : ∀ (fuel i : Nat) (st : PMSt),
    st.state.get? i = some PM.notmoved →
    st.moves.length = st.state.length →
    pmCount st.state ≤ fuel + 1 →
    ∃ st', pmov1 tmp (fuel + 1) i st = some st' ∧ PMSh st st' := by
  intro fuel
  induction fuel with
  | zero =>
      refine pmov1_total_aux tmp 0 0 ?_
      intro j st hj _ hcnt
      exact absurd (pmCount_pos st.state j hj) (by omega)
  | succ fuel ih =>
      exact pmov1_total_aux tmp (fuel + 1) (fuel + 1) ih

theorem pmOuter_total (tmp n : Nat) : ∀ (r i : Nat) (st : PMSt),
    st.moves.length = st.state.length →
    i + r ≤ st.state.length →
    pmCount st.state ≤ n + 1 →
    ∃ st', pmOuter tmp (n + 1) i r st = some st' ∧ PMSh st st' := by
  intro r
  induction r with
  | zero => intro i st _ _ _; exact ⟨st, rfl, PMSh_refl st⟩
  | succ r ih =>
      intro i st hlen hir hcnt
      have hi : i < st.state.length := by omega
      have hsi := List.get?_eq_get hi
      by_cases hnm : st.state.get ⟨i, hi⟩ = PM.notmoved
      · obtain ⟨st₂, hp, hsh⟩ := pmov1_total tmp n i st
          (by rw [hsi, hnm]) hlen hcnt
        obtain ⟨st', hrec, hsh'⟩ := ih (i + 1) st₂
          (by rw [hsh.1, hsh.2.1]; exact hlen)
          (by rw [hsh.2.1]; omega)
          (le_trans (pmCount_le_of_pointwise st.state st₂.state
            hsh.2.1 hsh.2.2) hcnt)
        refine ⟨st', ?_, PMSh_trans st st₂ st' hsh hsh'⟩
        rw [pmOuter_step_notmoved tmp (n + 1) i r st st₂
          (by rw [hsi, hnm]) hp]
        exact hrec
      · obtain ⟨st', hrec, hsh⟩ := ih (i + 1) st hlen (by omega) hcnt
        refine ⟨st', ?_, hsh⟩
        rw [pmOuter_step_other tmp (n + 1) i r st _ hsi hnm]
        exact hrec

theorem get?_set_self {α : Type _} (l : List α) (i : Nat) (a : α)
    (h : i < l.length) : (l.set i a).get? i = some a := by
  rw [List.get?_set_eq, List.get?_eq_get h]
  rfl

theorem cons_get?_root (x : Nat) (L : List Nat) (h : 0 < L.length) :
    (x :: L).get? ((x :: L).length - 1) = L.get? (L.length - 1) := by
  show (x :: L).get? (L.length + 1 - 1) = _
  have h2 : L.length + 1 - 1 = (L.length - 1) + 1 := by omega
  rw [h2]
  rfl

theorem notmoved_src (moves0 : List (Nat × Nat)) (tmp : Nat)
    (r0 : Nat → Nat) (st : PMSt) (L : List Nat) (j : Nat)
    (mj m0j : Nat × Nat) (inv : PMInv moves0 tmp r0 st L)
    (hmj : st.moves.get? j = some mj) (hm0j : moves0.get? j = some m0j)
    (hsj : st.state.get? j = some PM.notmoved) : mj.1 = m0j.1 := by
  rcases inv.srcEq j m0j mj hm0j hmj (by
    rw [hsj]; intro hx; exact PM.noConfusion (Option.some.inj hx)) with
    h | ⟨_, hroot⟩
  · exact h
  · exfalso
    have hjL : j ∈ L := List.get?_mem hroot
    have hmv := (inv.movingIff j).2 hjL
    rw [hsj] at hmv
    exact PM.noConfusion (Option.some.inj hmv)

theorem save_is_root (moves0 : List (Nat × Nat)) (tmp : Nat)
    (r0 : Nat → Nat) (hok : PMOk moves0 tmp) (st : PMSt) (L : List Nat)
    (i j : Nat) (mj mi m0i m0j : Nat × Nat)
    (inv : PMInv moves0 tmp r0 st (i :: L))
    (hmj : st.moves.get? j = some mj) (hmi : st.moves.get? i = some mi)
    (hm0i : moves0.get? i = some m0i) (hm0j : moves0.get? j = some m0j)
    (hsj : st.state.get? j = some PM.moving) (hne : m0i.1 ≠ m0i.2)
    (hc : mj.1 = mi.2) :
    (i :: L).get? ((i :: L).length - 1) = some j := by
  have hmidst : mi.2 = m0i.2 := inv.dstEq i m0i mi hm0i hmi
  have hdnt : m0i.2 ≠ tmp := (hok.2 m0i (List.get?_mem hm0i)).2
  have hsrcj : mj.1 = m0j.1 := by
    rcases inv.srcEq j m0j mj hm0j hmj (by
      rw [hsj]; intro hx; exact PM.noConfusion (Option.some.inj hx)) with
      h | ⟨ht, _⟩
    · exact h
    · exact absurd (by rw [← hmidst, ← hc]; exact ht) hdnt
  have hsd : m0j.1 = m0i.2 := by rw [← hsrcj, hc, hmidst]
  have hjmem : j ∈ i :: L := (inv.movingIff j).1 hsj
  have hji : j ≠ i := by
    intro he
    subst he
    rw [hm0i] at hm0j
    have heq : m0i = m0j := by injection hm0j
    subst heq
    exact hne hsd
  have hjL : j ∈ L := by
    rcases List.mem_cons.1 hjmem with h | h
    · exact absurd h hji
    · exact h
  obtain ⟨k, hk⟩ := List.mem_iff_get?.1 hjL
  have hkL : k < L.length := (List.get?_eq_some.1 hk).1
  by_cases hkk : k + 1 < L.length
  · exfalso
    have hb := List.get?_eq_get hkk
    have hbmem : L.get ⟨k + 1, hkk⟩ ∈ i :: L :=
      List.mem_cons_of_mem i (List.get_mem L (k + 1) hkk)
    have hbmoving := (inv.movingIff _).2 hbmem
    have hblt : L.get ⟨k + 1, hkk⟩ < moves0.length := by
      have h1 := (List.get?_eq_some.1 hbmoving).1
      have h2 := inv.lenS
      omega
    have hm0b := List.get?_eq_get hblt
    have hchain := inv.chainL (k + 1) j (L.get ⟨k + 1, hkk⟩)
      (show (i :: L).get? (k + 1) = some j from hk)
      (show (i :: L).get? (k + 2) = some (L.get ⟨k + 1, hkk⟩) from hb)
      m0j (moves0.get ⟨L.get ⟨k + 1, hkk⟩, hblt⟩) hm0j hm0b
    have hbi : L.get ⟨k + 1, hkk⟩ = i := pmok_dst_inj moves0 tmp hok
      (L.get ⟨k + 1, hkk⟩) i (moves0.get ⟨L.get ⟨k + 1, hkk⟩, hblt⟩) m0i
      hm0b hm0i (by rw [← hchain]; exact hsd)
    have hiL : i ∈ L := by
      rw [← hbi]
      exact List.get_mem L (k + 1) hkk
    exact (List.nodup_cons.1 inv.nodupL).1 hiL
  · have hkeq : k = L.length - 1 := by omega
    have hL0 : 0 < L.length := by omega
    rw [cons_get?_root i L hL0, ← hkeq]
    exact hk

theorem PMInv_push (moves0 : List (Nat × Nat)) (tmp : Nat)
    (r0 : Nat → Nat) (st : PMSt) (L : List Nat)
    (i : Nat) (m0i : Nat × Nat) (inv : PMInv moves0 tmp r0 st L)
    (hm0i : moves0.get? i = some m0i)
    (hsi : st.state.get? i = some PM.notmoved)
    (hchain : ∀ hd mhd, L.get? 0 = some hd → moves0.get? hd = some mhd →
      m0i.1 = mhd.2) :
    PMInv moves0 tmp r0 { st with state := st.state.set i PM.moving }
      (i :: L) := by
  have hiS : i < st.state.length := (List.get?_eq_some.1 hsi).1
  have hiL : i ∉ L := by
    intro hmem
    have hmv := (inv.movingIff i).2 hmem
    rw [hsi] at hmv
    exact PM.noConfusion (Option.some.inj hmv)
  refine ⟨inv.lenM, ?_, inv.dstEq, ?_, List.nodup_cons.2 ⟨hiL, inv.nodupL⟩,
    ?_, ?_, ?_, ?_⟩
  · show (st.state.set i PM.moving).length = moves0.length
    rw [List.length_set]
    exact inv.lenS
  · intro k
    constructor
    · intro hk
      have hk' : (st.state.set i PM.moving).get? k = some PM.moving := hk
      by_cases hki : k = i
      · subst hki
        exact List.mem_cons_self k L
      · rw [List.get?_set_ne _ _ (fun hx => hki hx.symm)] at hk'
        exact List.mem_cons_of_mem i ((inv.movingIff k).1 hk')
    · intro hk
      rcases List.mem_cons.1 hk with h | h
      · subst h
        exact get?_set_self st.state k PM.moving hiS
      · have hki : k ≠ i := fun he => hiL (he ▸ h)
        show (st.state.set i PM.moving).get? k = some PM.moving
        rw [List.get?_set_ne _ _ (fun hx => hki hx.symm)]
        exact (inv.movingIff k).2 h
  · intro k a b hka hkb ma mb hma hmb
    cases k with
    | zero =>
        have ha : i = a := by injection hka
        subst ha
        have hkb' : L.get? 0 = some b := hkb
        rw [hm0i] at hma
        have hme : m0i = ma := by injection hma
        subst hme
        exact hchain b mb hkb' hmb
    | succ k =>
        have hka' : L.get? k = some a := hka
        have hkb' : L.get? (k + 1) = some b := hkb
        exact inv.chainL k a b hka' hkb' ma mb hma hmb
  · intro k m0 m hm0 hm hnotmoved
    by_cases hki : k = i
    · subst hki
      have hm' : st.moves.get? k = some m := hm
      rw [hm0i] at hm0
      have hme : m0i = m0 := by injection hm0
      subst hme
      exact Or.inl (notmoved_src moves0 tmp r0 st L k m m0i inv hm' hm0i hsi)
    · have hm' : st.moves.get? k = some m := hm
      have hnm' : st.state.get? k ≠ some PM.moved := by
        intro hx
        apply hnotmoved
        show (st.state.set i PM.moving).get? k = some PM.moved
        rw [List.get?_set_ne _ _ (fun hx2 => hki hx2.symm)]
        exact hx
      rcases inv.srcEq k m0 m hm0 hm' hnm' with h | ⟨ht, hroot⟩
      · exact Or.inl h
      · refine Or.inr ⟨ht, ?_⟩
        have hL0 : 0 < L.length := by
          have := (List.get?_eq_some.1 hroot).1
          omega
        rw [cons_get?_root i L hL0]
        exact hroot
  · intro k m0 hm0 hmoved
    have hki : k ≠ i := by
      intro he
      subst he
      have hx : (st.state.set k PM.moving).get? k = some PM.moved := hmoved
      rw [get?_set_self st.state k PM.moving hiS] at hx
      exact PM.noConfusion (Option.some.inj hx)
    have hmoved' : st.state.get? k = some PM.moved := by
      have h2 : (st.state.set i PM.moving).get? k = some PM.moved := hmoved
      rw [List.get?_set_ne _ _ (fun hx => hki hx.symm)] at h2
      exact h2
    exact inv.movedVal k m0 hm0 hmoved'
  · intro k m0 m hm0 hm hnotmoved
    have hm' : st.moves.get? k = some m := hm
    have hnm' : st.state.get? k ≠ some PM.moved := by
      intro hx
      by_cases hki : k = i
      · subst hki
        rw [hsi] at hx
        exact PM.noConfusion (Option.some.inj hx)
      · exact hnotmoved (show (st.state.set i PM.moving).get? k =
          some PM.moved by
            rw [List.get?_set_ne _ _ (fun hx2 => hki hx2.symm)]
            exact hx)
    exact inv.liveVal k m0 m hm0 hm' hnm'

theorem PMInv_save (moves0 : List (Nat × Nat)) (tmp : Nat)
    (r0 : Nat → Nat) (hok : PMOk moves0 tmp) (st : PMSt) (L : List Nat)
    (i j : Nat) (mj m0j : Nat × Nat)
    (inv : PMInv moves0 tmp r0 st (i :: L))
    (hmj : st.moves.get? j = some mj) (hm0j : moves0.get? j = some m0j)
    (hsj : st.state.get? j = some PM.moving)
    (hroot : (i :: L).get? ((i :: L).length - 1) = some j) :
    PMInv moves0 tmp r0
      { st with moves := st.moves.set j (tmp, mj.2),
                results := st.results ++ [(mj.1, tmp)] } (i :: L) := by
  have hjM : j < st.moves.length := (List.get?_eq_some.1 hmj).1
  have hρ : ∀ x, applyMoves (st.results ++ [(mj.1, tmp)]) r0 x =
      if x = tmp then applyMoves st.results r0 mj.1
      else applyMoves st.results r0 x :=
    fun x => applyMoves_snoc st.results mj.1 tmp r0 x
  refine ⟨?_, inv.lenS, ?_, inv.movingIff, inv.nodupL, inv.chainL,
    ?_, ?_, ?_⟩
  · show (st.moves.set j (tmp, mj.2)).length = moves0.length
    rw [List.length_set]
    exact inv.lenM
  · intro k m0 m hm0 hm
    by_cases hkj : k = j
    · subst hkj
      have hm' : (st.moves.set k (tmp, mj.2)).get? k = some m := hm
      rw [get?_set_self st.moves k (tmp, mj.2) hjM] at hm'
      have hme : (tmp, mj.2) = m := by injection hm'
      rw [← hme]
      show mj.2 = m0.2
      exact inv.dstEq k m0 mj hm0 hmj
    · have hm' : st.moves.get? k = some m := by
        have h2 : (st.moves.set j (tmp, mj.2)).get? k = some m := hm
        rw [List.get?_set_ne _ _ (fun hx => hkj hx.symm)] at h2
        exact h2
      exact inv.dstEq k m0 m hm0 hm'
  · intro k m0 m hm0 hm hnotmoved
    have hnm' : st.state.get? k ≠ some PM.moved := hnotmoved
    by_cases hkj : k = j
    · subst hkj
      have hm' : (st.moves.set k (tmp, mj.2)).get? k = some m := hm
      rw [get?_set_self st.moves k (tmp, mj.2) hjM] at hm'
      have hme : (tmp, mj.2) = m := by injection hm'
      refine Or.inr ⟨?_, hroot⟩
      rw [← hme]
    · have hm' : st.moves.get? k = some m := by
        have h2 : (st.moves.set j (tmp, mj.2)).get? k = some m := hm
        rw [List.get?_set_ne _ _ (fun hx => hkj hx.symm)] at h2
        exact h2
      exact inv.srcEq k m0 m hm0 hm' hnm'
  · intro k m0 hm0 hmoved
    have hmoved' : st.state.get? k = some PM.moved := hmoved
    have hd : m0.2 ≠ tmp := (hok.2 m0 (List.get?_mem hm0)).2
    show applyMoves (st.results ++ [(mj.1, tmp)]) r0 m0.2 = r0 m0.1
    rw [hρ m0.2, if_neg hd]
    exact inv.movedVal k m0 hm0 hmoved'
  · intro k m0 m hm0 hm hnotmoved
    have hnm' : st.state.get? k ≠ some PM.moved := hnotmoved
    show applyMoves (st.results ++ [(mj.1, tmp)]) r0 m.1 = r0 m0.1
    by_cases hkj : k = j
    · subst hkj
      have hm' : (st.moves.set k (tmp, mj.2)).get? k = some m := hm
      rw [get?_set_self st.moves k (tmp, mj.2) hjM] at hm'
      have hme : (tmp, mj.2) = m := by injection hm'
      rw [← hme]
      show applyMoves (st.results ++ [(mj.1, tmp)]) r0 tmp = r0 m0.1
      rw [hρ tmp, if_pos rfl]
      exact inv.liveVal k m0 mj hm0 hmj (by
        rw [hsj]; intro hx; exact PM.noConfusion (Option.some.inj hx))
    · have hm' : st.moves.get? k = some m := by
        have h2 : (st.moves.set j (tmp, mj.2)).get? k = some m := hm
        rw [List.get?_set_ne _ _ (fun hx => hkj hx.symm)] at h2
        exact h2
      have hm1 : m.1 ≠ tmp := by
        rcases inv.srcEq k m0 m hm0 hm' hnm' with h | ⟨ht, hroot'⟩
        · rw [h]
          exact (hok.2 m0 (List.get?_mem hm0)).1
        · exfalso
          rw [hroot] at hroot'
          have hjk : j = k := by injection hroot'
          exact hkj hjk.symm
      rw [hρ m.1, if_neg hm1]
      exact inv.liveVal k m0 m hm0 hm' hnm'

theorem PMInv_pop (moves0 : List (Nat × Nat)) (tmp : Nat)
    (r0 : Nat → Nat) (hok : PMOk moves0 tmp) (st₂ : PMSt) (L : List Nat)
    (i : Nat) (mi₂ m0i : Nat × Nat)
    (inv : PMInv moves0 tmp r0 st₂ (i :: L))
    (hmi₂ : st₂.moves.get? i = some mi₂)
    (hm0i : moves0.get? i = some m0i)
    (hhand : ∀ k, k < moves0.length → HandledAt st₂ k m0i.2) :
    PMInv moves0 tmp r0
      { st₂ with results := st₂.results ++ [(mi₂.1, mi₂.2)],
                 state := st₂.state.set i PM.moved } L := by
  have hiM : i < st₂.moves.length := (List.get?_eq_some.1 hmi₂).1
  have hiS : i < st₂.state.length := by
    have h1 := inv.lenM
    have h2 := inv.lenS
    omega
  have hiL : i ∉ L := (List.nodup_cons.1 inv.nodupL).1
  have hidst : mi₂.2 = m0i.2 := inv.dstEq i m0i mi₂ hm0i hmi₂
  have himoving : st₂.state.get? i = some PM.moving :=
    (inv.movingIff i).2 (List.mem_cons_self i L)
  have hρ : ∀ x, applyMoves (st₂.results ++ [(mi₂.1, mi₂.2)]) r0 x =
      if x = mi₂.2 then applyMoves st₂.results r0 mi₂.1
      else applyMoves st₂.results r0 x :=
    fun x => applyMoves_snoc st₂.results mi₂.1 mi₂.2 r0 x
  refine ⟨inv.lenM, ?_, inv.dstEq, ?_, (List.nodup_cons.1 inv.nodupL).2,
    ?_, ?_, ?_, ?_⟩
  · show (st₂.state.set i PM.moved).length = moves0.length
    rw [List.length_set]
    exact inv.lenS
  · intro k
    constructor
    · intro hk
      have hk' : (st₂.state.set i PM.moved).get? k = some PM.moving := hk
      by_cases hki : k = i
      · subst hki
        rw [get?_set_self st₂.state k PM.moved hiS] at hk'
        exact absurd (Option.some.inj hk') (fun h => PM.noConfusion h)
      · rw [List.get?_set_ne _ _ (fun hx => hki hx.symm)] at hk'
        rcases List.mem_cons.1 ((inv.movingIff k).1 hk') with h | h
        · exact absurd h hki
        · exact h
    · intro hk
      have hki : k ≠ i := fun he => hiL (he ▸ hk)
      show (st₂.state.set i PM.moved).get? k = some PM.moving
      rw [List.get?_set_ne _ _ (fun hx => hki hx.symm)]
      exact (inv.movingIff k).2 (List.mem_cons_of_mem i hk)
  · intro k a b hka hkb ma mb hma hmb
    exact inv.chainL (k + 1) a b hka hkb ma mb hma hmb
  · intro k m0 m hm0 hm hnotmoved
    have hm' : st₂.moves.get? k = some m := hm
    have hki : k ≠ i := by
      intro he
      subst he
      exact hnotmoved (get?_set_self st₂.state k PM.moved hiS)
    have hnm₂ : st₂.state.get? k ≠ some PM.moved := by
      intro hx
      apply hnotmoved
      show (st₂.state.set i PM.moved).get? k = some PM.moved
      rw [List.get?_set_ne _ _ (fun hx2 => hki hx2.symm)]
      exact hx
    rcases inv.srcEq k m0 m hm0 hm' hnm₂ with h | ⟨ht, hroot⟩
    · exact Or.inl h
    · refine Or.inr ⟨ht, ?_⟩
      cases L with
      | nil =>
          exfalso
          have hik : i = k := by injection hroot
          exact hki hik.symm
      | cons x t =>
          have hL0 : 0 < (x :: t).length := Nat.succ_pos t.length
          rw [cons_get?_root i (x :: t) hL0] at hroot
          exact hroot
  · intro k m0 hm0 hmoved
    have hmoved' : (st₂.state.set i PM.moved).get? k = some PM.moved :=
      hmoved
    show applyMoves (st₂.results ++ [(mi₂.1, mi₂.2)]) r0 m0.2 = r0 m0.1
    by_cases hki : k = i
    · subst hki
      rw [hm0i] at hm0
      have he2 : m0i = m0 := by injection hm0
      subst he2
      rw [hρ m0i.2, if_pos hidst.symm]
      exact inv.liveVal k m0i mi₂ hm0i hmi₂ (by
        rw [himoving]; intro hx; exact PM.noConfusion (Option.some.inj hx))
    · have hmoved'' : st₂.state.get? k = some PM.moved := by
        rw [List.get?_set_ne _ _ (fun hx => hki hx.symm)] at hmoved'
        exact hmoved'
      have hd2 : m0.2 ≠ mi₂.2 := by
        intro he
        exact hki (pmok_dst_inj moves0 tmp hok k i m0 m0i hm0 hm0i
          (by rw [he, hidst]))
      rw [hρ m0.2, if_neg hd2]
      exact inv.movedVal k m0 hm0 hmoved''
  · intro k m0 m hm0 hm hnotmoved
    have hm' : st₂.moves.get? k = some m := hm
    have hki : k ≠ i := by
      intro he
      subst he
      exact hnotmoved (get?_set_self st₂.state k PM.moved hiS)
    have hnm₂ : st₂.state.get? k ≠ some PM.moved := by
      intro hx
      apply hnotmoved
      show (st₂.state.set i PM.moved).get? k = some PM.moved
      rw [List.get?_set_ne _ _ (fun hx2 => hki hx2.symm)]
      exact hx
    have hklt : k < moves0.length := (List.get?_eq_some.1 hm0).1
    have hm1 : m.1 ≠ mi₂.2 := by
      rcases hhand k hklt with h | h
      · exact absurd h hnm₂
      · rw [hidst]
        exact h m hm'
    show applyMoves (st₂.results ++ [(mi₂.1, mi₂.2)]) r0 m.1 = r0 m0.1
    rw [hρ m.1, if_neg hm1]
    exact inv.liveVal k m0 m hm0 hm' hnm₂

theorem pmInner_spec (moves0 : List (Nat × Nat)) (tmp : Nat)
    (r0 : Nat → Nat) (hok : PMOk moves0 tmp)
    (f : Nat → PMSt → Option PMSt)
    (hf : ∀ (j : Nat) (st st' : PMSt) (L : List Nat) (m0j : Nat × Nat),
      f j st = some st' → PMInv moves0 tmp r0 st L →
      st.state.get? j = some PM.notmoved → moves0.get? j = some m0j →
      (∀ hd mhd, L.get? 0 = some hd → moves0.get? hd = some mhd →
        m0j.1 = mhd.2) →
      PMInv moves0 tmp r0 st' L ∧ PMStep tmp st st' ∧
      (st'.state.get? j = some PM.moved ∨
        (st' = st ∧ ∀ m, st.moves.get? j = some m → m.1 = m.2))) :
    ∀ (r j : Nat) (st st' : PMSt) (L : List Nat) (i : Nat)
      (m0i : Nat × Nat),
      pmInner f tmp i j r st = some st' →
      PMInv moves0 tmp r0 st (i :: L) →
      moves0.get? i = some m0i → m0i.1 ≠ m0i.2 →
      (∀ k, k < j → HandledAt st k m0i.2) →
      PMInv moves0 tmp r0 st' (i :: L) ∧ PMStep tmp st st' ∧
      ∀ k, k < j + r → HandledAt st' k m0i.2 := by
  intro r
  induction r with
  | zero =>
      intro j st st' L i m0i h inv _ _ hhand
      cases h
      exact ⟨inv, PMStep_refl tmp st, fun k hk => hhand k (by omega)⟩
  | succ r ih =>
      intro j st st' L i m0i h inv hm0i hne hhand
      have hdnt : m0i.2 ≠ tmp := (hok.2 m0i (List.get?_mem hm0i)).2
      obtain ⟨mj, mi, hmj, hmi, hcase⟩ := pmInner_inv f tmp i j r st st' h
      have hmidst : mi.2 = m0i.2 := inv.dstEq i m0i mi hm0i hmi
      have hjlt : j < moves0.length := by
        have h1 := (List.get?_eq_some.1 hmj).1
        have h2 := inv.lenM
        omega
      have hm0j := List.get?_eq_get hjlt
      rcases hcase with ⟨hc, hsj, st₂, hfj, hrest⟩ |
        ⟨hc, hsj, hrest⟩ | ⟨hc, hsj, hrest⟩ | ⟨hc, hrest⟩
      · -- NOTMOVED: recurse via hf
        have hsrcj : mj.1 = (moves0.get ⟨j, hjlt⟩).1 :=
          notmoved_src moves0 tmp r0 st (i :: L) j mj
            (moves0.get ⟨j, hjlt⟩) inv hmj hm0j hsj
        have hchain2 : ∀ hd mhd, (i :: L).get? 0 = some hd →
            moves0.get? hd = some mhd →
            (moves0.get ⟨j, hjlt⟩).1 = mhd.2 := by
          intro hd mhd h0 hm
          have hhd : i = hd := by injection h0
          subst hhd
          rw [hm0i] at hm
          have hme : m0i = mhd := by injection hm
          subst hme
          rw [← hsrcj, hc, hmidst]
        obtain ⟨inv₂, step₂, hres⟩ := hf j st st₂ (i :: L)
          (moves0.get ⟨j, hjlt⟩) hfj inv hsj hm0j hchain2
        have hjmoved : st₂.state.get? j = some PM.moved := by
          rcases hres with h' | ⟨he, hself⟩
          · exact h'
          · exfalso
            have hmjj := hself mj hmj
            have hdj : mj.2 = (moves0.get ⟨j, hjlt⟩).2 :=
              inv.dstEq j (moves0.get ⟨j, hjlt⟩) mj hm0j hmj
            have hji : j = i := pmok_dst_inj moves0 tmp hok j i
              (moves0.get ⟨j, hjlt⟩) m0i hm0j hm0i
              (by rw [← hdj, ← hmjj, hc, hmidst])
            subst hji
            have hmv := (inv.movingIff j).2 (List.mem_cons_self j L)
            rw [hsj] at hmv
            exact PM.noConfusion (Option.some.inj hmv)
        have hhand₂ : ∀ k, k < j + 1 → HandledAt st₂ k m0i.2 := by
          intro k hk
          by_cases hkj : k = j
          · subst hkj
            exact Or.inl hjmoved
          · exact HandledAt_mono tmp st st₂ k m0i.2 (hhand k (by omega))
              step₂ hdnt
        obtain ⟨inv', step', hhand'⟩ := ih (j + 1) st₂ st' L i m0i hrest
          inv₂ hm0i hne hhand₂
        exact ⟨inv', PMStep_trans tmp st st₂ st' step₂ step',
          fun k hk => hhand' k (by omega)⟩
      · -- MOVING: spill the cycle root to tmp
        have hroot : (i :: L).get? ((i :: L).length - 1) = some j :=
          save_is_root moves0 tmp r0 hok st L i j mj mi m0i
            (moves0.get ⟨j, hjlt⟩) inv hmj hmi hm0i hm0j hsj hne hc
        have hjM : j < st.moves.length := (List.get?_eq_some.1 hmj).1
        have inv₂ := PMInv_save moves0 tmp r0 hok st L i j mj
          (moves0.get ⟨j, hjlt⟩) inv hmj hm0j hsj hroot
        have step₂ : PMStep tmp st
            { st with moves := st.moves.set j (tmp, mj.2),
                      results := st.results ++ [(mj.1, tmp)] } := by
          refine ⟨List.length_set st.moves j (tmp, mj.2), rfl,
            fun k hk => hk, ?_⟩
          intro k m m' hm hm'
          by_cases hkj : k = j
          · subst hkj
            have hm'2 : (st.moves.set k (tmp, mj.2)).get? k = some m' := hm'
            rw [get?_set_self st.moves k (tmp, mj.2) hjM] at hm'2
            have hme : (tmp, mj.2) = m' := by injection hm'2
            rw [← hme]
            exact Or.inr rfl
          · have hm'2 : st.moves.get? k = some m' := by
              have h2 : (st.moves.set j (tmp, mj.2)).get? k = some m' := hm'
              rw [List.get?_set_ne _ _ (fun hx => hkj hx.symm)] at h2
              exact h2
            rw [hm] at hm'2
            have hme : m = m' := by injection hm'2
            rw [← hme]
            exact Or.inl rfl
        have hhand₂ : ∀ k, k < j + 1 → HandledAt { st with moves := st.moves.set j (tmp, mj.2), results := st.results ++ [(mj.1, tmp)] } k m0i.2 := by
          intro k hk
          by_cases hkj : k = j
          · subst hkj
            refine Or.inr fun m hm => ?_
            have hm2 : (st.moves.set k (tmp, mj.2)).get? k = some m := hm
            rw [get?_set_self st.moves k (tmp, mj.2) hjM] at hm2
            have hme : (tmp, mj.2) = m := by injection hm2
            rw [← hme]
            exact fun hx => hdnt hx.symm
          · exact HandledAt_mono tmp st _ k m0i.2 (hhand k (by omega))
              step₂ hdnt
        obtain ⟨inv', step', hhand'⟩ := ih (j + 1) _ st' L i m0i hrest
          inv₂ hm0i hne hhand₂
        exact ⟨inv', PMStep_trans tmp st _ st' step₂ step',
          fun k hk => hhand' k (by omega)⟩
      · -- MOVED: nothing to do
        have hhand₂ : ∀ k, k < j + 1 → HandledAt st k m0i.2 := by
          intro k hk
          by_cases hkj : k = j
          · subst hkj
            exact Or.inl hsj
          · exact hhand k (by omega)
        obtain ⟨inv', step', hhand'⟩ := ih (j + 1) st st' L i m0i hrest
          inv hm0i hne hhand₂
        exact ⟨inv', step', fun k hk => hhand' k (by omega)⟩
      · -- sources do not match
        have hhand₂ : ∀ k, k < j + 1 → HandledAt st k m0i.2 := by
          intro k hk
          by_cases hkj : k = j
          · subst hkj
            refine Or.inr fun m hm => ?_
            rw [hmj] at hm
            have hme : mj = m := by injection hm
            subst hme
            rw [← hmidst]
            exact hc
          · exact hhand k (by omega)
        obtain ⟨inv', step', hhand'⟩ := ih (j + 1) st st' L i m0i hrest
          inv hm0i hne hhand₂
        exact ⟨inv', step', fun k hk => hhand' k (by omega)⟩

theorem pmov1_spec (moves0 : List (Nat × Nat)) (tmp : Nat)
    (r0 : Nat → Nat) (hok : PMOk moves0 tmp) :
    ∀ (fuel j : Nat) (st st' : PMSt) (L : List Nat) (m0j : Nat × Nat),
      pmov1 tmp fuel j st = some st' →
      PMInv moves0 tmp r0 st L →
      st.state.get? j = some PM.notmoved →
      moves0.get? j = some m0j →
      (∀ hd mhd, L.get? 0 = some hd → moves0.get? hd = some mhd →
        m0j.1 = mhd.2) →
      PMInv moves0 tmp r0 st' L ∧ PMStep tmp st st' ∧
      (st'.state.get? j = some PM.moved ∨
        (st' = st ∧ ∀ m, st.moves.get? j = some m → m.1 = m.2)) := by
  intro fuel
  induction fuel with
  | zero => intro j st st' L m0j h; cases h
  | succ fuel ih =>
      intro j st st' L m0j h inv hsj hm0j hchain
      obtain ⟨mi, hmi, hcase⟩ := pmov1_inv tmp fuel j st st' h
      rcases hcase with ⟨hc, rfl⟩ | ⟨hc, st₂, mi₂, heq, hmi₂, rfl⟩
      · refine ⟨inv, PMStep_refl tmp _, Or.inr ⟨rfl, ?_⟩⟩
        intro m hm
        rw [hmi] at hm
        have hme : mi = m := by injection hm
        subst hme
        exact hc
      · have hne : m0j.1 ≠ m0j.2 := by
          have hsrc : mi.1 = m0j.1 :=
            notmoved_src moves0 tmp r0 st L j mi m0j inv hmi hm0j hsj
          have hdst : mi.2 = m0j.2 := inv.dstEq j m0j mi hm0j hmi
          rw [← hsrc, ← hdst]
          exact hc
        have inv₁ := PMInv_push moves0 tmp r0 st L j m0j inv hm0j hsj
          hchain
        have step₁ : PMStep tmp st
            { st with state := st.state.set j PM.moving } := by
          have hjS : j < st.state.length := (List.get?_eq_some.1 hsj).1
          refine ⟨rfl, (List.length_set st.state j PM.moving), ?_, ?_⟩
          · intro k hk
            have hki : k ≠ j := by
              intro he
              subst he
              rw [hsj] at hk
              exact PM.noConfusion (Option.some.inj hk)
            show (st.state.set j PM.moving).get? k = some PM.moved
            rw [List.get?_set_ne _ _ (fun hx => hki hx.symm)]
            exact hk
          · intro k m m' hm hm'
            have hm'2 : st.moves.get? k = some m' := hm'
            rw [hm] at hm'2
            have hme : m = m' := by injection hm'2
            rw [← hme]
            exact Or.inl rfl
        obtain ⟨inv₂, step₂, hhandAll⟩ := pmInner_spec moves0 tmp r0 hok
          (pmov1 tmp fuel) ih st.moves.length 0
          { st with state := st.state.set j PM.moving } st₂ L j m0j heq
          inv₁ hm0j hne (fun k hk => absurd hk (by omega))
        have hjlt : j < moves0.length := (List.get?_eq_some.1 hm0j).1
        have hhandAll' : ∀ k, k < moves0.length → HandledAt st₂ k m0j.2 :=
          fun k hk => hhandAll k (by
            have h2 := inv.lenM
            omega)
        have inv' := PMInv_pop moves0 tmp r0 hok st₂ L j mi₂ m0j inv₂
          hmi₂ hm0j hhandAll'
        have hjS₂ : j < st₂.state.length := by
          have h1 := inv₂.lenS
          omega
        have step₃ : PMStep tmp st₂
            { st₂ with results := st₂.results ++ [(mi₂.1, mi₂.2)],
                       state := st₂.state.set j PM.moved } := by
          refine ⟨rfl, (List.length_set st₂.state j PM.moved), ?_, ?_⟩
          · intro k hk
            show (st₂.state.set j PM.moved).get? k = some PM.moved
            by_cases hki : k = j
            · subst hki
              exact get?_set_self st₂.state k PM.moved hjS₂
            · rw [List.get?_set_ne _ _ (fun hx => hki hx.symm)]
              exact hk
          · intro k m m' hm hm'
            have hm'2 : st₂.moves.get? k = some m' := hm'
            rw [hm] at hm'2
            have hme : m = m' := by injection hm'2
            rw [← hme]
            exact Or.inl rfl
        refine ⟨inv', PMStep_trans tmp st st₂ _
          (PMStep_trans tmp st _ st₂ step₁ step₂) step₃, Or.inl ?_⟩
        show (st₂.state.set j PM.moved).get? j = some PM.moved
        exact get?_set_self st₂.state j PM.moved hjS₂

theorem pmOuter_spec (moves0 : List (Nat × Nat)) (tmp : Nat)
    (r0 : Nat → Nat) (hok : PMOk moves0 tmp) (fuel : Nat) :
    ∀ (r i : Nat) (st st' : PMSt),
      pmOuter tmp fuel i r st = some st' →
      PMInv moves0 tmp r0 st [] →
      (∀ k, k < i → DoneAt moves0 st k) →
      i + r = moves0.length →
      PMInv moves0 tmp r0 st' [] ∧
      ∀ k, k < moves0.length → DoneAt moves0 st' k := by
  intro r
  induction r with
  | zero =>
      intro i st st' h inv hdone hir
      cases h
      exact ⟨inv, fun k hk => hdone k (by omega)⟩
  | succ r ih =>
      intro i st st' h inv hdone hir
      obtain ⟨si, hsi, hcase⟩ := pmOuter_inv tmp fuel i r st st' h
      have hilt : i < moves0.length := by omega
      have hm0i := List.get?_eq_get hilt
      rcases hcase with ⟨hsnm, st₂, hp, hrest⟩ | ⟨hsnm, hrest⟩
      · subst hsnm
        obtain ⟨inv₂, step₂, hres⟩ := pmov1_spec moves0 tmp r0 hok fuel i
          st st₂ [] (moves0.get ⟨i, hilt⟩) hp inv hsi hm0i
          (fun hd mhd h0 _ => by cases h0)
        have hdone₂ : ∀ k, k < i + 1 → DoneAt moves0 st₂ k := by
          intro k hk
          by_cases hki : k = i
          · subst hki
            rcases hres with h' | ⟨he, hself⟩
            · exact Or.inl h'
            · refine Or.inr ⟨moves0.get ⟨k, hilt⟩, hm0i, ?_⟩
              have hkM : k < st.moves.length := by
                have h2 := inv.lenM
                omega
              have hmk := List.get?_eq_get hkM
              have hsrc : (st.moves.get ⟨k, hkM⟩).1 =
                  (moves0.get ⟨k, hilt⟩).1 :=
                notmoved_src moves0 tmp r0 st [] k
                  (st.moves.get ⟨k, hkM⟩) (moves0.get ⟨k, hilt⟩) inv
                  hmk hm0i hsi
              have hdst : (st.moves.get ⟨k, hkM⟩).2 =
                  (moves0.get ⟨k, hilt⟩).2 :=
                inv.dstEq k (moves0.get ⟨k, hilt⟩)
                  (st.moves.get ⟨k, hkM⟩) hm0i hmk
              have hsd := hself (st.moves.get ⟨k, hkM⟩) hmk
              rw [← hsrc, ← hdst]
              exact hsd
          · rcases hdone k (by omega) with h' | h'
            · exact Or.inl (step₂.2.2.1 k h')
            · exact Or.inr h'
        exact ih (i + 1) st₂ st' hrest inv₂ hdone₂ (by omega)
      · have hsm : st.state.get? i = some PM.moved := by
          cases si with
          | notmoved => exact absurd rfl hsnm
          | moving =>
              exfalso
              have hmem := (inv.movingIff i).1 hsi
              exact absurd hmem (List.not_mem_nil i)
          | moved => exact hsi
        have hdone₂ : ∀ k, k < i + 1 → DoneAt moves0 st k := by
          intro k hk
          by_cases hki : k = i
          · subst hki
            exact Or.inl hsm
          · exact hdone k (by omega)
        exact ih (i + 1) st st' hrest inv hdone₂ (by omega)

/-- C3: for every list of register moves with pairwise-distinct
destinations and a temporary register `tmp` occurring nowhere in the
list, `parallelmoves(moves, tmp)` (with enough fuel for its recursion,
`len(moves) + 1` sufficing) produces a move sequence whose sequential
execution gives every destination register the value initially held by
its source register. -/
theorem parallelmoves_correct (moves : List (Nat × Nat)) (tmp : Nat)
    (r0 : Nat → Nat) (hd : (moves.map Prod.snd).Nodup)
    (ht : ∀ m ∈ moves, m.1 ≠ tmp ∧ m.2 ≠ tmp) :
    ∃ res, parallelmoves moves tmp (moves.length + 1) = some res ∧
      ∀ m ∈ moves, applyMoves res r0 m.2 = r0 m.1 := by
  have hok : PMOk moves tmp := ⟨hd, ht⟩
  have hlenS : (List.replicate moves.length PM.notmoved).length =
      moves.length := List.length_replicate moves.length PM.notmoved
  have hinv : PMInv moves tmp r0
      ⟨moves, List.replicate moves.length PM.notmoved, []⟩ [] := by
    refine ⟨rfl, hlenS, ?_, ?_, List.nodup_nil, ?_, ?_, ?_, ?_⟩
    · intro j m0 m hm0 hm
      rw [hm0] at hm
      have hme : m0 = m := by injection hm
      subst hme
      rfl
    · intro j
      constructor
      · intro hj
        exfalso
        have hj' : (List.replicate moves.length PM.notmoved).get? j =
            some PM.moving := hj
        rw [replicate_get? PM.notmoved moves.length j] at hj'
        by_cases h : j < moves.length
        · rw [if_pos h] at hj'
          exact PM.noConfusion (Option.some.inj hj')
        · rw [if_neg h] at hj'
          cases hj'
      · intro hj
        cases hj
    · intro k a b hka hkb ma mb hma hmb
      cases hka
    · intro j m0 m hm0 hm hnm
      rw [hm0] at hm
      have hme : m0 = m := by injection hm
      subst hme
      exact Or.inl rfl
    · intro j m0 hm0 hmoved
      exfalso
      have hm' : (List.replicate moves.length PM.notmoved).get? j =
          some PM.moved := hmoved
      rw [replicate_get? PM.notmoved moves.length j] at hm'
      by_cases h : j < moves.length
      · rw [if_pos h] at hm'
        exact PM.noConfusion (Option.some.inj hm')
      · rw [if_neg h] at hm'
        cases hm'
    · intro j m0 m hm0 hm hnm
      rw [hm0] at hm
      have hme : m0 = m := by injection hm
      subst hme
      rfl
  have hcnt : pmCount (List.replicate moves.length PM.notmoved) ≤
      moves.length + 1 := by
    rw [pmCount_replicate]
    omega
  obtain ⟨stF, hrun, hsh⟩ := pmOuter_total tmp moves.length
    moves.length 0 ⟨moves, List.replicate moves.length PM.notmoved, []⟩
    (by show moves.length =
          (List.replicate moves.length PM.notmoved).length
        rw [hlenS])
    (by show 0 + moves.length ≤
          (List.replicate moves.length PM.notmoved).length
        rw [hlenS]
        omega)
    hcnt
  obtain ⟨invF, hdoneF⟩ := pmOuter_spec moves tmp r0 hok
    (moves.length + 1) moves.length 0
    ⟨moves, List.replicate moves.length PM.notmoved, []⟩ stF hrun hinv
    (fun k hk => absurd hk (by omega)) (by omega)
  refine ⟨stF.results, ?_, ?_⟩
  · show (pmOuter tmp (moves.length + 1) 0 moves.length
      ⟨moves, List.replicate moves.length PM.notmoved, []⟩).map
        PMSt.results = some stF.results
    rw [hrun]
    rfl
  · intro m hm
    obtain ⟨k, hk⟩ := List.mem_iff_get?.1 hm
    have hklt : k < moves.length := (List.get?_eq_some.1 hk).1
    rcases hdoneF k hklt with h' | ⟨m0, hm0, hself⟩
    · exact invF.movedVal k m hk h'
    · rw [hk] at hm0
      have hme : m = m0 := by injection hm0
      subst hme
      by_cases hmv : stF.state.get? k = some PM.moved
      · exact invF.movedVal k m hk hmv
      · have hkM : k < stF.moves.length := by
          have h2 := invF.lenM
          omega
        have hmk := List.get?_eq_get hkM
        rcases invF.srcEq k m (stF.moves.get ⟨k, hkM⟩) hk hmk hmv with
          h2 | ⟨_, hroot⟩
        · have hlive := invF.liveVal k m (stF.moves.get ⟨k, hkM⟩) hk
            hmk hmv
          rw [h2] at hlive
          rw [← hself]
          exact hlive
        · cases hroot

theorem parallelmoves_correct_witness :
    parallelmoves [(1, 2), (2, 1)] 3 3 = some [(1, 3), (2, 1), (3, 2)] ∧
    ((List.map Prod.snd [((1 : Nat), (2 : Nat)), (2, 1)]).Nodup ∧
      ∀ m ∈ [((1 : Nat), (2 : Nat)), (2, 1)], m.1 ≠ 3 ∧ m.2 ≠ 3) ∧
    ∃ res, parallelmoves [((1 : Nat), (2 : Nat)), (2, 1)] 3
        ([((1 : Nat), (2 : Nat)), (2, 1)].length + 1) = some res ∧
      ∀ m ∈ [((1 : Nat), (2 : Nat)), (2, 1)],
        applyMoves res id m.2 = id m.1 :=
  ⟨by decide, ⟨by decide, by decide⟩,
    parallelmoves_correct [(1, 2), (2, 1)] 3 id (by decide) (by decide)⟩

/-! ### Lemmas for the SSA converter (claims C1, C8) -/

theorem alookupK_cons_self {κ α : Type _} [DecidableEq κ] (k : κ) (x : α)
    (l : List (κ × α)) : alookupK k ((k, x) :: l) = some x := by
  show (if k = k then some x else alookupK k l) = some x
  rw [if_pos rfl]

theorem alookupK_cons_ne {κ α : Type _} [DecidableEq κ] (k₀ k : κ)
    (h : k₀ ≠ k) (x : α) (l : List (κ × α)) :
    alookupK k ((k₀, x) :: l) = alookupK k l := by
  show (if k₀ = k then some x else alookupK k l) = alookupK k l
  rw [if_neg h]

theorem alookupK_aupsert_self {κ α : Type _} [DecidableEq κ] (k : κ)
    (a : α) : ∀ l, alookupK k (aupsert k a l) = some a := by
  intro l
  induction l with
  | nil =>
      show alookupK k [(k, a)] = some a
      exact alookupK_cons_self k a []
  | cons p t ih =>
      show alookupK k (if p.1 = k then (k, a) :: t else p :: aupsert k a t)
        = some a
      by_cases h : p.1 = k
      · rw [if_pos h]
        exact alookupK_cons_self k a t
      · rw [if_neg h]
        show (if p.1 = k then some p.2 else alookupK k (aupsert k a t))
          = some a
        rw [if_neg h]
        exact ih

theorem alookupK_aupsert_ne {κ α : Type _} [DecidableEq κ] (k k' : κ)
    (h : k' ≠ k) (a : α) : ∀ l, alookupK k' (aupsert k a l) =
      alookupK k' l := by
  intro l
  induction l with
  | nil =>
      show alookupK k' [(k, a)] = none
      show (if k = k' then some a else none) = none
      rw [if_neg (fun hx => h hx.symm)]
  | cons p t ih =>
      show alookupK k' (if p.1 = k then (k, a) :: t else p :: aupsert k a t)
        = alookupK k' (p :: t)
      by_cases hp : p.1 = k
      · rw [if_pos hp]
        show (if k = k' then some a else alookupK k' t) =
          (if p.1 = k' then some p.2 else alookupK k' t)
        rw [if_neg (fun hx => h hx.symm), if_neg (by rw [hp]; exact fun hx => h hx.symm)]
      · rw [if_neg hp]
        show (if p.1 = k' then some p.2 else alookupK k' (aupsert k a t)) =
          (if p.1 = k' then some p.2 else alookupK k' t)
        rw [ih]

theorem read_cached (decl : Nat → DeclKind) (fuel v b : Nat) (s : CState)
    (x : Nat) (h : alookupK (v, b) s.defs = some x) :
    read_variable decl (fuel + 1) v b s = some (Except.ok (x, s)) := by
  unfold read_variable
  rw [h]

theorem CExt_refl (s : CState) : CExt s s :=
  ⟨rfl, rfl, le_refl _, fun _ _ h => h, fun _ h => h,
    fun b edges h => ⟨edges, h, rfl,
      fun i e he => ⟨e, he, rfl, fun _ _ => rfl⟩⟩⟩

theorem CExt_trans (s1 s2 s3 : CState) (h12 : CExt s1 s2)
    (h23 : CExt s2 s3) : CExt s1 s3 := by
  obtain ⟨e1, e2, e3, e4, e5, e6⟩ := h12
  obtain ⟨f1, f2, f3, f4, f5, f6⟩ := h23
  refine ⟨f1.trans e1, f2.trans e2, le_trans e3 f3,
    fun k x h => f4 k x (e4 k x h), fun b h => f5 b (e5 b h), ?_⟩
  intro b edges h
  obtain ⟨edges2, h2, hl2, hp2⟩ := e6 b edges h
  obtain ⟨edges3, h3, hl3, hp3⟩ := f6 b edges2 h2
  refine ⟨edges3, h3, hl3.trans hl2, ?_⟩
  intro i e he
  obtain ⟨e2', he2, ht2, ha2⟩ := hp2 i e he
  obtain ⟨e3', he3, ht3, ha3⟩ := hp3 i e2' he2
  exact ⟨e3', he3, ht3.trans ht2, fun pid hpid =>
    (ha3 pid (by omega)).trans (ha2 pid hpid)⟩

theorem CExt_to_CExtA (p : CParam) (s s' : CState) (h : CExt s s') :
    CExtA p s s' :=
  ⟨h.1, h.2.1, h.2.2.1, h.2.2.2.1, h.2.2.2.2.1,
    fun b edges hb => by
      obtain ⟨edges', h1, h2, h3⟩ := h.2.2.2.2.2 b edges hb
      exact ⟨edges', h1, h2, fun i e he => by
        obtain ⟨e', he', ht, ha⟩ := h3 i e he
        exact ⟨e', he', ht, fun pid hpid _ => ha pid hpid⟩⟩⟩

theorem CExtA_trans (p : CParam) (s1 s2 s3 : CState)
    (h12 : CExtA p s1 s2) (h23 : CExtA p s2 s3) : CExtA p s1 s3 := by
  obtain ⟨e1, e2, e3, e4, e5, e6⟩ := h12
  obtain ⟨f1, f2, f3, f4, f5, f6⟩ := h23
  refine ⟨f1.trans e1, f2.trans e2, le_trans e3 f3,
    fun k x h => f4 k x (e4 k x h), fun b h => f5 b (e5 b h), ?_⟩
  intro b edges h
  obtain ⟨edges2, h2, hl2, hp2⟩ := e6 b edges h
  obtain ⟨edges3, h3, hl3, hp3⟩ := f6 b edges2 h2
  refine ⟨edges3, h3, hl3.trans hl2, ?_⟩
  intro i e he
  obtain ⟨e2', he2, ht2, ha2⟩ := hp2 i e he
  obtain ⟨e3', he3, ht3, ha3⟩ := hp3 i e2' he2
  exact ⟨e3', he3, ht3.trans ht2, fun pid hpid hne =>
    (ha3 pid (by omega) hne).trans (ha2 pid hpid hne)⟩

theorem CExt_isSome (s s' : CState) (h : CExt s s') (b : Nat)
    (hb : (alookupK b s.conts).isSome = true) :
    (alookupK b s'.conts).isSome = true := by
  cases hx : alookupK b s.conts with
  | none => rw [hx] at hb; cases hb
  | some edges =>
      obtain ⟨edges', he, _⟩ := h.2.2.2.2.2 b edges hx
      rw [he]
      rfl

theorem CExtA_isSome (p : CParam) (s s' : CState) (h : CExtA p s s')
    (b : Nat) (hb : (alookupK b s.conts).isSome = true) :
    (alookupK b s'.conts).isSome = true := by
  cases hx : alookupK b s.conts with
  | none => rw [hx] at hb; cases hb
  | some edges =>
      obtain ⟨edges', he, _⟩ := h.2.2.2.2.2 b edges hx
      rw [he]
      rfl

theorem CExt_contsOk (s s' : CState) (h : CExt s s') (hc : ContsOk s) :
    ContsOk s' := by
  intro bp l hl q hq
  have hl' : alookupK bp s.preds = some l := by
    rw [← h.2.1]
    exact hl
  exact CExt_isSome s s' h q (hc bp l hl' q hq)

theorem CExtA_contsOk (p : CParam) (s s' : CState) (h : CExtA p s s')
    (hc : ContsOk s) : ContsOk s' := by
  intro bp l hl q hq
  have hl' : alookupK bp s.preds = some l := by
    rw [← h.2.1]
    exact hl
  exact CExtA_isSome p s s' h q (hc bp l hl' q hq)

theorem SiteConds_transfer (v : Nat) (e : CErr) (s s' : CState)
    (h : CExt s s') (hs : SiteConds v e s') : SiteConds v e s := by
  obtain ⟨b', he, hseal, hpreds, hdef⟩ := hs
  refine ⟨b', he, ?_, ?_, ?_⟩
  · rw [← h.1]; exact hseal
  · rw [← h.2.1]; exact hpreds
  · cases hx : alookupK (v, b') s.defs with
    | none => rfl
    | some x =>
        have := h.2.2.2.1 (v, b') x hx
        rw [this] at hdef
        cases hdef

theorem CExtA_refl (p : CParam) (s : CState) : CExtA p s s :=
  ⟨rfl, rfl, le_refl _, fun _ _ h => h, fun _ h => h,
    fun b edges h => ⟨edges, h, rfl,
      fun i e he => ⟨e, he, rfl, fun _ _ _ => rfl⟩⟩⟩

theorem addArg_inv (q : Nat) (p : CParam) (val : Nat) (s s' : CState)
    (h : addArg q p val s = Except.ok s') :
    ∃ edges, alookupK q s.conts = some edges ∧
      s' = { s with conts := aupsert q (edges.map (fun e => if p.blk = e.target then { e with args := aupsert p.id val e.args } else e)) s.conts } := by
  unfold addArg at h
  cases hx : alookupK q s.conts with
  | none =>
      rw [hx] at h
      cases h
  | some edges =>
      rw [hx] at h
      dsimp only at h
      cases h
      exact ⟨edges, rfl, rfl⟩

theorem addArg_extA (q : Nat) (p : CParam) (val : Nat) (s s' : CState)
    (h : addArg q p val s = Except.ok s') : CExtA p s s' := by
  obtain ⟨edges, hx, rfl⟩ := addArg_inv q p val s s' h
  refine ⟨rfl, rfl, le_refl _, fun _ _ h => h, ?_, ?_⟩
  · intro b hb
    show alookupK b (aupsert q _ s.conts) = none
    have hbq : b ≠ q := by
      intro he
      subst he
      rw [hx] at hb
      cases hb
    rw [alookupK_aupsert_ne q b hbq _ s.conts]
    exact hb
  · intro b edges₀ hb
    by_cases hbq : b = q
    · subst hbq
      rw [hx] at hb
      have he : edges = edges₀ := by injection hb
      subst he
      refine ⟨edges.map (fun e => if p.blk = e.target then { e with args := aupsert p.id val e.args } else e), ?_, List.length_map _ _, ?_⟩
      · show alookupK b (aupsert b _ s.conts) = _
        rw [alookupK_aupsert_self b _ s.conts]
      · intro i e he
        refine ⟨if p.blk = e.target then { e with args := aupsert p.id val e.args } else e, ?_, ?_, ?_⟩
        · rw [List.get?_map, he]
          rfl
        · by_cases ht : p.blk = e.target
          · rw [if_pos ht]
          · rw [if_neg ht]
        · intro pid hpid hne
          by_cases ht : p.blk = e.target
          · rw [if_pos ht]
            show alookupK pid (aupsert p.id val e.args) = alookupK pid e.args
            exact alookupK_aupsert_ne p.id pid hne val e.args
          · rw [if_neg ht]
    · refine ⟨edges₀, ?_, rfl, fun i e he => ⟨e, he, rfl, fun _ _ _ => rfl⟩⟩
      show alookupK b (aupsert q _ s.conts) = some edges₀
      rw [alookupK_aupsert_ne q b hbq _ s.conts]
      exact hb

theorem addArg_est (q : Nat) (p : CParam) (val : Nat) (s s' : CState)
    (h : addArg q p val s = Except.ok s') :
    ∀ edges', alookupK q s'.conts = some edges' →
      ∀ e ∈ edges', e.target = p.blk → alookupK p.id e.args = some val := by
  obtain ⟨edges, hx, rfl⟩ := addArg_inv q p val s s' h
  intro edges' hl e hmem htgt
  rw [show alookupK q (aupsert q (edges.map (fun e => if p.blk = e.target then { e with args := aupsert p.id val e.args } else e)) s.conts) = some (edges.map (fun e => if p.blk = e.target then { e with args := aupsert p.id val e.args } else e)) from alookupK_aupsert_self q _ s.conts] at hl
  have he : edges.map (fun e => if p.blk = e.target then { e with args := aupsert p.id val e.args } else e) = edges' := by injection hl
  subst he
  obtain ⟨e₀, _, he₀⟩ := List.mem_map.1 hmem
  by_cases ht : p.blk = e₀.target
  · rw [if_pos ht] at he₀
    rw [← he₀]
    show alookupK p.id (aupsert p.id val e₀.args) = some val
    exact alookupK_aupsert_self p.id val e₀.args
  · rw [if_neg ht] at he₀
    exfalso
    rw [← he₀] at htgt
    exact ht htgt.symm

theorem addArg_conts_ne (q : Nat) (p : CParam) (val : Nat) (s s' : CState)
    (h : addArg q p val s = Except.ok s') (q' : Nat) (hq : q' ≠ q) :
    alookupK q' s'.conts = alookupK q' s.conts := by
  obtain ⟨edges, hx, rfl⟩ := addArg_inv q p val s s' h
  show alookupK q' (aupsert q _ s.conts) = alookupK q' s.conts
  exact alookupK_aupsert_ne q q' hq _ s.conts

theorem addArg_frame (q : Nat) (p : CParam) (val : Nat) (s s' : CState)
    (h : addArg q p val s = Except.ok s') :
    s'.defs = s.defs ∧ s'.counter = s.counter ∧ s'.sealed = s.sealed ∧
      s'.preds = s.preds := by
  obtain ⟨edges, hx, rfl⟩ := addArg_inv q p val s s' h
  exact ⟨rfl, rfl, rfl, rfl⟩

theorem HasEst_mono_CExt (v : Nat) (p : CParam) (q : Nat) (s s' : CState)
    (h : HasEst v p q s) (hext : CExt s s') (hpid : p.id < s.counter) :
    HasEst v p q s' := by
  obtain ⟨val, hdef, hargs⟩ := h
  refine ⟨val, hext.2.2.2.1 (v, q) val hdef, ?_⟩
  intro edges₁ hl₁ e₁ he₁ ht₁
  cases hx : alookupK q s.conts with
  | none =>
      have hn := hext.2.2.2.2.1 q hx
      rw [hn] at hl₁
      cases hl₁
  | some edges =>
      obtain ⟨edges', hl', hlen, hmap⟩ := hext.2.2.2.2.2 q edges hx
      rw [hl'] at hl₁
      have heq : edges' = edges₁ := by injection hl₁
      subst heq
      obtain ⟨i, hi⟩ := List.mem_iff_get?.1 he₁
      have hie : i < edges.length := by
        have h1 := (List.get?_eq_some.1 hi).1
        omega
      have hge := List.get?_eq_get hie
      obtain ⟨e', he', ht', ha'⟩ := hmap i (edges.get ⟨i, hie⟩) hge
      rw [hi] at he'
      have heq2 : e₁ = e' := by injection he'
      subst heq2
      have htgt : (edges.get ⟨i, hie⟩).target = p.blk := by
        rw [← ht']
        exact ht₁
      have hval := hargs edges hx (edges.get ⟨i, hie⟩)
        (List.get_mem edges i hie) htgt
      rw [ha' p.id hpid]
      exact hval

theorem SiteConds_transferA (v : Nat) (pa : CParam) (e : CErr)
    (s s' : CState) (h : CExtA pa s s') (hs : SiteConds v e s') :
    SiteConds v e s := by
  obtain ⟨b', he, hseal, hpreds, hdef⟩ := hs
  refine ⟨b', he, ?_, ?_, ?_⟩
  · rw [← h.1]
    exact hseal
  · rw [← h.2.1]
    exact hpreds
  · cases hx : alookupK (v, b') s.defs with
    | none => rfl
    | some x =>
        have hp := h.2.2.2.1 (v, b') x hx
        rw [hp] at hdef
        cases hdef

theorem addArgsGo_spec (v : Nat)
    (f : Nat → Nat → CState → Option (Except CErr (Nat × CState)))
    (hf : ∀ (b : Nat) (s : CState) (r : Except CErr (Nat × CState)),
      f v b s = some r →
      (∀ val s', r = Except.ok (val, s') → CExt s s' ∧
        alookupK (v, b) s'.defs = some val) ∧
      (∀ e, r = Except.error e → ContsOk s → SiteConds v e s)) :
    ∀ (list : List Nat) (p : CParam) (s : CState)
      (r : Except CErr CState),
      addArgsGo f v p list s = some r →
      (∀ s', r = Except.ok s' → CExtA p s s' ∧
        (p.id < s.counter →
          (∀ q, HasEst v p q s → HasEst v p q s') ∧
          (∀ q ∈ list, HasEst v p q s'))) ∧
      (∀ e, r = Except.error e → ContsOk s →
        (∀ q ∈ list, (alookupK q s.conts).isSome = true) →
        SiteConds v e s) := by
  intro list
  induction list with
  | nil =>
      intro p s r h
      cases h
      constructor
      · intro s' hs'
        have hss : s = s' := by injection hs'
        subst hss
        exact ⟨CExtA_refl p s, fun _ =>
          ⟨fun q hq => hq, fun q hq => absurd hq (List.not_mem_nil q)⟩⟩
      · intro e he
        cases he
  | cons q t ih =>
      intro p s r h
      unfold addArgsGo at h
      cases hread : f v q s with
      | none =>
          rw [hread] at h
          simp only [Option.bind_eq_bind, Option.none_bind] at h
          cases h
      | some rr =>
          rw [hread] at h
          simp only [Option.bind_eq_bind, Option.some_bind] at h
          cases rr with
          | error e₀ =>
              dsimp only at h
              cases h
              constructor
              · intro s' hs'
                cases hs'
              · intro e he hconts hlist
                have he2 : e₀ = e := by injection he
                subst he2
                exact (hf q s _ hread).2 e₀ rfl hconts
          | ok pr =>
              obtain ⟨val, s₁⟩ := pr
              dsimp only at h
              have hok := (hf q s _ hread).1 val s₁ rfl
              cases haa : addArg q p val s₁ with
              | error e₀ =>
                  rw [haa] at h
                  dsimp only at h
                  cases h
                  constructor
                  · intro s' hs'
                    cases hs'
                  · intro e he hconts hlist
                    exfalso
                    unfold addArg at haa
                    cases hx : alookupK q s₁.conts with
                    | none =>
                        have hc₁ := CExt_isSome s s₁ hok.1 q
                          (hlist q (List.mem_cons_self q t))
                        rw [hx] at hc₁
                        cases hc₁
                    | some edges =>
                        rw [hx] at haa
                        cases haa
              | ok s₂ =>
                  rw [haa] at h
                  dsimp only at h
                  have hA := addArg_extA q p val s₁ s₂ haa
                  have hfr := addArg_frame q p val s₁ s₂ haa
                  obtain ⟨ihok, iherr⟩ := ih p s₂ r h
                  constructor
                  · intro s' hs'
                    obtain ⟨extT, estT⟩ := ihok s' hs'
                    have extSS₂ : CExtA p s s₂ :=
                      CExtA_trans p s s₁ s₂ (CExt_to_CExtA p s s₁ hok.1) hA
                    refine ⟨CExtA_trans p s s₂ s' extSS₂ extT, ?_⟩
                    intro hpid
                    have hpid₂ : p.id < s₂.counter :=
                      lt_of_lt_of_le hpid extSS₂.2.2.1
                    obtain ⟨presT, listT⟩ := estT hpid₂
                    have hstep : ∀ q₀, HasEst v p q₀ s →
                        HasEst v p q₀ s₂ := by
                      intro q₀ hq₀
                      have h1 : HasEst v p q₀ s₁ :=
                        HasEst_mono_CExt v p q₀ s s₁ hq₀ hok.1 hpid
                      by_cases hqq : q₀ = q
                      · subst hqq
                        obtain ⟨val₀, hdef₀, hargs₀⟩ := h1
                        rw [hok.2] at hdef₀
                        have hveq : val = val₀ := by injection hdef₀
                        subst hveq
                        refine ⟨val, ?_, addArg_est q₀ p val s₁ s₂ haa⟩
                        rw [hfr.1]
                        exact hok.2
                      · obtain ⟨val₀, hdef₀, hargs₀⟩ := h1
                        refine ⟨val₀, ?_, ?_⟩
                        · rw [hfr.1]
                          exact hdef₀
                        · intro edges hl e hmem ht
                          rw [addArg_conts_ne q p val s₁ s₂ haa q₀ hqq]
                            at hl
                          exact hargs₀ edges hl e hmem ht
                    constructor
                    · intro q₀ hq₀
                      exact presT q₀ (hstep q₀ hq₀)
                    · intro q₀ hq₀mem
                      rcases List.mem_cons.1 hq₀mem with heq | hmem
                      · refine presT q₀ ?_
                        rw [heq]
                        refine ⟨val, ?_, addArg_est q p val s₁ s₂ haa⟩
                        rw [hfr.1]
                        exact hok.2
                      · exact listT q₀ hmem
                  · intro e he hconts hlist
                    have extSS₂ : CExtA p s s₂ :=
                      CExtA_trans p s s₁ s₂ (CExt_to_CExtA p s s₁ hok.1) hA
                    have hconts₂ := CExtA_contsOk p s s₂ extSS₂ hconts
                    have hlist₂ : ∀ q₀ ∈ t,
                        (alookupK q₀ s₂.conts).isSome = true :=
                      fun q₀ hq₀ => CExtA_isSome p s s₂ extSS₂ q₀
                        (hlist q₀ (List.mem_cons_of_mem q hq₀))
                    have hsite₂ := iherr e he hconts₂ hlist₂
                    exact SiteConds_transferA v p e s s₂ extSS₂ hsite₂

theorem set_variable_inv (decl : Nat → DeclKind) (v b val : Nat)
    (s s' : CState)
    (hv : decl v = DeclKind.localVar ∨ decl v = DeclKind.returnVar)
    (h : set_variable decl v b val s = Except.ok s') :
    s' = { s with defs := ((v, b), val) :: s.defs } := by
  unfold set_variable at h
  rcases hv with hl | hl <;> rw [hl] at h <;> dsimp only at h <;>
    cases h <;> rfl

theorem set_variable_ok (decl : Nat → DeclKind) (v b val : Nat)
    (s : CState)
    (hv : decl v = DeclKind.localVar ∨ decl v = DeclKind.returnVar) :
    set_variable decl v b val s =
      Except.ok { s with defs := ((v, b), val) :: s.defs } := by
  unfold set_variable
  rcases hv with hl | hl <;> rw [hl]

theorem CExt_bump (s : CState) :
    CExt s { s with counter := s.counter + 1 } :=
  ⟨rfl, rfl, Nat.le_succ _, fun _ _ h => h, fun _ h => h,
    fun b edges h => ⟨edges, h, rfl,
      fun i e he => ⟨e, he, rfl, fun _ _ => rfl⟩⟩⟩

theorem CExt_defs_cons (s s₃ : CState) (v b c : Nat) (hext : CExt s s₃)
    (hdef : alookupK (v, b) s.defs = none) :
    CExt s { s₃ with defs := ((v, b), c) :: s₃.defs } := by
  refine ⟨hext.1, hext.2.1, hext.2.2.1, ?_, hext.2.2.2.2.1,
    hext.2.2.2.2.2⟩
  intro k x hk
  by_cases hkv : k = (v, b)
  · subst hkv
    rw [hdef] at hk
    cases hk
  · show alookupK k (((v, b), c) :: s₃.defs) = some x
    rw [alookupK_cons_ne (v, b) k (fun he => hkv he.symm) c s₃.defs]
    exact hext.2.2.2.1 k x hk

theorem CExt_bump_cons (s : CState) (v b c : Nat)
    (hdef : alookupK (v, b) s.defs = none) :
    CExt s { s with counter := s.counter + 1, defs := ((v, b), c) :: s.defs } := by
  refine ⟨rfl, rfl, Nat.le_succ _, ?_, fun _ h => h,
    fun b₀ edges h => ⟨edges, h, rfl,
      fun i e he => ⟨e, he, rfl, fun _ _ => rfl⟩⟩⟩
  intro k x hk
  by_cases hkv : k = (v, b)
  · subst hkv
    rw [hdef] at hk
    cases hk
  · show alookupK k (((v, b), c) :: s.defs) = some x
    rw [alookupK_cons_ne (v, b) k (fun he => hkv he.symm) c s.defs]
    exact hk

theorem CExt_of_CExtA_fresh (p : CParam) (s s₂ s₃ : CState)
    (h1 : CExt s s₂) (h2 : CExtA p s₂ s₃) (hp : s.counter ≤ p.id) :
    CExt s s₃ := by
  obtain ⟨e1, e2, e3, e4, e5, e6⟩ := h1
  obtain ⟨f1, f2, f3, f4, f5, f6⟩ := h2
  refine ⟨f1.trans e1, f2.trans e2, le_trans e3 f3,
    fun k x h => f4 k x (e4 k x h), fun b h => f5 b (e5 b h), ?_⟩
  intro b edges h
  obtain ⟨edges2, h2', hl2, hp2⟩ := e6 b edges h
  obtain ⟨edges3, h3', hl3, hp3⟩ := f6 b edges2 h2'
  refine ⟨edges3, h3', hl3.trans hl2, ?_⟩
  intro i e he
  obtain ⟨e2', he2, ht2, ha2⟩ := hp2 i e he
  obtain ⟨e3', he3, ht3, ha3⟩ := hp3 i e2' he2
  exact ⟨e3', he3, ht3.trans ht2, fun pid hpid =>
    (ha3 pid (by omega) (by omega)).trans (ha2 pid hpid)⟩

theorem read_spec (decl : Nat → DeclKind) (v : Nat)
    (hv : decl v = DeclKind.localVar ∨ decl v = DeclKind.returnVar) :
    ∀ (fuel b : Nat) (s : CState) (r : Except CErr (Nat × CState)),
      read_variable decl fuel v b s = some r →
      (∀ val s', r = Except.ok (val, s') → CExt s s' ∧
        alookupK (v, b) s'.defs = some val) ∧
      (∀ e, r = Except.error e → ContsOk s → SiteConds v e s) := by
  intro fuel
  induction fuel with
  | zero => intro b s r h; cases h
  | succ fuel ih =>
      intro b s r h
      unfold read_variable at h
      cases hdef : alookupK (v, b) s.defs with
      | some x =>
          rw [hdef] at h
          cases h
          constructor
          · intro val s' hvs
            cases hvs
            exact ⟨CExt_refl s, hdef⟩
          · intro e he
            cases he
      | none =>
          rw [hdef] at h
          by_cases hsl : b ∈ s.sealed
          · rw [if_pos hsl] at h
            cases hpreds : (alookupK b s.preds).getD [] with
            | nil =>
                rw [hpreds] at h
                dsimp only at h
                cases h
                constructor
                · intro val s' hvs
                  cases hvs
                · intro e he _
                  have he2 : CErr.unboundLocal v b = e := by injection he
                  exact ⟨b, he2.symm, hsl, hpreds, hdef⟩
            | cons q qs =>
                cases qs with
                | nil =>
                    rw [hpreds] at h
                    dsimp only at h
                    cases hr1 : read_variable decl fuel v q
                        { s with counter := s.counter + 1 } with
                    | none =>
                        rw [hr1] at h
                        simp only [Option.bind_eq_bind,
                          Option.none_bind] at h
                        cases h
                    | some rr =>
                        rw [hr1] at h
                        simp only [Option.bind_eq_bind,
                          Option.some_bind] at h
                        cases rr with
                        | error e₀ =>
                            dsimp only at h
                            cases h
                            constructor
                            · intro val s' hvs
                              cases hvs
                            · intro e he hconts
                              have he2 : e₀ = e := by injection he
                              subst he2
                              exact (ih q _ _ hr1).2 e₀ rfl hconts
                        | ok pr =>
                            obtain ⟨a, s₂⟩ := pr
                            dsimp only at h
                            have hIH₂ := (ih q _ _ hr1).1 a s₂ rfl
                            have hSS₂ : CExt s s₂ :=
                              CExt_trans s _ s₂ (CExt_bump s) hIH₂.1
                            unfold add_block_args at h
                            cases haa : addArgsGo (read_variable decl fuel)
                                v ⟨s.counter, b⟩
                                ((alookupK b s₂.preds).getD []) s₂ with
                            | none =>
                                rw [haa] at h
                                simp only [Option.bind_eq_bind,
                                  Option.none_bind] at h
                                cases h
                            | some rr₂ =>
                                rw [haa] at h
                                simp only [Option.bind_eq_bind,
                                  Option.some_bind] at h
                                have hspec := addArgsGo_spec v
                                  (read_variable decl fuel)
                                  (fun b₀ s₀ r₀ h₀ => ih b₀ s₀ r₀ h₀)
                                  ((alookupK b s₂.preds).getD [])
                                  ⟨s.counter, b⟩ s₂ rr₂ haa
                                cases rr₂ with
                                | error e₀ =>
                                    dsimp only at h
                                    cases h
                                    constructor
                                    · intro val s' hvs
                                      cases hvs
                                    · intro e he hconts
                                      have he2 : e₀ = e := by injection he
                                      subst he2
                                      have hconts₂ := CExt_contsOk s s₂
                                        hSS₂ hconts
                                      have hlist₂ : ∀ q₀ ∈ (alookupK b s₂.preds).getD [], (alookupK q₀ s₂.conts).isSome = true := by
                                        intro q₀ hq₀
                                        cases hbp : alookupK b s₂.preds with
                                        | none =>
                                            rw [hbp] at hq₀
                                            exact absurd hq₀
                                              (List.not_mem_nil q₀)
                                        | some l =>
                                            rw [hbp] at hq₀
                                            exact hconts₂ b l hbp q₀ hq₀
                                      exact SiteConds_transfer v e₀ s s₂
                                        hSS₂ (hspec.2 e₀ rfl hconts₂
                                          hlist₂)
                                | ok s₃ =>
                                    dsimp only at h
                                    cases hset : set_variable decl v b
                                        s.counter s₃ with
                                    | error e₀ =>
                                        rw [hset] at h
                                        dsimp only at h
                                        cases h
                                        exfalso
                                        rw [set_variable_ok decl v b
                                          s.counter s₃ hv] at hset
                                        cases hset
                                    | ok s₄ =>
                                        rw [hset] at h
                                        dsimp only at h
                                        cases h
                                        have hs₄ := set_variable_inv decl
                                          v b s.counter s₃ s₄ hv hset
                                        subst hs₄
                                        have hSS₃ : CExt s s₃ :=
                                          CExt_of_CExtA_fresh
                                            ⟨s.counter, b⟩ s s₂ s₃ hSS₂
                                            (hspec.1 s₃ rfl).1 (le_refl _)
                                        constructor
                                        · intro val s' hvs
                                          cases hvs
                                          refine ⟨CExt_defs_cons s s₃ v b
                                            s.counter hSS₃ hdef, ?_⟩
                                          exact alookupK_cons_self (v, b)
                                            s.counter s₃.defs
                                        · intro e he
                                          cases he
                | cons q₂ qs₂ =>
                    rw [hpreds] at h
                    dsimp only at h
                    cases hset : set_variable decl v b s.counter
                        { s with counter := s.counter + 1 } with
                    | error e₀ =>
                        rw [hset] at h
                        dsimp only at h
                        cases h
                        exfalso
                        rw [set_variable_ok decl v b s.counter _ hv]
                          at hset
                        cases hset
                    | ok s₂ =>
                        rw [hset] at h
                        dsimp only at h
                        have hs₂ := set_variable_inv decl v b s.counter
                          _ s₂ hv hset
                        subst hs₂
                        have hSS₂ : CExt s _ := CExt_bump_cons s v b
                          s.counter hdef
                        unfold add_block_args at h
                        cases haa : addArgsGo (read_variable decl fuel)
                            v ⟨s.counter, b⟩
                            ((alookupK b ({ { s with counter := s.counter + 1 } with defs := ((v, b), s.counter) :: { s with counter := s.counter + 1 }.defs } : CState).preds).getD [])
                            { { s with counter := s.counter + 1 } with defs := ((v, b), s.counter) :: { s with counter := s.counter + 1 }.defs } with
                        | none =>
                            rw [haa] at h
                            simp only [Option.bind_eq_bind,
                              Option.none_bind] at h
                            cases h
                        | some rr₂ =>
                            rw [haa] at h
                            simp only [Option.bind_eq_bind,
                              Option.some_bind] at h
                            have hspec := addArgsGo_spec v
                              (read_variable decl fuel)
                              (fun b₀ s₀ r₀ h₀ => ih b₀ s₀ r₀ h₀)
                              _ ⟨s.counter, b⟩ _ rr₂ haa
                            cases rr₂ with
                            | error e₀ =>
                                dsimp only at h
                                cases h
                                constructor
                                · intro val s' hvs
                                  cases hvs
                                · intro e he hconts
                                  have he2 : e₀ = e := by injection he
                                  subst he2
                                  have hconts₂ := CExt_contsOk s _ hSS₂
                                    hconts
                                  refine SiteConds_transfer v e₀ s _ hSS₂
                                    (hspec.2 e₀ rfl hconts₂ ?_)
                                  intro q₀ hq₀
                                  cases hbp : alookupK b ({ { s with counter := s.counter + 1 } with defs := ((v, b), s.counter) :: { s with counter := s.counter + 1 }.defs } : CState).preds with
                                  | none =>
                                      rw [hbp] at hq₀
                                      exact absurd hq₀
                                        (List.not_mem_nil q₀)
                                  | some l =>
                                      rw [hbp] at hq₀
                                      exact hconts₂ b l hbp q₀ hq₀
                            | ok s₃ =>
                                dsimp only at h
                                cases h
                                have hSS₃ : CExt s s₃ :=
                                  CExt_of_CExtA_fresh ⟨s.counter, b⟩ s _
                                    s₃ hSS₂ (hspec.1 s₃ rfl).1 (le_refl _)
                                constructor
                                · intro val s' hvs
                                  cases hvs
                                  refine ⟨CExt_defs_cons s s₃ v b
                                    s.counter hSS₃ hdef, ?_⟩
                                  exact alookupK_cons_self (v, b)
                                    s.counter s₃.defs
                                · intro e he
                                  cases he
          · rw [if_neg hsl] at h
            cases h
            constructor
            · intro val s' hvs
              cases hvs
              constructor
              · refine ⟨rfl, rfl, Nat.le_succ _, ?_, fun _ h => h,
                  fun b₀ edges h => ⟨edges, h, rfl,
                    fun i e he => ⟨e, he, rfl, fun _ _ => rfl⟩⟩⟩
                intro k x hk
                by_cases hkv : k = (v, b)
                · subst hkv
                  rw [hdef] at hk
                  cases hk
                · show alookupK k (((v, b), s.counter) :: s.defs) = some x
                  rw [alookupK_cons_ne (v, b) k (fun he => hkv he.symm)
                    s.counter s.defs]
                  exact hk
              · exact alookupK_cons_self (v, b) s.counter s.defs
            · intro e he
              cases he

theorem HasEst_mono_CExtA (v : Nat) (p p' : CParam) (q : Nat)
    (s s' : CState) (h : HasEst v p q s) (hext : CExtA p' s s')
    (hpid : p.id < s.counter) (hne : p.id ≠ p'.id) : HasEst v p q s' := by
  obtain ⟨val, hdef, hargs⟩ := h
  refine ⟨val, hext.2.2.2.1 (v, q) val hdef, ?_⟩
  intro edges₁ hl₁ e₁ he₁ ht₁
  cases hx : alookupK q s.conts with
  | none =>
      have hn := hext.2.2.2.2.1 q hx
      rw [hn] at hl₁
      cases hl₁
  | some edges =>
      obtain ⟨edges', hl', hlen, hmap⟩ := hext.2.2.2.2.2 q edges hx
      rw [hl'] at hl₁
      have heq : edges' = edges₁ := by injection hl₁
      subst heq
      obtain ⟨i, hi⟩ := List.mem_iff_get?.1 he₁
      have hie : i < edges.length := by
        have h1 := (List.get?_eq_some.1 hi).1
        omega
      have hge := List.get?_eq_get hie
      obtain ⟨e', he', ht', ha'⟩ := hmap i (edges.get ⟨i, hie⟩) hge
      rw [hi] at he'
      have heq2 : e₁ = e' := by injection he'
      subst heq2
      have htgt : (edges.get ⟨i, hie⟩).target = p.blk := by
        rw [← ht']
        exact ht₁
      have hval := hargs edges hx (edges.get ⟨i, hie⟩)
        (List.get_mem edges i hie) htgt
      rw [ha' p.id hpid hne]
      exact hval

theorem sealGo_spec (decl : Nat → DeclKind) (fuel : Nat) :
    ∀ (items : List (Nat × CParam)) (s : CState)
      (r : Except CErr CState),
      sealGo (read_variable decl fuel) items s = some r →
      (∀ it ∈ items, decl it.1 = DeclKind.localVar ∨
        decl it.1 = DeclKind.returnVar) →
      (∀ it ∈ items, it.2.id < s.counter) →
      ((items.map (fun it => it.2.id)).Nodup) →
      ∀ s', r = Except.ok s' →
        (∀ v₀ p₀ q₀, p₀.id < s.counter →
          (∀ it ∈ items, p₀.id ≠ it.2.id) →
          HasEst v₀ p₀ q₀ s → HasEst v₀ p₀ q₀ s') ∧
        (∀ it ∈ items, ∀ q ∈ (alookupK it.2.blk s.preds).getD [],
          HasEst it.1 it.2 q s') := by
  intro items
  induction items with
  | nil =>
      intro s r h _ _ _ s' hs'
      cases h
      have hss : s = s' := by injection hs'
      subst hss
      exact ⟨fun v₀ p₀ q₀ _ _ hq => hq,
        fun it hit => absurd hit (List.not_mem_nil it)⟩
  | cons hd t ih =>
      intro s r h hdecl hlt hnodup s' hs'
      obtain ⟨v, p⟩ := hd
      unfold sealGo at h
      cases har : add_block_args (read_variable decl fuel) v p s with
      | none =>
          rw [har] at h
          simp only [Option.bind_eq_bind, Option.none_bind] at h
          cases h
      | some rr =>
          rw [har] at h
          simp only [Option.bind_eq_bind, Option.some_bind] at h
          cases rr with
          | error e₀ =>
              dsimp only at h
              cases h
              cases hs'
          | ok s₁ =>
              dsimp only at h
              have hvp : decl v = DeclKind.localVar ∨
                  decl v = DeclKind.returnVar :=
                hdecl (v, p) (List.mem_cons_self _ _)
              have hspec := addArgsGo_spec v (read_variable decl fuel)
                (fun b₀ s₀ r₀ h₀ => read_spec decl v hvp fuel b₀ s₀ r₀ h₀)
                ((alookupK p.blk s.preds).getD []) p s (Except.ok s₁) har
              obtain ⟨ext₁, hest₁⟩ := hspec.1 s₁ rfl
              have hpidp : p.id < s.counter :=
                hlt (v, p) (List.mem_cons_self _ _)
              obtain ⟨pres₁, list₁⟩ := hest₁ hpidp
              have hcnt₁ : s.counter ≤ s₁.counter := ext₁.2.2.1
              have hpreds₁ : s₁.preds = s.preds := ext₁.2.1
              obtain ⟨presT, estT⟩ := ih s₁ r h
                (fun it hit => hdecl it (List.mem_cons_of_mem _ hit))
                (fun it hit => lt_of_lt_of_le
                  (hlt it (List.mem_cons_of_mem _ hit)) hcnt₁)
                ((List.nodup_cons.1 hnodup).2) s' hs'
              constructor
              · intro v₀ p₀ q₀ hp₀ hne₀ hq₀
                have h1 : HasEst v₀ p₀ q₀ s₁ :=
                  HasEst_mono_CExtA v₀ p₀ p q₀ s s₁ hq₀ ext₁ hp₀
                    (hne₀ (v, p) (List.mem_cons_self _ _))
                exact presT v₀ p₀ q₀ (lt_of_lt_of_le hp₀ hcnt₁)
                  (fun it hit => hne₀ it (List.mem_cons_of_mem _ hit)) h1
              · intro it hit q hq
                rcases List.mem_cons.1 hit with heq | hmem
                · subst heq
                  have hqs : q ∈ (alookupK p.blk s.preds).getD [] := hq
                  have h1 : HasEst v p q s₁ := list₁ q hqs
                  refine presT v p q (lt_of_lt_of_le hpidp hcnt₁) ?_ h1
                  intro it₂ hit₂ hcon
                  refine (List.nodup_cons.1 hnodup).1 ?_
                  show p.id ∈ List.map (fun it => it.2.id) t
                  rw [hcon]
                  exact List.mem_map_of_mem (fun it => it.2.id) hit₂
                · have hq₁ : q ∈ (alookupK it.2.blk s₁.preds).getD [] := by
                    rw [hpreds₁]
                    exact hq
                  exact estT it hmem q hq₁

/-- C8 (amended): for a variable classified `LocalVar` or `ReturnVar`
(the classes `set_variable` accepts), and in a state where every listed
predecessor's continuation is set, `read_variable` fails exactly at
unbound locals: any error it returns is the
`RuntimeError: unbound local variable` naming a block that is sealed,
has no predecessors and holds no definition of the variable — and a
direct read at such a block does raise it.  (For other variable
classes this is false: see the `ParamVar` counterexample, where the
recursion raises `NotImplementedError` from `set_variable` at a sealed
single-predecessor block.) -/
theorem read_variable_error_characterization (decl : Nat → DeclKind)
    (v : Nat)
    (hv : decl v = DeclKind.localVar ∨ decl v = DeclKind.returnVar) :
    (∀ (fuel b : Nat) (s : CState) (e : CErr),
      read_variable decl fuel v b s = some (Except.error e) →
      ContsOk s → SiteConds v e s) ∧
    (∀ (fuel b : Nat) (s : CState),
      b ∈ s.sealed → (alookupK b s.preds).getD [] = [] →
      alookupK (v, b) s.defs = none →
      read_variable decl (fuel + 1) v b s =
        some (Except.error (CErr.unboundLocal v b))) := by
  constructor
  · intro fuel b s e h hconts
    exact (read_spec decl v hv fuel b s _ h).2 e rfl hconts
  · intro fuel b s hsl hpreds hdef
    unfold read_variable
    rw [hdef, if_pos hsl, hpreds]

theorem read_variable_error_characterization_witness :
    read_variable (fun _ => DeclKind.localVar) 5 7 0
      ⟨[], [], [0], [], [], 3⟩ =
      some (Except.error (CErr.unboundLocal 7 0)) ∧
    SiteConds 7 (CErr.unboundLocal 7 0) ⟨[], [], [0], [], [], 3⟩ :=
  ⟨(read_variable_error_characterization (fun _ => DeclKind.localVar) 7
      (Or.inl rfl)).2 4 0 ⟨[], [], [0], [], [], 3⟩ (by decide) (by decide)
      (by decide),
   (read_variable_error_characterization (fun _ => DeclKind.localVar) 7
      (Or.inl rfl)).1 5 0 ⟨[], [], [0], [], [], 3⟩
      (CErr.unboundLocal 7 0) (by decide)
      (by intro bp l hl q hq; cases hl)⟩

/-- C8 counterexample: for a `ParamVar`-classified variable,
`read_variable` at a *sealed block with one predecessor* (and the
variable defined in that predecessor) raises `NotImplementedError` from
`set_variable` — a fatal error that is not the unbound-local error and
whose site is not a zero-predecessor block, refuting the claimed
"in every other case it returns a value without error". -/
theorem read_variable_paramvar_error :
    read_variable (fun _ => DeclKind.paramVar) 5 7 1
      ⟨[((7, 0), 40)], [], [0, 1], [(1, [0])], [(0, [⟨1, []⟩])], 60⟩ =
      some (Except.error (CErr.cannotSet 7)) ∧
    ¬ SiteConds 7 (CErr.cannotSet 7)
      ⟨[((7, 0), 40)], [], [0, 1], [(1, [0])], [(0, [⟨1, []⟩])], 60⟩ := by
  constructor
  · decide
  · intro hcon
    obtain ⟨b', he, _⟩ := hcon
    cases he

/-- C1: after a successful `seal_block(B)` — succeeding in particular
requires every predecessor continuation reached to be set — every
parameter `p` that was deferred for variable `v` in
`incomplete_params[B]`, for every predecessor `q` of `B` and every
continuation edge of `q` into `B`, has an entry `p ↦ val` in the edge's
argument map whose value `val` is exactly the reaching definition of `v`
recorded for the source block `q` (`current_def[v][q] = val`); the
well-formedness hypotheses say the deferred parameters belong to `B`,
were created by the fresh-parameter counter (distinct, below the
counter), and that their variables are of the classes `set_variable`
accepts. -/
theorem seal_block_I3 (decl : Nat → DeclKind) (fuel b : Nat)
    (s s' : CState)
    (h : seal_block decl fuel b s = some (Except.ok s'))
    (hdecl : ∀ it ∈ (alookupK b s.incomplete).getD [],
      decl it.1 = DeclKind.localVar ∨ decl it.1 = DeclKind.returnVar)
    (hlt : ∀ it ∈ (alookupK b s.incomplete).getD [],
      it.2.id < s.counter)
    (hnodup : ((((alookupK b s.incomplete).getD []).map
      (fun it => it.2.id))).Nodup)
    (hblk : ∀ it ∈ (alookupK b s.incomplete).getD [], it.2.blk = b) :
    ∀ it ∈ (alookupK b s.incomplete).getD [],
      ∀ q ∈ (alookupK b s.preds).getD [],
        ∃ val, alookupK (it.1, q) s'.defs = some val ∧
          ∀ edges, alookupK q s'.conts = some edges →
            ∀ e ∈ edges, e.target = b → alookupK it.2.id e.args = some val := by
  unfold seal_block at h
  cases hsg : sealGo (read_variable decl fuel)
      ((alookupK b s.incomplete).getD []) s with
  | none =>
      rw [hsg] at h
      simp only [Option.bind_eq_bind, Option.none_bind] at h
      cases h
  | some rr =>
      rw [hsg] at h
      simp only [Option.bind_eq_bind, Option.some_bind] at h
      cases rr with
      | error e₀ =>
          dsimp only at h
          cases h
      | ok s₁ =>
          dsimp only at h
          cases h
          intro it hit q hq
          have hest := (sealGo_spec decl fuel
            ((alookupK b s.incomplete).getD []) s _ hsg hdecl hlt hnodup
            s₁ rfl).2 it hit q (by rw [hblk it hit]; exact hq)
          obtain ⟨val, hdefs, hargs⟩ := hest
          refine ⟨val, hdefs, ?_⟩
          intro edges hl e he htgt
          exact hargs edges hl e he (by rw [hblk it hit]; exact htgt)

theorem seal_block_I3_witness :
    seal_block (fun _ => DeclKind.localVar) 10 2
        ⟨[((7, 0), 40), ((7, 1), 41)], [(2, [(7, ⟨50, 2⟩)])], [0, 1], [(0, []), (1, [0]), (2, [0, 1])], [(0, [⟨1, []⟩, ⟨2, []⟩]), (1, [⟨2, []⟩])], 60⟩ =
      some (Except.ok
        ⟨[((7, 0), 40), ((7, 1), 41)], [(2, [(7, ⟨50, 2⟩)])], [2, 0, 1], [(0, []), (1, [0]), (2, [0, 1])], [(0, [⟨1, []⟩, ⟨2, [(50, 40)]⟩]), (1, [⟨2, [(50, 41)]⟩])], 60⟩) ∧
    (∃ val, alookupK ((7 : Nat), (0 : Nat))
        ([((7, 0), 40), ((7, 1), 41)] : List ((Nat × Nat) × Nat)) =
        some val ∧
      ∀ edges, alookupK (0 : Nat)
          ([(0, [⟨1, []⟩, ⟨2, [(50, 40)]⟩]), (1, [⟨2, [(50, 41)]⟩])] :
            List (Nat × List CEdge)) = some edges →
        ∀ e ∈ edges, e.target = 2 →
          alookupK (50 : Nat) e.args = some val) :=
  ⟨by decide,
    seal_block_I3 (fun _ => DeclKind.localVar) 10 2
      ⟨[((7, 0), 40), ((7, 1), 41)], [(2, [(7, ⟨50, 2⟩)])], [0, 1], [(0, []), (1, [0]), (2, [0, 1])], [(0, [⟨1, []⟩, ⟨2, []⟩]), (1, [⟨2, []⟩])], 60⟩
      ⟨[((7, 0), 40), ((7, 1), 41)], [(2, [(7, ⟨50, 2⟩)])], [2, 0, 1], [(0, []), (1, [0]), (2, [0, 1])], [(0, [⟨1, []⟩, ⟨2, [(50, 40)]⟩]), (1, [⟨2, [(50, 41)]⟩])], 60⟩
      (by decide) (by decide) (by decide) (by decide) (by decide)
      (7, ⟨50, 2⟩) (by decide) 0 (by decide)⟩

end Garnet
